import Mathlib

/-! # The SQL tokenizer of TDengine (ttokenizer.c)

A shallow embedding of `src/util/src/ttokenizer.c`.

* A byte is a `Nat` (a `char` value taken as `0..255`).
* A NUL-terminated buffer is the `List Nat` of the bytes in front of the
  terminator; reading at or behind the end of the list yields the terminator `0`
  (`byteAt`).  Offsets and lengths are `Nat`: buffers are taken to be shorter
  than `2^31` bytes, so that no `uint32_t`/`int32_t` counter of the source wraps.
* A read of the 128-entry table `isIdChar` at an index outside the table, and a
  write behind the 128-byte `key` buffer of `tSQLKeywordCode`, have no defined
  result in C; the embedding returns `none` there.
-/

namespace TDengine

/-! ## Token kinds (`tsqldef.h`) -/

def TK_ID : Nat := 1
def TK_BOOL : Nat := 2
def TK_TINYINT : Nat := 3
def TK_SMALLINT : Nat := 4
def TK_INTEGER : Nat := 5
def TK_BIGINT : Nat := 6
def TK_FLOAT : Nat := 7
def TK_DOUBLE : Nat := 8
def TK_STRING : Nat := 9
def TK_TIMESTAMP : Nat := 10
def TK_BINARY : Nat := 11
def TK_NCHAR : Nat := 12
def TK_OR : Nat := 13
def TK_AND : Nat := 14
def TK_NOT : Nat := 15
def TK_EQ : Nat := 16
def TK_NE : Nat := 17
def TK_ISNULL : Nat := 18
def TK_NOTNULL : Nat := 19
def TK_IS : Nat := 20
def TK_LIKE : Nat := 21
def TK_GLOB : Nat := 22
def TK_BETWEEN : Nat := 23
def TK_IN : Nat := 24
def TK_GT : Nat := 25
def TK_GE : Nat := 26
def TK_LT : Nat := 27
def TK_LE : Nat := 28
def TK_BITAND : Nat := 29
def TK_BITOR : Nat := 30
def TK_LSHIFT : Nat := 31
def TK_RSHIFT : Nat := 32
def TK_PLUS : Nat := 33
def TK_MINUS : Nat := 34
def TK_DIVIDE : Nat := 35
def TK_TIMES : Nat := 36
def TK_STAR : Nat := 37
def TK_SLASH : Nat := 38
def TK_REM : Nat := 39
def TK_CONCAT : Nat := 40
def TK_UMINUS : Nat := 41
def TK_UPLUS : Nat := 42
def TK_BITNOT : Nat := 43
def TK_SHOW : Nat := 44
def TK_DATABASES : Nat := 45
def TK_MNODES : Nat := 46
def TK_DNODES : Nat := 47
def TK_ACCOUNTS : Nat := 48
def TK_USERS : Nat := 49
def TK_MODULES : Nat := 50
def TK_QUERIES : Nat := 51
def TK_CONNECTIONS : Nat := 52
def TK_STREAMS : Nat := 53
def TK_CONFIGS : Nat := 54
def TK_SCORES : Nat := 55
def TK_GRANTS : Nat := 56
def TK_DOT : Nat := 57
def TK_TABLES : Nat := 58
def TK_STABLES : Nat := 59
def TK_VGROUPS : Nat := 60
def TK_DROP : Nat := 61
def TK_TABLE : Nat := 62
def TK_DATABASE : Nat := 63
def TK_DNODE : Nat := 64
def TK_IPTOKEN : Nat := 65
def TK_USER : Nat := 66
def TK_ACCOUNT : Nat := 67
def TK_USE : Nat := 68
def TK_DESCRIBE : Nat := 69
def TK_ALTER : Nat := 70
def TK_PASS : Nat := 71
def TK_PRIVILEGE : Nat := 72
def TK_LOCAL : Nat := 73
def TK_IF : Nat := 74
def TK_EXISTS : Nat := 75
def TK_CREATE : Nat := 76
def TK_PPS : Nat := 77
def TK_TSERIES : Nat := 78
def TK_DBS : Nat := 79
def TK_STORAGE : Nat := 80
def TK_QTIME : Nat := 81
def TK_CONNS : Nat := 82
def TK_STATE : Nat := 83
def TK_KEEP : Nat := 84
def TK_CACHE : Nat := 85
def TK_REPLICA : Nat := 86
def TK_DAYS : Nat := 87
def TK_ROWS : Nat := 88
def TK_ABLOCKS : Nat := 89
def TK_TBLOCKS : Nat := 90
def TK_CTIME : Nat := 91
def TK_CLOG : Nat := 92
def TK_COMP : Nat := 93
def TK_PRECISION : Nat := 94
def TK_LP : Nat := 95
def TK_RP : Nat := 96
def TK_TAGS : Nat := 97
def TK_USING : Nat := 98
def TK_AS : Nat := 99
def TK_COMMA : Nat := 100
def TK_NULL : Nat := 101
def TK_SELECT : Nat := 102
def TK_FROM : Nat := 103
def TK_VARIABLE : Nat := 104
def TK_INTERVAL : Nat := 105
def TK_FILL : Nat := 106
def TK_SLIDING : Nat := 107
def TK_ORDER : Nat := 108
def TK_BY : Nat := 109
def TK_ASC : Nat := 110
def TK_DESC : Nat := 111
def TK_GROUP : Nat := 112
def TK_HAVING : Nat := 113
def TK_LIMIT : Nat := 114
def TK_OFFSET : Nat := 115
def TK_SLIMIT : Nat := 116
def TK_SOFFSET : Nat := 117
def TK_WHERE : Nat := 118
def TK_NOW : Nat := 119
def TK_INSERT : Nat := 120
def TK_INTO : Nat := 121
def TK_VALUES : Nat := 122
def TK_RESET : Nat := 123
def TK_QUERY : Nat := 124
def TK_ADD : Nat := 125
def TK_COLUMN : Nat := 126
def TK_TAG : Nat := 127
def TK_CHANGE : Nat := 128
def TK_SET : Nat := 129
def TK_KILL : Nat := 130
def TK_CONNECTION : Nat := 131
def TK_COLON : Nat := 132
def TK_STREAM : Nat := 133
def TK_ABORT : Nat := 134
def TK_AFTER : Nat := 135
def TK_ATTACH : Nat := 136
def TK_BEFORE : Nat := 137
def TK_BEGIN : Nat := 138
def TK_CASCADE : Nat := 139
def TK_CLUSTER : Nat := 140
def TK_CONFLICT : Nat := 141
def TK_COPY : Nat := 142
def TK_DEFERRED : Nat := 143
def TK_DELIMITERS : Nat := 144
def TK_DETACH : Nat := 145
def TK_EACH : Nat := 146
def TK_END : Nat := 147
def TK_EXPLAIN : Nat := 148
def TK_FAIL : Nat := 149
def TK_FOR : Nat := 150
def TK_IGNORE : Nat := 151
def TK_IMMEDIATE : Nat := 152
def TK_INITIALLY : Nat := 153
def TK_INSTEAD : Nat := 154
def TK_MATCH : Nat := 155
def TK_KEY : Nat := 156
def TK_OF : Nat := 157
def TK_RAISE : Nat := 158
def TK_REPLACE : Nat := 159
def TK_RESTRICT : Nat := 160
def TK_ROW : Nat := 161
def TK_STATEMENT : Nat := 162
def TK_TRIGGER : Nat := 163
def TK_VIEW : Nat := 164
def TK_ALL : Nat := 165
def TK_COUNT : Nat := 166
def TK_SUM : Nat := 167
def TK_AVG : Nat := 168
def TK_MIN : Nat := 169
def TK_MAX : Nat := 170
def TK_FIRST : Nat := 171
def TK_LAST : Nat := 172
def TK_TOP : Nat := 173
def TK_BOTTOM : Nat := 174
def TK_STDDEV : Nat := 175
def TK_PERCENTILE : Nat := 176
def TK_APERCENTILE : Nat := 177
def TK_LEASTSQUARES : Nat := 178
def TK_HISTOGRAM : Nat := 179
def TK_DIFF : Nat := 180
def TK_SPREAD : Nat := 181
def TK_TWA : Nat := 182
def TK_INTERP : Nat := 183
def TK_LAST_ROW : Nat := 184
def TK_SEMI : Nat := 185
def TK_NONE : Nat := 186
def TK_PREV : Nat := 187
def TK_LINEAR : Nat := 188
def TK_IMPORT : Nat := 189
def TK_METRIC : Nat := 190
def TK_TBNAME : Nat := 191
def TK_JOIN : Nat := 192
def TK_METRICS : Nat := 193
def TK_STABLE : Nat := 194

/-! ## Token kinds that `ttokenizer.c` uses and `tsqldef.h` does not define -/

/-- Modelled from the spec: `TK_FILE` is used by `keywordTable` and is not defined in
`tsqldef.h`; the spec has one variant per reserved keyword in a closed enumeration, so
it is a kind distinct from all others.  Only that distinctness is used. -/
def TK_FILE : Nat := 195

/-- Modelled from the spec: `TK_SPACE` (kind whitespace) is not defined in `tsqldef.h`;
a variant of the closed enumeration distinct from all others. -/
def TK_SPACE : Nat := 200

/-- Modelled from the spec: `TK_COMMENT` (kind comment) is not defined in `tsqldef.h`;
a variant of the closed enumeration distinct from all others. -/
def TK_COMMENT : Nat := 201

/-- Modelled from the spec: `TK_ILLEGAL` (the catch-all illegal marker) is not defined
in `tsqldef.h`; a variant of the closed enumeration distinct from all others. -/
def TK_ILLEGAL : Nat := 202

/-- Modelled from the spec: `TK_HEX` (kind hex literal) is not defined in `tsqldef.h`;
a variant of the closed enumeration distinct from all others. -/
def TK_HEX : Nat := 203

/-- Modelled from the spec: `TK_BIN` (kind binary literal) is not defined in
`tsqldef.h`; a variant of the closed enumeration distinct from all others. -/
def TK_BIN : Nat := 205

/-- Modelled from the spec: `TK_QUESTION` (kind question mark) is not defined in
`tsqldef.h`; a variant of the closed enumeration distinct from all others. -/
def TK_QUESTION : Nat := 207

/-! ## Buffers -/

/-- The byte `z[i]` of a NUL-terminated buffer. -/
def byteAt (z : List Nat) (i : Nat) : Nat := z.getD i 0

/-- The bytes of an ASCII string literal (one byte per character). -/
def bytes (s : String) : List Nat := s.toList.map Char.toNat

/-- The C string held by a `char` array: its bytes in front of the first NUL. -/
def cstr (a : List Nat) : List Nat := a.takeWhile (fun c => c != 0)

/-- A loop `for (; cond(i); i++) {}` started at `i`; the result is the final `i`.
The fuel bounds the number of iterations. -/
def forLoop (cond : Nat → Bool) : Nat → Nat → Nat
  | 0, i => i
  | fuel + 1, i => if cond i then forLoop cond fuel (i + 1) else i

/-! ## The keyword table -/

/-- An entry `SKeyword` of the keyword table (`len` is derived from `name`). -/
structure SKeyword where
  name : List Nat
  type : Nat
deriving DecidableEq

/-- One initialiser `{"NAME", TK_KIND}` of `keywordTable`. -/
def kw (s : String) (t : Nat) : SKeyword := ⟨bytes s, t⟩

def keywordTable : List SKeyword := [
  kw "ID" TK_ID, kw "BOOL" TK_BOOL, kw "TINYINT" TK_TINYINT,
  kw "SMALLINT" TK_SMALLINT, kw "INTEGER" TK_INTEGER, kw "INT" TK_INTEGER,
  kw "BIGINT" TK_BIGINT, kw "FLOAT" TK_FLOAT, kw "DOUBLE" TK_DOUBLE,
  kw "STRING" TK_STRING, kw "TIMESTAMP" TK_TIMESTAMP, kw "BINARY" TK_BINARY,
  kw "NCHAR" TK_NCHAR, kw "OR" TK_OR, kw "AND" TK_AND,
  kw "NOT" TK_NOT, kw "EQ" TK_EQ, kw "NE" TK_NE,
  kw "ISNULL" TK_ISNULL, kw "NOTNULL" TK_NOTNULL, kw "IS" TK_IS,
  kw "LIKE" TK_LIKE, kw "GLOB" TK_GLOB, kw "BETWEEN" TK_BETWEEN,
  kw "IN" TK_IN, kw "GT" TK_GT, kw "GE" TK_GE,
  kw "LT" TK_LT, kw "LE" TK_LE, kw "BITAND" TK_BITAND,
  kw "BITOR" TK_BITOR, kw "LSHIFT" TK_LSHIFT, kw "RSHIFT" TK_RSHIFT,
  kw "PLUS" TK_PLUS, kw "MINUS" TK_MINUS, kw "DIVIDE" TK_DIVIDE,
  kw "TIMES" TK_TIMES, kw "STAR" TK_STAR, kw "SLASH" TK_SLASH,
  kw "REM " TK_REM, kw "CONCAT" TK_CONCAT, kw "UMINUS" TK_UMINUS,
  kw "UPLUS" TK_UPLUS, kw "BITNOT" TK_BITNOT, kw "SHOW" TK_SHOW,
  kw "DATABASES" TK_DATABASES, kw "MNODES" TK_MNODES, kw "DNODES" TK_DNODES,
  kw "ACCOUNTS" TK_ACCOUNTS, kw "USERS" TK_USERS, kw "MODULES" TK_MODULES,
  kw "QUERIES" TK_QUERIES, kw "CONNECTIONS" TK_CONNECTIONS, kw "STREAMS" TK_STREAMS,
  kw "CONFIGS" TK_CONFIGS, kw "SCORES" TK_SCORES, kw "GRANTS" TK_GRANTS,
  kw "DOT" TK_DOT, kw "TABLES" TK_TABLES, kw "STABLES" TK_STABLES,
  kw "VGROUPS" TK_VGROUPS, kw "DROP" TK_DROP, kw "TABLE" TK_TABLE,
  kw "DATABASE" TK_DATABASE, kw "DNODE" TK_DNODE, kw "USER" TK_USER,
  kw "ACCOUNT" TK_ACCOUNT, kw "USE" TK_USE, kw "DESCRIBE" TK_DESCRIBE,
  kw "ALTER" TK_ALTER, kw "PASS" TK_PASS, kw "PRIVILEGE" TK_PRIVILEGE,
  kw "LOCAL" TK_LOCAL, kw "IF" TK_IF, kw "EXISTS" TK_EXISTS,
  kw "CREATE" TK_CREATE, kw "PPS" TK_PPS, kw "TSERIES" TK_TSERIES,
  kw "DBS" TK_DBS, kw "STORAGE" TK_STORAGE, kw "QTIME" TK_QTIME,
  kw "CONNS" TK_CONNS, kw "STATE" TK_STATE, kw "KEEP" TK_KEEP,
  kw "REPLICA" TK_REPLICA, kw "DAYS" TK_DAYS, kw "ROWS" TK_ROWS,
  kw "CACHE" TK_CACHE, kw "ABLOCKS" TK_ABLOCKS, kw "TBLOCKS" TK_TBLOCKS,
  kw "CTIME" TK_CTIME, kw "CLOG" TK_CLOG, kw "COMP" TK_COMP,
  kw "PRECISION" TK_PRECISION, kw "LP" TK_LP, kw "RP" TK_RP,
  kw "TAGS" TK_TAGS, kw "USING" TK_USING, kw "AS" TK_AS,
  kw "COMMA" TK_COMMA, kw "NULL" TK_NULL, kw "SELECT" TK_SELECT,
  kw "FROM" TK_FROM, kw "VARIABLE" TK_VARIABLE, kw "INTERVAL" TK_INTERVAL,
  kw "FILL" TK_FILL, kw "SLIDING" TK_SLIDING, kw "ORDER" TK_ORDER,
  kw "BY" TK_BY, kw "ASC" TK_ASC, kw "DESC" TK_DESC,
  kw "GROUP" TK_GROUP, kw "HAVING" TK_HAVING, kw "LIMIT" TK_LIMIT,
  kw "OFFSET" TK_OFFSET, kw "SLIMIT" TK_SLIMIT, kw "SOFFSET" TK_SOFFSET,
  kw "WHERE" TK_WHERE, kw "NOW" TK_NOW, kw "INSERT" TK_INSERT,
  kw "INTO" TK_INTO, kw "VALUES" TK_VALUES, kw "RESET" TK_RESET,
  kw "QUERY" TK_QUERY, kw "ADD" TK_ADD, kw "COLUMN" TK_COLUMN,
  kw "TAG" TK_TAG, kw "CHANGE" TK_CHANGE, kw "SET" TK_SET,
  kw "KILL" TK_KILL, kw "CONNECTION" TK_CONNECTION, kw "COLON" TK_COLON,
  kw "STREAM" TK_STREAM, kw "ABORT" TK_ABORT, kw "AFTER" TK_AFTER,
  kw "ATTACH" TK_ATTACH, kw "BEFORE" TK_BEFORE, kw "BEGIN" TK_BEGIN,
  kw "CASCADE" TK_CASCADE, kw "CLUSTER" TK_CLUSTER, kw "CONFLICT" TK_CONFLICT,
  kw "COPY" TK_COPY, kw "DEFERRED" TK_DEFERRED, kw "DELIMITERS" TK_DELIMITERS,
  kw "DETACH" TK_DETACH, kw "EACH" TK_EACH, kw "END" TK_END,
  kw "EXPLAIN" TK_EXPLAIN, kw "FAIL" TK_FAIL, kw "FOR" TK_FOR,
  kw "IGNORE" TK_IGNORE, kw "IMMEDIATE" TK_IMMEDIATE, kw "INITIALLY" TK_INITIALLY,
  kw "INSTEAD" TK_INSTEAD, kw "MATCH" TK_MATCH, kw "KEY" TK_KEY,
  kw "OF" TK_OF, kw "RAISE" TK_RAISE, kw "REPLACE" TK_REPLACE,
  kw "RESTRICT" TK_RESTRICT, kw "ROW" TK_ROW, kw "STATEMENT" TK_STATEMENT,
  kw "TRIGGER" TK_TRIGGER, kw "VIEW" TK_VIEW, kw "ALL" TK_ALL,
  kw "COUNT" TK_COUNT, kw "SUM" TK_SUM, kw "AVG" TK_AVG,
  kw "MIN" TK_MIN, kw "MAX" TK_MAX, kw "FIRST" TK_FIRST,
  kw "LAST" TK_LAST, kw "TOP" TK_TOP, kw "BOTTOM" TK_BOTTOM,
  kw "STDDEV" TK_STDDEV, kw "PERCENTILE" TK_PERCENTILE, kw "APERCENTILE" TK_APERCENTILE,
  kw "LEASTSQUARES" TK_LEASTSQUARES, kw "HISTOGRAM" TK_HISTOGRAM, kw "DIFF" TK_DIFF,
  kw "SPREAD" TK_SPREAD, kw "TWA" TK_TWA, kw "INTERP" TK_INTERP,
  kw "LAST_ROW" TK_LAST_ROW, kw "SEMI" TK_SEMI, kw "NONE" TK_NONE,
  kw "PREV" TK_PREV, kw "LINEAR" TK_LINEAR, kw "IMPORT" TK_IMPORT,
  kw "METRIC" TK_METRIC, kw "TBNAME" TK_TBNAME, kw "JOIN" TK_JOIN,
  kw "METRICS" TK_METRICS, kw "STABLE" TK_STABLE, kw "FILE" TK_FILE
]

/-- Modelled from the spec: the string hash table of `shash.c` (`taosInitStrHash`,
`taosAddStrHash`, `taosGetStrHashData`) is not part of the sources.  The spec describes
the keyword index as "a mapping from uppercased keyword text to Keyword Entry" that
answers on "exact ... match of the entire text"; the lookup returns the entry of the
table whose name is the key, if there is one. -/
def taosGetStrHashData (table : List SKeyword) (key : List Nat) : Option SKeyword :=
  table.find? (fun e => e.name == key)

/-- The byte stored into `key[j]`: `z[j] & 0xDF` for `'a' <= z[j] <= 'z'`, else `z[j]`. -/
def keyByte (c : Nat) : Nat := if 97 ≤ c ∧ c ≤ 122 then c &&& 0xDF else c

/-- The function `tSQLKeywordCode(z, n)`: the first `n` bytes of `z` are copied in upper
case into `char key[128] = {0}`, and the key is looked up in the keyword index.  For
`n >= 128` the key is not NUL-terminated inside the array (or is written behind it):
`none`. -/
def tSQLKeywordCode (z : List Nat) (n : Nat) : Option Nat :=
  if n < 128 then
    let key := (List.range n).map (fun j => keyByte (byteAt z j))
    match taosGetStrHashData keywordTable (cstr key) with
    | some e => some e.type
    | none => some TK_ID
  else none

/-! ## The character classes -/

/-- The table `isIdChar[]`: 128 entries, `1` for the digits, the letters and `_`. -/
def isIdChar : List Nat := [
  /- 0x -/ 0, 0, 0, 0, 0, 0, 0, 0, 0, 0, 0, 0, 0, 0, 0, 0,
  /- 1x -/ 0, 0, 0, 0, 0, 0, 0, 0, 0, 0, 0, 0, 0, 0, 0, 0,
  /- 2x -/ 0, 0, 0, 0, 0, 0, 0, 0, 0, 0, 0, 0, 0, 0, 0, 0,
  /- 3x -/ 1, 1, 1, 1, 1, 1, 1, 1, 1, 1, 0, 0, 0, 0, 0, 0,
  /- 4x -/ 0, 1, 1, 1, 1, 1, 1, 1, 1, 1, 1, 1, 1, 1, 1, 1,
  /- 5x -/ 1, 1, 1, 1, 1, 1, 1, 1, 1, 1, 1, 0, 0, 0, 0, 1,
  /- 6x -/ 0, 1, 1, 1, 1, 1, 1, 1, 1, 1, 1, 1, 1, 1, 1, 1,
  /- 7x -/ 1, 1, 1, 1, 1, 1, 1, 1, 1, 1, 1, 0, 0, 0, 0, 0]

/-- The function `isspace` of the C locale: space, `\t`, `\n`, `\v`, `\f`, `\r`. -/
def isspace (c : Nat) : Bool := c == 32 || (decide (9 ≤ c) && decide (c ≤ 13))

/-- The function `isdigit`: `'0'..'9'`. -/
def isdigit (c : Nat) : Bool := decide (48 ≤ c) && decide (c ≤ 57)

/-- The function `tolower` of the C locale. -/
def tolower (c : Nat) : Nat := if 65 ≤ c ∧ c ≤ 90 then c + 32 else c

/-- The test `strncasecmp(z, lit, n) == 0` for a literal `lit` of `n` bytes without NUL. -/
def strncasecmpEq (z : List Nat) (lit : List Nat) (n : Nat) : Bool :=
  (List.range n).all (fun j => tolower (byteAt z j) == tolower (byteAt lit j))

/-- The loop condition `((z[i] & 0x80) == 0) && isIdChar[z[i]]`; the table is read only
when the high bit is clear. -/
def idCharCond (z : List Nat) (i : Nat) : Bool :=
  (byteAt z i &&& 0x80 == 0) && (isIdChar.getD (byteAt z i) 0 != 0)

/-- The hex digit test `isdigit(c) || (c >= 'a' && c <= 'f') || (c >= 'A' && c <= 'F')`. -/
def isHexDigit (c : Nat) : Bool :=
  isdigit c || (decide (97 ≤ c) && decide (c ≤ 102)) || (decide (65 ≤ c) && decide (c ≤ 70))

/-- The duration letters tested after a digit run: `a s m h d n y w` in either case. -/
def isDurationLetter (c : Nat) : Bool :=
  c == 97 || c == 115 || c == 109 || c == 104 || c == 100 || c == 110 || c == 121 ||
  c == 119 || c == 65 || c == 83 || c == 77 || c == 72 || c == 68 || c == 78 ||
  c == 89 || c == 87

/-- The exponent test at `z[i]`: `(z[i] == 'e' || z[i] == 'E') && (isdigit(z[i + 1]) ||
((z[i + 1] == '+' || z[i + 1] == '-') && isdigit(z[i + 2])))`. -/
def isExponent (z : List Nat) (i : Nat) : Bool :=
  (byteAt z i == 101 || byteAt z i == 69) &&
  (isdigit (byteAt z (i + 1)) ||
    ((byteAt z (i + 1) == 43 || byteAt z (i + 1) == 45) && isdigit (byteAt z (i + 2))))

/-! ## The token scanner `tSQLGetToken` -/

/-- The loop of the quoted-string case, started at `i`:
`for (; z[i]; i++) { if (z[i] == delim) { if (z[i + 1] == delim) i++; else { strEnd =
true; break; } } }`; the result is the final `i` and `strEnd`. -/
def strLoop (z : List Nat) (delim : Nat) : Nat → Nat → Nat × Bool
  | 0, i => (i, false)
  | fuel + 1, i =>
    if byteAt z i != 0 then
      if byteAt z i == delim then
        if byteAt z (i + 1) == delim then strLoop z delim fuel (i + 2)
        else (i, true)
      else strLoop z delim fuel (i + 1)
    else (i, false)

/-- The loop over the `.`+digits segments, started at `i` with `seg` segments and kind
`type`: `while (z[i] == '.' && isdigit(z[i + 1])) { i += 2; while (isdigit(z[i])) i++;
*tokenType = TK_FLOAT; seg++; }`; the result is the final `(i, seg, type)`. -/
def segLoop (z : List Nat) : Nat → Nat → Nat → Nat → Nat × Nat × Nat
  | 0, i, seg, type => (i, seg, type)
  | fuel + 1, i, seg, type =>
    if byteAt z i == 46 && isdigit (byteAt z (i + 1)) then
      segLoop z fuel (forLoop (fun j => isdigit (byteAt z j)) z.length (i + 2)) (seg + 1)
        TK_FLOAT
    else (i, seg, type)

/-- The quoted-string case (`'` and `"`). -/
def scanString (z : List Nat) : Nat × Nat :=
  let delim := byteAt z 0
  let r := strLoop z delim z.length 1
  let i := if byteAt z r.1 != 0 then r.1 + 1 else r.1
  if r.2 then (i, TK_STRING) else (0, TK_ILLEGAL)

/-- The exponent step shared by the numeric cases: `if (exponent at i) { i += 2; while
(isdigit(z[i])) i++; *tokenType = TK_FLOAT; } return i;`. -/
def scanExponent (z : List Nat) (i type : Nat) : Nat × Nat :=
  if isExponent z i then (forLoop (fun j => isdigit (byteAt z j)) z.length (i + 2), TK_FLOAT)
  else (i, type)

/-- The case `.`: a float without integer part, or the dot token. -/
def scanDot (z : List Nat) : Nat × Nat :=
  if isdigit (byteAt z 1) then
    let i := forLoop (fun j => isdigit (byteAt z j)) z.length 2
    ((scanExponent z i TK_FLOAT).1, TK_FLOAT)
  else (1, TK_DOT)

/-- The cases `'1'..'9'`, also reached from the case `'0'` by fall-through.  The table
`isIdChar` is read at `z[i + 1]` without a test of the high bit: `none` when that index is
outside the table. -/
def scanNumber (z : List Nat) : Option (Nat × Nat) :=
  let i := forLoop (fun j => isdigit (byteAt z j)) z.length 1
  let tail : Nat × Nat :=
    let r := segLoop z z.length i 1 TK_INTEGER
    if r.2.1 = 4 then (r.1, TK_IPTOKEN) else scanExponent z r.1 r.2.2
  if isDurationLetter (byteAt z i) then
    match isIdChar[byteAt z (i + 1)]? with
    | none => none
    | some v => if v = 0 then some (i + 1, TK_VARIABLE) else some tail
  else some tail

/-- The case `'0'`: a binary or hex literal, `break` (the illegal token) when no digit
follows the prefix, and the fall-through into the decimal cases otherwise. -/
def scanZero (z : List Nat) : Option (Nat × Nat) :=
  let next := byteAt z 1
  if next = 98 then
    let i := forLoop (fun j => byteAt z j == 48 || byteAt z j == 49) z.length 2
    if i = 2 then some (0, TK_ILLEGAL) else some (i, TK_BIN)
  else if next = 120 then
    let i := forLoop (fun j => isHexDigit (byteAt z j)) z.length 2
    if i = 2 then some (0, TK_ILLEGAL) else some (i, TK_HEX)
  else scanNumber z

/-- The `default` case, also reached from the cases `T t F f` by fall-through: an
identifier or keyword, or `break` (the illegal token). -/
def scanIdentifier (z : List Nat) : Option (Nat × Nat) :=
  if (byteAt z 0 &&& 0x80 != 0) || (isIdChar.getD (byteAt z 0) 0 == 0) then
    some (0, TK_ILLEGAL)
  else
    let i := forLoop (idCharCond z) z.length 1
    match tSQLKeywordCode z i with
    | none => none
    | some t => some (i, t)

/-- The cases `T t F f`: the boolean literals, else the fall-through into `default`. -/
def scanBool (z : List Nat) : Option (Nat × Nat) :=
  let i := forLoop (idCharCond z) z.length 1
  if (i = 4 ∧ strncasecmpEq z (bytes "true") 4) ∨ (i = 5 ∧ strncasecmpEq z (bytes "false") 5)
  then some (i, TK_BOOL)
  else scanIdentifier z

/-- The function `tSQLGetToken(z, &tokenType)`: the length of the token that begins at
`z[0]` together with its kind; `none` where the C code has no defined result. -/
def tSQLGetToken (z : List Nat) : Option (Nat × Nat) :=
  let c := byteAt z 0
  if c = 32 ∨ c = 9 ∨ c = 10 ∨ c = 12 ∨ c = 13 then
    some (forLoop (fun i => isspace (byteAt z i)) z.length 1, TK_SPACE)
  else if c = 58 then some (1, TK_COLON)
  else if c = 45 then
    if byteAt z 1 = 45 then
      some (forLoop (fun i => byteAt z i != 0 && byteAt z i != 10) z.length 2, TK_COMMENT)
    else some (1, TK_MINUS)
  else if c = 40 then some (1, TK_LP)
  else if c = 41 then some (1, TK_RP)
  else if c = 59 then some (1, TK_SEMI)
  else if c = 43 then some (1, TK_PLUS)
  else if c = 42 then some (1, TK_STAR)
  else if c = 47 then
    if byteAt z 1 ≠ 42 ∨ byteAt z 2 = 0 then some (1, TK_SLASH)
    else
      let i := forLoop
        (fun i => byteAt z i != 0 && (byteAt z i != 47 || byteAt z (i - 1) != 42)) z.length 3
      some (if byteAt z i != 0 then i + 1 else i, TK_COMMENT)
  else if c = 37 then some (1, TK_REM)
  else if c = 61 then some (1 + (if byteAt z 1 = 61 then 1 else 0), TK_EQ)
  else if c = 60 then
    if byteAt z 1 = 61 then some (2, TK_LE)
    else if byteAt z 1 = 62 then some (2, TK_NE)
    else if byteAt z 1 = 60 then some (2, TK_LSHIFT)
    else some (1, TK_LT)
  else if c = 62 then
    if byteAt z 1 = 61 then some (2, TK_GE)
    else if byteAt z 1 = 62 then some (2, TK_RSHIFT)
    else some (1, TK_GT)
  else if c = 33 then
    if byteAt z 1 ≠ 61 then some (2, TK_ILLEGAL) else some (2, TK_NE)
  else if c = 124 then
    if byteAt z 1 ≠ 124 then some (1, TK_BITOR) else some (2, TK_CONCAT)
  else if c = 44 then some (1, TK_COMMA)
  else if c = 38 then some (1, TK_BITAND)
  else if c = 126 then some (1, TK_BITNOT)
  else if c = 63 then some (1, TK_QUESTION)
  else if c = 39 ∨ c = 34 then some (scanString z)
  else if c = 46 then some (scanDot z)
  else if c = 48 then scanZero z
  else if 49 ≤ c ∧ c ≤ 57 then scanNumber z
  else if c = 91 then
    some (forLoop (fun i => byteAt z i != 0 && byteAt z (i - 1) != 93) z.length 1, TK_ID)
  else if c = 84 ∨ c = 116 ∨ c = 70 ∨ c = 102 then scanBool z
  else scanIdentifier z

/-! ## Shapes of input named by the specification -/

/-- The inside of a quoted string with delimiter `d`, read from left to right: a sequence
of plain bytes (neither `d` nor NUL) and of doubled delimiters `dd`. -/
inductive QuoteBody (d : Nat) : List Nat → Prop
  | nil : QuoteBody d []
  | plain (b : Nat) (bs : List Nat) : b ≠ d → b ≠ 0 → QuoteBody d bs → QuoteBody d (b :: bs)
  | doubled (bs : List Nat) : QuoteBody d bs → QuoteBody d (d :: d :: bs)

/-- A non-empty run of decimal digits. -/
def IsDigitRun (ds : List Nat) : Prop := ds ≠ [] ∧ ∀ c ∈ ds, isdigit c = true

/-- The bytes of a sequence of segments, each written as `.` followed by its digits. -/
def dotted : List (List Nat) → List Nat
  | [] => []
  | s :: ss => 46 :: s ++ dotted ss

/-- No `*/` inside `l`: no index carries `*` with `/` right after it. -/
def NoClose (l : List Nat) : Prop := ∀ j, ¬ (byteAt l j = 42 ∧ byteAt l (j + 1) = 47)

/-- Spec-side relation for "the same text in another case": `b` is the byte `a`, or `a`
is an ASCII letter and `b` is the same letter in the other case. -/
def CaseVariant (a b : Nat) : Prop :=
  b = a ∨ (65 ≤ a ∧ a ≤ 90 ∧ b = a + 32) ∨ (97 ≤ a ∧ a ≤ 122 ∧ a = b + 32)

/-- An ASCII letter `A..Z` or `a..z`. -/
def isAsciiLetter (c : Nat) : Prop := (65 ≤ c ∧ c ≤ 90) ∨ (97 ≤ c ∧ c ≤ 122)

/-- The checks on one table entry that the lookup proofs use: the name fits the key
buffer, has no lower-case letter and no NUL, and the index answers its kind. -/
def entryOk (e : SKeyword) : Bool :=
  decide (e.name.length + 1 < 128) &&
  e.name.all (fun c => !(decide (97 ≤ c ∧ c ≤ 122)) && c != 0) &&
  ((taosGetStrHashData keywordTable e.name).map SKeyword.type == some e.type)


/-- The shape of every defined result of the scanner: a token of at least one byte with a
kind other than `TK_ILLEGAL`, or the zero-length illegal token. -/
def PlainResult (r : Option (Nat × Nat)) : Prop :=
  ∀ n k, r = some (n, k) → (1 ≤ n ∧ k ≠ TK_ILLEGAL) ∨ (n = 0 ∧ k = TK_ILLEGAL)

/-- The relation between length and kind that the specification states for the scanner on
the buffer `z`: length `0` only with kind illegal, and kind illegal only with length `0`,
except for a first byte `!` that is not followed by `=`, which gives length `2`. -/
def IllegalRule (z : List Nat) (r : Option (Nat × Nat)) : Prop :=
  ∀ n k, r = some (n, k) →
    (n = 0 → k = TK_ILLEGAL) ∧
    (k = TK_ILLEGAL → n = 0 ∨ (n = 2 ∧ byteAt z 0 = 33 ∧ byteAt z 1 ≠ 61))

/-! ## The compound token assembler `tStrGetToken` -/

/-- A token `SSQLToken`: `n` bytes of kind `type`; `z` is the offset of its text in
the buffer, `none` for the NULL pointer of the initial token `{0}`. -/
structure SSQLToken where
  n : Nat
  type : Nat
  z : Option Nat
deriving DecidableEq, Repr

/-- The inner loop of `tStrGetToken`, started at cursor `i`: `while (str[*i] is one of
space, \n, \r, \t, \f, or ',') { if (str[*i] == ',') { if (false == hasComma) hasComma =
true; else { t0.n = 0; return t0; } } (*i)++; }`.  The result is the final cursor and
whether the second comma was met (the `return`). -/
def skipLoop (str : List Nat) : Nat → Nat → Bool → Nat × Bool
  | 0, i, _ => (i, false)
  | fuel + 1, i, hasComma =>
    if byteAt str i = 32 ∨ byteAt str i = 10 ∨ byteAt str i = 13 ∨ byteAt str i = 9 ∨
        byteAt str i = 12 ∨ byteAt str i = 44 then
      if byteAt str i = 44 then
        if hasComma = false then skipLoop str fuel (i + 1) true
        else (i, true)
      else skipLoop str fuel (i + 1) hasComma
    else (i, false)

/-- The outer loop `while (1)` of `tStrGetToken`, entered with cursor `i` and the token
`t0 = (n, type)`: `*i += t0.n`, the inner loop, one call of `tSQLGetToken` at `&str[*i]`,
and `break` unless the kind is one of `ignoreTokenTypes`.  The result is
`(comma, *i, t0.n, t0.type)`, `comma` telling that the function returned from the inner
loop; `none` where `tSQLGetToken` has no defined result or the fuel is used up. -/
def scanLoop (str : List Nat) (ignoreTokenTypes : List Nat) :
    Nat → Nat → Nat → Nat → Option (Bool × Nat × Nat × Nat)
  | 0, _, _, _ => none
  | fuel + 1, i, n, type =>
    let r := skipLoop str str.length (i + n) false
    if r.2 then some (true, r.1, 0, type)
    else
      match tSQLGetToken (str.drop r.1) with
      | none => none
      | some (n2, type2) =>
        if ignoreTokenTypes.contains type2 then scanLoop str ignoreTokenTypes fuel r.1 n2 type2
        else some (false, r.1, n2, type2)

/-- The function `tStrGetToken(str, &i, isPrevOptr, numOfIgnoreToken, ignoreTokenTypes)`:
the token returned together with the final cursor `*i`; `none` where the C code has no
defined result. -/
def tStrGetToken (str : List Nat) (i : Nat) (isPrevOptr : Bool) (ignoreTokenTypes : List Nat) :
    Option (SSQLToken × Nat) :=
  if byteAt str i = 0 then some (⟨0, 0, none⟩, i)
  else
    match scanLoop str ignoreTokenTypes (str.length + 1) i 0 0 with
    | none => none
    | some (true, i1, n, type) => some (⟨n, type, none⟩, i1)
    | some (false, i1, n, type) =>
      if type = TK_SEMI then some (⟨0, type, none⟩, i1)
      else if byteAt str (i1 + n) = 46 then
        match tSQLGetToken (str.drop (i1 + n + 1)) with
        | none => none
        | some (len, _) =>
          if type ≠ TK_STRING ∧ type ≠ TK_ID then some (⟨0, TK_ILLEGAL, none⟩, i1)
          else some (⟨n + (len + 1), type, some i1⟩, i1 + (n + (len + 1)))
      else if isPrevOptr = true ∧ (type = TK_MINUS ∨ type = TK_PLUS) then
        match tSQLGetToken (str.drop (i1 + n)) with
        | none => none
        | some (len, type2) =>
          if type2 = TK_INTEGER ∨ type2 = TK_FLOAT then
            some (⟨n + len, type2, some i1⟩, i1 + (n + len))
          else some (⟨n, type, some i1⟩, i1 + n)
      else some (⟨n, type, some i1⟩, i1 + n)

/-! ## The numeric validator `isValidNumber` -/

/-- The tail of the case `'.'` of `isValidNumber`, after the test of `z[i + 1]`:
`for (i += 2; isdigit(z[i]); i++) {}`, the exponent step, `type = TK_FLOAT; goto _end;`.
The result is the final `(i, type)`. -/
def validDot (z : List Nat) (i : Nat) : Nat × Nat :=
  ((scanExponent z (forLoop (fun j => isdigit (byteAt z j)) z.length (i + 2)) TK_FLOAT).1,
    TK_FLOAT)

/-- The decimal cases `'1'..'9'` of `isValidNumber`, also reached from the case `'0'`:
the digit run, the segment loop with `seg` counted from `0`, `return TK_ILLEGAL` for
`seg > 1` (`none` here), else the exponent step and `goto _end` with the final
`(i, type)`. -/
def validDecimal (z : List Nat) (i : Nat) : Option (Nat × Nat) :=
  let i1 := forLoop (fun j => isdigit (byteAt z j)) z.length i
  let r := segLoop z z.length i1 0 TK_INTEGER
  if r.2.1 > 1 then none else some (scanExponent z r.1 r.2.2)

/-- The label `_end` of `isValidNumber`: `if (i < pToken->n) return TK_ILLEGAL; else
return type;`. -/
def validEnd (n i type : Nat) : Nat := if i < n then TK_ILLEGAL else type

/-- The loop `for (; i < pToken->n; ++i) switch (z[i])` of `isValidNumber`. -/
def validLoop (z : List Nat) (n : Nat) : Nat → Nat → Nat
  | 0, i => validEnd n i TK_ILLEGAL
  | fuel + 1, i =>
    if i < n then
      if byteAt z i = 43 ∨ byteAt z i = 45 then validLoop z n fuel (i + 1)
      else if byteAt z i = 46 then
        if isdigit (byteAt z (i + 1)) = false then TK_ILLEGAL
        else validEnd n (validDot z i).1 (validDot z i).2
      else if byteAt z i = 48 ∧ byteAt z (i + 1) = 98 then
        validEnd n (forLoop (fun j => byteAt z j == 48 || byteAt z j == 49) z.length (i + 2))
          TK_BIN
      else if byteAt z i = 48 ∧ byteAt z (i + 1) = 120 then
        validEnd n (forLoop (fun j => isHexDigit (byteAt z j)) z.length (i + 2)) TK_HEX
      else if 48 ≤ byteAt z i ∧ byteAt z i ≤ 57 then
        match validDecimal z i with
        | none => TK_ILLEGAL
        | some r => validEnd n r.1 r.2
      else TK_ILLEGAL
    else validEnd n i TK_ILLEGAL

/-- The function `isValidNumber(pToken)` for a token of `n` bytes whose text pointer
`pToken->z` points at the buffer `z`. -/
def isValidNumber (z : List Nat) (n : Nat) : Nat := validLoop z n n 0

/-! ## Shapes of input named by the specification (assembler and validator) -/

/-- One of the five whitespace bytes that start a whitespace token: space, `\t`, `\n`,
`\f`, `\r`. -/
def isBlank (c : Nat) : Bool := c == 32 || c == 9 || c == 10 || c == 12 || c == 13

/-- The length of the maximal prefix made only of the five whitespace bytes. -/
def blankPrefixLen (z : List Nat) : Nat := (z.takeWhile isBlank).length

/-- An ASCII identifier character as the specification names it: a letter, a digit or
the underscore. -/
def isIdentByte (c : Nat) : Bool :=
  isdigit c || (decide (65 ≤ c) && decide (c ≤ 90)) || (decide (97 ≤ c) && decide (c ≤ 122)) ||
    c == 95

/-- The first bytes that claim C12 lists as starting a token: the five whitespace bytes,
the operator and delimiter bytes `: ( ) ; + % , & ~ ? - / = < > ! |`, the quotes, `.`, the
digits, `[` and the ASCII identifier characters. -/
def listedStart (c : Nat) : Bool :=
  isBlank c || c == 58 || c == 40 || c == 41 || c == 59 || c == 43 || c == 37 || c == 44 ||
  c == 38 || c == 126 || c == 63 || c == 45 || c == 47 || c == 61 || c == 60 || c == 62 ||
  c == 33 || c == 124 || c == 39 || c == 34 || c == 46 || isdigit c || c == 91 ||
  isIdentByte c

/-- The first bytes that have a `case` label of their own in the `switch` of
`tSQLGetToken`, apart from the labels `T t F f`. -/
def isCaseLabel (c : Nat) : Bool :=
  isBlank c || c == 58 || c == 45 || c == 40 || c == 41 || c == 59 || c == 43 || c == 42 ||
  c == 47 || c == 37 || c == 61 || c == 60 || c == 62 || c == 33 || c == 124 || c == 44 ||
  c == 38 || c == 126 || c == 63 || c == 39 || c == 34 || c == 46 || isdigit c || c == 91

/-- An identifier as claim C17 names it: a non-empty run of ASCII identifier characters
that starts with a letter or an underscore. -/
def IsIdentifier (name : List Nat) : Prop :=
  name ≠ [] ∧ (∀ c ∈ name, isIdentByte c = true) ∧ isdigit (byteAt name 0) = false

/-- A block comment that is closed: `/*`, an inside without NUL, and the first `*/`
behind the opener. -/
def IsBlockComment (cm : List Nat) : Prop :=
  ∃ inside : List Nat, cm = 47 :: 42 :: (inside ++ [42, 47]) ∧ (∀ c ∈ inside, c ≠ 0) ∧
    NoClose (inside ++ [42])

/-- The bound that claim C24 states for a result of the scanner on the buffer `z`, whose
bytes are the bytes in front of the terminator: the length is at most `z.length`, except
for the buffer that holds only `!`, which gives length `2` with kind `TK_ILLEGAL`. -/
def BoundRule (z : List Nat) (r : Option (Nat × Nat)) : Prop :=
  ∀ n k, r = some (n, k) → n ≤ z.length ∨ (n = 2 ∧ k = TK_ILLEGAL ∧ z = [33])
/-! # Theorems -/

/-! ## Keyword lookup: facts about the table -/

set_option maxRecDepth 1000000 in
theorem keywordTable_entryOk : keywordTable.all entryOk = true := by decide

theorem entryOk_of_mem {e : SKeyword} (he : e ∈ keywordTable) : entryOk e = true :=
  List.all_eq_true.mp keywordTable_entryOk e he

theorem keyByte_lower (c : Nat) (h1 : 97 ≤ c) (h2 : c ≤ 122) : keyByte c = c - 32 := by
  unfold keyByte
  rw [if_pos ⟨h1, h2⟩]
  interval_cases c <;> rfl

theorem keyByte_other (c : Nat) (h : ¬ (97 ≤ c ∧ c ≤ 122)) : keyByte c = c := by
  unfold keyByte
  rw [if_neg h]

theorem keyByte_ne_zero (c : Nat) (h : c ≠ 0) : keyByte c ≠ 0 := by
  by_cases hc : 97 ≤ c ∧ c ≤ 122
  · rw [keyByte_lower c hc.1 hc.2]; omega
  · rw [keyByte_other c hc]; exact h

theorem byteAt_lt (z : List Nat) (i : Nat) (h : i < z.length) : byteAt z i = z[i] := by
  unfold byteAt
  simp [List.getD_eq_getElem?_getD, List.getElem?_eq_getElem h]

theorem byteAt_ge (z : List Nat) (i : Nat) (h : z.length ≤ i) : byteAt z i = 0 := by
  unfold byteAt
  simp [List.getD_eq_getElem?_getD, List.getElem?_eq_none h]

theorem map_range_byteAt (f : Nat → Nat) (t : List Nat) :
    (List.range t.length).map (fun j => f (byteAt t j)) = t.map f := by
  apply List.ext_getElem
  · simp
  · intro i h1 h2
    simp only [List.getElem_map, List.getElem_range]
    rw [byteAt_lt t i (by simpa using h1)]

theorem cstr_eq_self (a : List Nat) (h : ∀ c ∈ a, c ≠ 0) : cstr a = a := by
  unfold cstr
  rw [List.takeWhile_eq_self_iff]
  intro c hc
  simpa using h c hc

/-- The lookup on a full text without NUL: the key is the text in upper case. -/
theorem tSQLKeywordCode_full (t : List Nat) (hlen : t.length < 128) (h0 : ∀ c ∈ t, c ≠ 0) :
    tSQLKeywordCode t t.length =
      some ((taosGetStrHashData keywordTable (t.map keyByte)).elim TK_ID SKeyword.type) := by
  unfold tSQLKeywordCode
  rw [if_pos hlen]
  simp only [map_range_byteAt]
  rw [cstr_eq_self]
  · cases taosGetStrHashData keywordTable (t.map keyByte) <;> rfl
  · intro c hc
    obtain ⟨b, hb, rfl⟩ := List.mem_map.mp hc
    exact keyByte_ne_zero b (h0 b hb)

theorem keyByte_caseVariant (a b : Nat) (ha : ¬ (97 ≤ a ∧ a ≤ 122)) (h : CaseVariant a b) :
    keyByte b = a := by
  rcases h with h | ⟨h1, h2, h3⟩ | ⟨h1, h2, _⟩
  · subst h; exact keyByte_other _ ha
  · subst h3; rw [keyByte_lower _ (by omega) (by omega)]; omega
  · exact absurd ⟨h1, h2⟩ ha

theorem map_keyByte_caseVariant (name t : List Nat)
    (hn : ∀ c ∈ name, ¬ (97 ≤ c ∧ c ≤ 122)) (h : List.Forall₂ CaseVariant name t) :
    t.map keyByte = name := by
  induction h with
  | nil => rfl
  | cons hab _ ih =>
    rw [List.map_cons, keyByte_caseVariant _ _ (hn _ (List.mem_cons_self _ _)) hab,
      ih (fun c hc => hn c (List.mem_cons_of_mem _ hc))]

theorem caseVariant_ne_zero (a b : Nat) (ha : a ≠ 0) (h : CaseVariant a b) : b ≠ 0 := by
  rcases h with h | ⟨_, _, h3⟩ | ⟨h1, _, h3⟩ <;> omega

theorem entry_name_facts {e : SKeyword} (he : e ∈ keywordTable) :
    e.name.length + 1 < 128 ∧ (∀ c ∈ e.name, ¬ (97 ≤ c ∧ c ≤ 122) ∧ c ≠ 0) ∧
      (taosGetStrHashData keywordTable e.name).map SKeyword.type = some e.type := by
  have h := entryOk_of_mem he
  unfold entryOk at h
  simp only [Bool.and_eq_true, decide_eq_true_eq, List.all_eq_true, Bool.not_eq_true',
    decide_eq_false_iff_not, bne_iff_ne, ne_eq, beq_iff_eq] at h
  exact ⟨h.1.1, h.1.2, h.2⟩

/-- C1: for every entry `(name, kind)` of the keyword table and every text obtained from
`name` by changing the case of any subset of its ASCII letters, `tSQLKeywordCode` called
on that text with its full length returns `kind`. -/
theorem tSQLKeywordCode_any_case (e : SKeyword) (he : e ∈ keywordTable) (t : List Nat)
    (ht : List.Forall₂ CaseVariant e.name t) :
    tSQLKeywordCode t t.length = some e.type := by
  obtain ⟨hlen, hchars, hfind⟩ := entry_name_facts he
  have hl : t.length = e.name.length := ht.length_eq.symm
  have h0 : ∀ c ∈ t, c ≠ 0 := by
    intro c hc
    obtain ⟨i, hi, rfl⟩ := List.getElem_of_mem hc
    have hi2 : i < e.name.length := by omega
    have hv : CaseVariant e.name[i] t[i] := by
      have := List.forall₂_iff_get.mp ht
      exact this.2 i hi2 hi
    exact caseVariant_ne_zero _ _ (hchars _ (List.getElem_mem hi2)).2 hv
  rw [tSQLKeywordCode_full t (by omega) h0,
    map_keyByte_caseVariant e.name t (fun c hc => (hchars c hc).1) ht]
  cases hf : taosGetStrHashData keywordTable e.name with
  | none => rw [hf] at hfind; cases hfind
  | some e2 =>
    rw [hf] at hfind
    simp only [Option.map_some', Option.some.injEq] at hfind
    simp [Option.elim, hfind]

theorem tSQLKeywordCode_any_case_witness :
    kw "SELECT" TK_SELECT ∈ keywordTable ∧
    List.Forall₂ CaseVariant (kw "SELECT" TK_SELECT).name (bytes "SeLecT") ∧
    tSQLKeywordCode (bytes "SeLecT") (bytes "SeLecT").length = some (kw "SELECT" TK_SELECT).type :=
  have hm : kw "SELECT" TK_SELECT ∈ keywordTable := by decide
  have hv : List.Forall₂ CaseVariant (kw "SELECT" TK_SELECT).name (bytes "SeLecT") := by
    simp [kw, bytes, CaseVariant]
  ⟨hm, hv, tSQLKeywordCode_any_case _ hm _ hv⟩

theorem map_keyByte_name {e : SKeyword} (he : e ∈ keywordTable) :
    e.name.map keyByte = e.name := by
  have h := (entry_name_facts he).2.1
  conv_rhs => rw [← List.map_id e.name]
  apply List.map_congr_left
  intro c hc
  exact keyByte_other c (h c hc).1

theorem isAsciiLetter_ne_zero {c : Nat} (hc : isAsciiLetter c) : c ≠ 0 := by
  unfold isAsciiLetter at hc
  omega

theorem tSQLKeywordCode_name_append {e : SKeyword} (he : e ∈ keywordTable) {c : Nat}
    (hc : isAsciiLetter c) :
    tSQLKeywordCode (e.name ++ [c]) (e.name.length + 1) =
      some ((taosGetStrHashData keywordTable (e.name ++ [keyByte c])).elim TK_ID
        SKeyword.type) := by
  obtain ⟨hlen, hchars, _⟩ := entry_name_facts he
  have hl : (e.name ++ [c]).length = e.name.length + 1 := by simp
  rw [← hl, tSQLKeywordCode_full _ (by omega)]
  · rw [List.map_append, map_keyByte_name he]; rfl
  · intro b hb
    rcases List.mem_append.mp hb with hb | hb
    · exact (hchars b hb).2
    · rw [List.mem_singleton] at hb
      subst hb
      exact isAsciiLetter_ne_zero hc

/-- C2 (as stated, refuted): `TABLE` followed by `S` is the keyword `TABLES`, so the
lookup of a keyword name followed by a letter does not always answer `TK_ID`. -/
theorem tSQLKeywordCode_plus_letter_counterexample :
    ¬ (∀ e ∈ keywordTable, ∀ c : Nat, isAsciiLetter c →
        tSQLKeywordCode (e.name ++ [c]) (e.name.length + 1) = some TK_ID) := by
  intro h
  have h1 := h (kw "TABLE" TK_TABLE) (by decide) 83 (Or.inl (by decide))
  revert h1
  decide

/-- C2 (amended): for every entry `(name, kind)` of the keyword table and every ASCII
letter `c`, `tSQLKeywordCode` on `name` followed by `c` returns `TK_ID` when `name`
followed by the upper-case form of `c` is not itself a name of the keyword table, and
returns the kind of that entry when it is. -/
theorem tSQLKeywordCode_plus_letter (e : SKeyword) (he : e ∈ keywordTable) (c : Nat)
    (hc : isAsciiLetter c) :
    ((∀ e2 ∈ keywordTable, e2.name ≠ e.name ++ [keyByte c]) →
        tSQLKeywordCode (e.name ++ [c]) (e.name.length + 1) = some TK_ID) ∧
    (∀ e2 ∈ keywordTable, e2.name = e.name ++ [keyByte c] →
        tSQLKeywordCode (e.name ++ [c]) (e.name.length + 1) = some e2.type) := by
  rw [tSQLKeywordCode_name_append he hc]
  constructor
  · intro hno
    have : taosGetStrHashData keywordTable (e.name ++ [keyByte c]) = none := by
      unfold taosGetStrHashData
      rw [List.find?_eq_none]
      intro e2 he2
      simpa using hno e2 he2
    rw [this]; rfl
  · intro e2 he2 hname
    have hf := (entry_name_facts he2).2.2
    rw [hname] at hf
    cases hq : taosGetStrHashData keywordTable (e.name ++ [keyByte c]) with
    | none => rw [hq] at hf; cases hf
    | some e3 =>
      rw [hq] at hf
      simp only [Option.map_some', Option.some.injEq] at hf
      simp [Option.elim, hf]

theorem tSQLKeywordCode_plus_letter_witness :
    kw "TABLE" TK_TABLE ∈ keywordTable ∧ isAsciiLetter 115 ∧
    ((∀ e2 ∈ keywordTable, e2.name ≠ (kw "TABLE" TK_TABLE).name ++ [keyByte 115]) →
        tSQLKeywordCode ((kw "TABLE" TK_TABLE).name ++ [115])
          ((kw "TABLE" TK_TABLE).name.length + 1) = some TK_ID) ∧
    (∀ e2 ∈ keywordTable, e2.name = (kw "TABLE" TK_TABLE).name ++ [keyByte 115] →
        tSQLKeywordCode ((kw "TABLE" TK_TABLE).name ++ [115])
          ((kw "TABLE" TK_TABLE).name.length + 1) = some e2.type) :=
  have hm : kw "TABLE" TK_TABLE ∈ keywordTable := by decide
  have hc : isAsciiLetter 115 := Or.inr (by decide)
  ⟨hm, hc, tSQLKeywordCode_plus_letter _ hm 115 hc⟩

/-! ## Reading bytes and running loops -/

theorem byteAt_nil (i : Nat) : byteAt [] i = 0 := byteAt_ge [] i (Nat.zero_le _)

theorem byteAt_cons_zero (c : Nat) (z : List Nat) : byteAt (c :: z) 0 = c := rfl

theorem byteAt_cons_succ (c : Nat) (z : List Nat) (i : Nat) :
    byteAt (c :: z) (i + 1) = byteAt z i := rfl

theorem byteAt_append_left (a b : List Nat) (i : Nat) (h : i < a.length) :
    byteAt (a ++ b) i = byteAt a i := by
  rw [byteAt_lt _ _ (by simp; omega), byteAt_lt _ _ h, List.getElem_append_left h]

theorem byteAt_append_right (a b : List Nat) (i : Nat) :
    byteAt (a ++ b) (a.length + i) = byteAt b i := by
  induction a with
  | nil => simp
  | cons c a ih =>
    rw [List.cons_append, List.length_cons, show a.length + 1 + i = (a.length + i) + 1 by omega,
      byteAt_cons_succ, ih]

theorem byteAt_append_length (a b : List Nat) : byteAt (a ++ b) a.length = byteAt b 0 :=
  byteAt_append_right a b 0

theorem byteAt_mem {z : List Nat} {i : Nat} (h : byteAt z i ≠ 0) : i < z.length := by
  by_contra hn
  exact h (byteAt_ge z i (by omega))

/-- A loop that holds its condition on `[i, k)` and fails it at `k` ends at `k`. -/
theorem forLoop_eq (cond : Nat → Bool) (k : Nat) (hk : cond k = false) :
    ∀ (fuel i : Nat), i ≤ k → k ≤ i + fuel → (∀ j, i ≤ j → j < k → cond j = true) →
      forLoop cond fuel i = k := by
  intro fuel
  induction fuel with
  | zero => intro i h1 h2 _; simp only [forLoop]; omega
  | succ f ih =>
    intro i h1 h2 h
    simp only [forLoop]
    by_cases hik : i = k
    · subst hik; simp [hk]
    · rw [if_pos (h i (Nat.le_refl _) (by omega))]
      exact ih (i + 1) (by omega) (by omega) (fun j hj1 hj2 => h j (by omega) hj2)

theorem forLoop_ge (cond : Nat → Bool) : ∀ (fuel i : Nat), i ≤ forLoop cond fuel i := by
  intro fuel
  induction fuel with
  | zero => intro i; simp [forLoop]
  | succ f ih =>
    intro i
    simp only [forLoop]
    split
    · exact Nat.le_trans (Nat.le_succ i) (ih (i + 1))
    · exact Nat.le_refl _

/-- A loop whose condition fails behind the buffer stays inside the buffer. -/
theorem forLoop_le (cond : Nat → Bool) (L : Nat) (hc : ∀ j, cond j = true → j < L) :
    ∀ (fuel i : Nat), i ≤ L → forLoop cond fuel i ≤ L := by
  intro fuel
  induction fuel with
  | zero => intro i h; simpa [forLoop] using h
  | succ f ih =>
    intro i h
    simp only [forLoop]
    split
    · next hci => exact ih (i + 1) (hc i hci)
    · exact h

/-- With enough fuel a loop ends because its condition fails: a condition that fails
behind the buffer is never cut short by the fuel `z.length`. -/
theorem forLoop_stops (cond : Nat → Bool) (L : Nat) (hc : ∀ j, cond j = true → j < L) :
    ∀ (fuel i : Nat), L ≤ i + fuel → cond (forLoop cond fuel i) = false := by
  intro fuel
  induction fuel with
  | zero =>
    intro i h
    simp only [forLoop]
    by_contra hn
    have := hc i (by simpa using hn)
    omega
  | succ f ih =>
    intro i h
    simp only [forLoop]
    split
    · exact ih (i + 1) (by omega)
    · next hn => simpa using hn

/-- The buffer `z` read from offset `i` on is the list `l` (followed by NULs). -/
theorem window_append (pre l : List Nat) : ∀ k, byteAt (pre ++ l) (pre.length + k) = byteAt l k :=
  fun k => byteAt_append_right pre l k

theorem window_zero (l : List Nat) : ∀ k, byteAt l (0 + k) = byteAt l k := by
  intro k; rw [Nat.zero_add]

/-- A loop that tests the byte `z[j]` runs over a run of bytes that pass the test and
stops at the first byte that fails it. -/
theorem forLoop_run (p : Nat → Bool) (z : List Nat) (i : Nat) (run tail : List Nat)
    (hw : ∀ k, byteAt z (i + k) = byteAt (run ++ tail) k)
    (hrun : ∀ c ∈ run, p c = true) (htail : p (byteAt tail 0) = false) (fuel k : Nat)
    (hk : k ≤ run.length) (hfuel : run.length ≤ k + fuel) :
    forLoop (fun j => p (byteAt z j)) fuel (i + k) = i + run.length := by
  apply forLoop_eq
  · show p (byteAt z (i + run.length)) = false
    rw [hw, byteAt_append_length]
    exact htail
  · omega
  · omega
  · intro j hj1 hj2
    show p (byteAt z j) = true
    obtain ⟨m, rfl⟩ : ∃ m, j = i + m := ⟨j - i, by omega⟩
    rw [hw, byteAt_append_left _ _ _ (by omega)]
    apply hrun
    rw [byteAt_lt _ _ (by omega)]
    exact List.getElem_mem _

/-! ## Quoted strings -/

theorem strLoop_closed (d : Nat) (hd : d ≠ 0) (body : List Nat) (hb : QuoteBody d body) :
    ∀ (z : List Nat) (i : Nat) (tail : List Nat) (fuel : Nat), body.length < fuel →
      (∀ k, byteAt z (i + k) = byteAt (body ++ tail) k) →
      byteAt tail 0 = d → byteAt tail 1 ≠ d →
      strLoop z d fuel i = (i + body.length, true) := by
  induction hb with
  | nil =>
    intro z i tail fuel hf hw h0 h1
    obtain ⟨f, rfl⟩ : ∃ f, fuel = f + 1 := ⟨fuel - 1, by simp at hf; omega⟩
    have e0 : byteAt z i = d := by simpa [h0] using hw 0
    have e1 : byteAt z (i + 1) ≠ d := by rw [hw 1]; simpa using h1
    simp [strLoop, e0, e1, hd]
  | plain b bs hbd hb0 _ ih =>
    intro z i tail fuel hf hw h0 h1
    obtain ⟨f, rfl⟩ : ∃ f, fuel = f + 1 := ⟨fuel - 1, by omega⟩
    have e0 : byteAt z i = b := by simpa [byteAt_cons_zero] using hw 0
    have hi := ih z (i + 1) tail f (by simp at hf; omega)
      (fun k => by rw [show i + 1 + k = i + (k + 1) by omega, hw]; rfl) h0 h1
    simp only [strLoop, e0, bne_iff_ne, ne_eq, hb0, not_false_eq_true, if_true, beq_iff_eq, hbd,
      if_false]
    rw [hi, List.length_cons]
    congr 1
    omega
  | doubled bs _ ih =>
    intro z i tail fuel hf hw h0 h1
    obtain ⟨f, rfl⟩ : ∃ f, fuel = f + 1 := ⟨fuel - 1, by omega⟩
    have e0 : byteAt z i = d := by simpa [byteAt_cons_zero] using hw 0
    have e1 : byteAt z (i + 1) = d := by rw [hw 1]; rfl
    have hi := ih z (i + 2) tail f (by simp at hf; omega)
      (fun k => by rw [show i + 2 + k = i + (k + 1 + 1) by omega, hw]; rfl) h0 h1
    simp only [strLoop, e0, e1, bne_iff_ne, ne_eq, hd, not_false_eq_true, if_true,
      beq_self_eq_true]
    rw [hi, List.length_cons, List.length_cons]
    congr 1
    omega

theorem strLoop_open (d : Nat) (hd : d ≠ 0) (body : List Nat) (hb : QuoteBody d body) :
    ∀ (z : List Nat) (i : Nat) (tail : List Nat) (fuel : Nat), body.length < fuel →
      (∀ k, byteAt z (i + k) = byteAt (body ++ tail) k) → byteAt tail 0 = 0 →
      strLoop z d fuel i = (i + body.length, false) := by
  induction hb with
  | nil =>
    intro z i tail fuel hf hw h0
    obtain ⟨f, rfl⟩ : ∃ f, fuel = f + 1 := ⟨fuel - 1, by simp at hf; omega⟩
    have e0 : byteAt z i = 0 := by simpa [h0] using hw 0
    simp [strLoop, e0]
  | plain b bs hbd hb0 _ ih =>
    intro z i tail fuel hf hw h0
    obtain ⟨f, rfl⟩ : ∃ f, fuel = f + 1 := ⟨fuel - 1, by omega⟩
    have e0 : byteAt z i = b := by simpa [byteAt_cons_zero] using hw 0
    have hi := ih z (i + 1) tail f (by simp at hf; omega)
      (fun k => by rw [show i + 1 + k = i + (k + 1) by omega, hw]; rfl) h0
    simp only [strLoop, e0, bne_iff_ne, ne_eq, hb0, not_false_eq_true, if_true, beq_iff_eq, hbd,
      if_false]
    rw [hi, List.length_cons]
    congr 1
    omega
  | doubled bs _ ih =>
    intro z i tail fuel hf hw h0
    obtain ⟨f, rfl⟩ : ∃ f, fuel = f + 1 := ⟨fuel - 1, by omega⟩
    have e0 : byteAt z i = d := by simpa [byteAt_cons_zero] using hw 0
    have e1 : byteAt z (i + 1) = d := by rw [hw 1]; rfl
    have hi := ih z (i + 2) tail f (by simp at hf; omega)
      (fun k => by rw [show i + 2 + k = i + (k + 1 + 1) by omega, hw]; rfl) h0
    simp only [strLoop, e0, e1, bne_iff_ne, ne_eq, hd, not_false_eq_true, if_true,
      beq_self_eq_true]
    rw [hi, List.length_cons, List.length_cons]
    congr 1
    omega

theorem tSQLGetToken_quote (z : List Nat) (h : byteAt z 0 = 39 ∨ byteAt z 0 = 34) :
    tSQLGetToken z = some (scanString z) := by
  unfold tSQLGetToken
  rcases h with h | h <;> simp [h]

/-- C3: for a buffer whose first byte is a quote delimiter `d` (`'` or `"`) and whose
inside, read from left to right, is a sequence of plain bytes and doubled delimiters
`dd`: when an undoubled `d` closes it at index `j`, `tSQLGetToken` returns kind string
with length `j + 1`; when the terminator comes first it returns kind illegal with length
`0`.  `'it''s'` gives `(7, string)`, `'unterminated` gives `(0, illegal)`. -/
theorem tSQLGetToken_string (d : Nat) (hd : d = 39 ∨ d = 34) (body : List Nat)
    (hb : QuoteBody d body) :
    (∀ rest, byteAt rest 0 ≠ d →
        tSQLGetToken (d :: body ++ d :: rest) = some ((body.length + 1) + 1, TK_STRING)) ∧
    (∀ tail, byteAt tail 0 = 0 → tSQLGetToken (d :: body ++ tail) = some (0, TK_ILLEGAL)) ∧
    tSQLGetToken (39 :: (bytes "it" ++ 39 :: 39 :: bytes "s" ++ [39])) = some (7, TK_STRING) ∧
    tSQLGetToken (39 :: bytes "unterminated") = some (0, TK_ILLEGAL) := by
  have hd0 : d ≠ 0 := by omega
  refine ⟨?_, ?_, by decide, by decide⟩
  · intro rest hrest
    rw [tSQLGetToken_quote (d :: body ++ d :: rest) hd]
    have hl := strLoop_closed d hd0 body hb (d :: body ++ d :: rest) 1 (d :: rest)
      (d :: body ++ d :: rest).length (by simp; omega)
      (fun k => by rw [Nat.add_comm]; rfl) rfl hrest
    have e : byteAt (d :: body ++ d :: rest) (1 + body.length) = d := by
      rw [Nat.add_comm, List.cons_append, byteAt_cons_succ, byteAt_append_length]; rfl
    simp only [scanString, byteAt_cons_zero, List.cons_append, hl, e] at *
    simp [hd0, Nat.add_comm]
  · intro tail htail
    rw [tSQLGetToken_quote (d :: body ++ tail) hd]
    by_cases hlen : body.length < (d :: body ++ tail).length
    · have hl := strLoop_open d hd0 body hb (d :: body ++ tail) 1 tail
        (d :: body ++ tail).length hlen (fun k => by rw [Nat.add_comm]; rfl) htail
      simp only [scanString, byteAt_cons_zero, List.cons_append, hl] at *
      simp
    · simp at hlen
      omega

theorem tSQLGetToken_string_witness :
    (34 = 39 ∨ 34 = 34) ∧ QuoteBody 34 [97, 34, 34, 98] ∧
    tSQLGetToken (34 :: [97, 34, 34, 98] ++ 34 :: bytes " x") =
      some ((([97, 34, 34, 98] : List Nat).length + 1) + 1, TK_STRING) ∧
    tSQLGetToken (34 :: [97, 34, 34, 98] ++ []) = some (0, TK_ILLEGAL) :=
  have hb : QuoteBody 34 [97, 34, 34, 98] :=
    QuoteBody.plain 97 _ (by decide) (by decide)
      (QuoteBody.doubled _ (QuoteBody.plain 98 _ (by decide) (by decide) QuoteBody.nil))
  have h := tSQLGetToken_string 34 (Or.inr rfl) [97, 34, 34, 98] hb
  ⟨Or.inr rfl, hb, h.1 (bytes " x") (by decide), h.2.1 [] rfl⟩

/-! ## Numeric literals -/

theorem isdigit_iff (c : Nat) : isdigit c = true ↔ 48 ≤ c ∧ c ≤ 57 := by
  simp [isdigit]

theorem isdigit_false_iff (c : Nat) : isdigit c = false ↔ ¬ (48 ≤ c ∧ c ≤ 57) := by
  rw [← isdigit_iff]; simp

theorem tSQLGetToken_zero (z : List Nat) (h0 : byteAt z 0 = 48) :
    tSQLGetToken z = scanZero z := by
  simp [tSQLGetToken, h0]

theorem tSQLGetToken_nonzero_digit (z : List Nat) (h0 : 49 ≤ byteAt z 0 ∧ byteAt z 0 ≤ 57) :
    tSQLGetToken z = scanNumber z := by
  have h : byteAt z 0 = 49 ∨ byteAt z 0 = 50 ∨ byteAt z 0 = 51 ∨ byteAt z 0 = 52 ∨
      byteAt z 0 = 53 ∨ byteAt z 0 = 54 ∨ byteAt z 0 = 55 ∨ byteAt z 0 = 56 ∨
      byteAt z 0 = 57 := by omega
  rcases h with h | h | h | h | h | h | h | h | h <;> simp [tSQLGetToken, h]

theorem scanZero_decimal (z : List Nat) (h1 : byteAt z 1 ≠ 98) (h2 : byteAt z 1 ≠ 120) :
    scanZero z = scanNumber z := by
  simp [scanZero, h1, h2]

/-- A buffer that starts with a digit, without a `b` or `x` at index 1, is scanned by the
decimal cases. -/
theorem tSQLGetToken_decimal (z : List Nat) (h0 : isdigit (byteAt z 0) = true)
    (h1 : byteAt z 1 ≠ 98) (h2 : byteAt z 1 ≠ 120) : tSQLGetToken z = scanNumber z := by
  rw [isdigit_iff] at h0
  by_cases h : byteAt z 0 = 48
  · rw [tSQLGetToken_zero z h, scanZero_decimal z h1 h2]
  · exact tSQLGetToken_nonzero_digit z (by omega)

theorem isdigit_ne_zero {c : Nat} (h : isdigit c = true) : c ≠ 0 := by
  rw [isdigit_iff] at h; omega

theorem window_shift (z : List Nat) (i : Nat) (a b : List Nat)
    (hw : ∀ k, byteAt z (i + k) = byteAt (a ++ b) k) :
    ∀ k, byteAt z (i + a.length + k) = byteAt b k := by
  intro k
  rw [Nat.add_assoc, hw, byteAt_append_right]

/-- A run of bytes without NUL that the buffer holds lies inside the buffer. -/
theorem window_length (z : List Nat) (i : Nat) (run tail : List Nat)
    (hw : ∀ k, byteAt z (i + k) = byteAt (run ++ tail) k) (h0 : ∀ c ∈ run, c ≠ 0) :
    run.length ≤ z.length := by
  by_cases hr : run.length = 0
  · omega
  · have hlt : run.length - 1 < run.length := by omega
    have h1 : byteAt z (i + (run.length - 1)) ≠ 0 := by
      rw [hw, byteAt_append_left _ _ _ hlt, byteAt_lt _ _ hlt]
      exact h0 _ (List.getElem_mem _)
    have := byteAt_mem h1
    omega

/-- The digit loop of the source (with the buffer length as fuel) over a run of digits. -/
theorem digitLoop_run (z : List Nat) (i : Nat) (run tail : List Nat)
    (hw : ∀ k, byteAt z (i + k) = byteAt (run ++ tail) k)
    (hrun : ∀ c ∈ run, isdigit c = true) (htail : isdigit (byteAt tail 0) = false) (k : Nat)
    (hk : k ≤ run.length) :
    forLoop (fun j => isdigit (byteAt z j)) z.length (i + k) = i + run.length := by
  have hl := window_length z i run tail hw (fun c hc => isdigit_ne_zero (hrun c hc))
  exact forLoop_run isdigit z i run tail hw hrun htail z.length k hk (by omega)

theorem byteAt_digitRun_zero {s : List Nat} (hs : IsDigitRun s) (t : List Nat) :
    isdigit (byteAt (s ++ t) 0) = true := by
  obtain ⟨hne, hall⟩ := hs
  cases s with
  | nil => exact absurd rfl hne
  | cons c cs => exact hall c (List.mem_cons_self _ _)

theorem digitRun_length_pos {s : List Nat} (hs : IsDigitRun s) : 1 ≤ s.length := by
  obtain ⟨hne, _⟩ := hs
  cases s with
  | nil => exact absurd rfl hne
  | cons c cs => simp

theorem dotted_append_head (segs : List (List Nat)) (tail : List Nat)
    (ht : isdigit (byteAt tail 0) = false) : isdigit (byteAt (dotted segs ++ tail) 0) = false := by
  cases segs with
  | nil => simpa [dotted] using ht
  | cons s ss => rfl

theorem length_le_dotted (segs : List (List Nat)) : segs.length ≤ (dotted segs).length := by
  induction segs with
  | nil => simp [dotted]
  | cons s ss ih => simp [dotted]; omega

/-- The segment loop over `k` segments `.`+digits that are followed by something that is
neither a digit nor `.`+digit: it ends behind the segments and has counted them. -/
theorem segLoop_dotted (z : List Nat) (segs : List (List Nat)) (tail : List Nat)
    (hs : ∀ s ∈ segs, IsDigitRun s) (ht0 : isdigit (byteAt tail 0) = false)
    (ht1 : ¬ (byteAt tail 0 = 46 ∧ isdigit (byteAt tail 1) = true)) :
    ∀ (fuel i seg type : Nat), segs.length ≤ fuel →
      (∀ k, byteAt z (i + k) = byteAt (dotted segs ++ tail) k) →
      segLoop z fuel i seg type =
        (i + (dotted segs).length, seg + segs.length, if segs = [] then type else TK_FLOAT) := by
  induction segs with
  | nil =>
    intro fuel i seg type _ hw
    have e0 : byteAt z i = byteAt tail 0 := by simpa [dotted] using hw 0
    have e1 : byteAt z (i + 1) = byteAt tail 1 := by simpa [dotted] using hw 1
    cases fuel with
    | zero => simp [segLoop, dotted]
    | succ f =>
      have hc : (byteAt z i == 46 && isdigit (byteAt z (i + 1))) = false := by
        rw [e0, e1]
        by_cases h46 : byteAt tail 0 = 46
        · have := fun h => ht1 ⟨h46, h⟩
          simp [h46]
          simpa using this
        · simp [h46]
      simp [segLoop, hc, dotted]
  | cons s ss ih =>
    intro fuel i seg type hf hw
    obtain ⟨f, rfl⟩ : ∃ f, fuel = f + 1 := ⟨fuel - 1, by simp at hf; omega⟩
    have hsr : IsDigitRun s := hs s (List.mem_cons_self _ _)
    have hw1 : ∀ k, byteAt z (i + 1 + k) = byteAt (s ++ (dotted ss ++ tail)) k := by
      intro k
      rw [show i + 1 + k = i + (k + 1) by omega, hw]
      simp [dotted, byteAt_cons_succ]
    have e0 : byteAt z i = 46 := by simpa [dotted, byteAt_cons_zero] using hw 0
    have e1 : isdigit (byteAt z (i + 1)) = true := by
      have := hw1 0
      rw [Nat.add_zero] at this
      rw [this]
      exact byteAt_digitRun_zero hsr _
    have hin : forLoop (fun j => isdigit (byteAt z j)) z.length (i + 2) = i + 1 + s.length :=
      digitLoop_run z (i + 1) s (dotted ss ++ tail) hw1 hsr.2 (dotted_append_head ss tail ht0) 1
        (digitRun_length_pos hsr)
    have hi := ih (fun s2 h2 => hs s2 (List.mem_cons_of_mem _ h2)) f (i + 1 + s.length)
      (seg + 1) TK_FLOAT (by simp at hf; omega) (window_shift z (i + 1) s _ hw1)
    simp only [segLoop, e0, e1, beq_self_eq_true, Bool.and_self, if_true, hin, hi]
    simp [dotted]
    omega

theorem isExponent_window (z : List Nat) (i : Nat) (l : List Nat)
    (hw : ∀ k, byteAt z (i + k) = byteAt l k) : isExponent z i = isExponent l 0 := by
  have h0 := hw 0
  have h1 := hw 1
  have h2 := hw 2
  rw [Nat.add_zero] at h0
  simp only [isExponent, h0, h1, h2, Nat.zero_add]

/-- The first digit loop of `scanNumber` over a buffer that starts with a digit run. -/
theorem firstDigits (digits more : List Nat) (hd : IsDigitRun digits)
    (hm : isdigit (byteAt more 0) = false) :
    forLoop (fun j => isdigit (byteAt (digits ++ more) j)) (digits ++ more).length 1 =
      digits.length := by
  have h := digitLoop_run (digits ++ more) 0 digits more (window_zero _) hd.2 hm 1
    (digitRun_length_pos hd)
  simpa using h

/-- A buffer that starts with a digit run followed by a byte other than `b` and `x` is
scanned by the decimal cases. -/
theorem tSQLGetToken_digitRun (digits more : List Nat) (hd : IsDigitRun digits)
    (h1 : byteAt more 0 ≠ 98) (h2 : byteAt more 0 ≠ 120) :
    tSQLGetToken (digits ++ more) = scanNumber (digits ++ more) := by
  apply tSQLGetToken_decimal
  · exact byteAt_digitRun_zero hd more
  all_goals
    obtain ⟨hne, hall⟩ := hd
    match digits, hne, hall with
    | [c], _, _ => simpa [byteAt_cons_succ] using (by assumption)
    | c :: c2 :: cs, _, hall =>
      have := (isdigit_iff c2).mp (hall c2 (by simp))
      simp only [List.cons_append, byteAt_cons_succ, byteAt_cons_zero]
      omega

theorem dotted_cons_head (s : List Nat) (ss : List (List Nat)) (tail : List Nat) :
    byteAt (dotted (s :: ss) ++ tail) 0 = 46 := rfl

theorem isDurationLetter_dot : isDurationLetter 46 = false := by decide

/-- C5: for a buffer that starts with a non-empty digit run followed by `k >= 1` segments
`.`+digits and then by something that is neither a digit, nor `.`+digit, nor an exponent,
`tSQLGetToken` consumes the digit run and all `k` segments; the kind is `TK_IPTOKEN`
exactly when `k = 3` and `TK_FLOAT` for every other `k`.  `192.168.1.1` gives
`(11, TK_IPTOKEN)`. -/
theorem tSQLGetToken_dotted (digits : List Nat) (segs : List (List Nat)) (rest : List Nat)
    (hd : IsDigitRun digits) (hs : ∀ s ∈ segs, IsDigitRun s) (hk : 1 ≤ segs.length)
    (hr0 : isdigit (byteAt rest 0) = false)
    (hr1 : ¬ (byteAt rest 0 = 46 ∧ isdigit (byteAt rest 1) = true))
    (hr2 : isExponent rest 0 = false) :
    tSQLGetToken (digits ++ (dotted segs ++ rest)) =
        some (digits.length + (dotted segs).length,
          if segs.length = 3 then TK_IPTOKEN else TK_FLOAT) ∧
    tSQLGetToken (bytes "192.168.1.1") = some (11, TK_IPTOKEN) := by
  refine ⟨?_, by decide⟩
  obtain ⟨s, ss, rfl⟩ : ∃ s ss, segs = s :: ss := by
    cases segs with
    | nil => simp at hk
    | cons s ss => exact ⟨s, ss, rfl⟩
  have h46 : byteAt (dotted (s :: ss) ++ rest) 0 = 46 := rfl
  rw [tSQLGetToken_digitRun digits _ hd (by rw [h46]; decide) (by rw [h46]; decide)]
  have hi := firstDigits digits (dotted (s :: ss) ++ rest) hd (by rw [h46]; rfl)
  have hw := window_append digits (dotted (s :: ss) ++ rest)
  have hz : byteAt (digits ++ (dotted (s :: ss) ++ rest)) digits.length = 46 := by
    rw [byteAt_append_length]; rfl
  have hseg := segLoop_dotted (digits ++ (dotted (s :: ss) ++ rest)) (s :: ss) rest hs hr0 hr1
    (digits ++ (dotted (s :: ss) ++ rest)).length digits.length 1 TK_INTEGER
    (by have := length_le_dotted (s :: ss); simp at this ⊢; omega) hw
  have hexp : isExponent (digits ++ (dotted (s :: ss) ++ rest))
      (digits.length + (dotted (s :: ss)).length) = false := by
    rw [isExponent_window _ _ rest (window_shift _ _ _ _ hw)]
    exact hr2
  simp only [scanNumber, hi, hz, isDurationLetter_dot, hseg, scanExponent, hexp]
  by_cases h3 : ss.length = 2
  · simp [h3]
  · have h4 : ¬ (1 + (ss.length + 1) = 4) := by omega
    simp [h3, h4]

theorem tSQLGetToken_dotted_witness :
    IsDigitRun (bytes "10") ∧ (∀ s ∈ [bytes "0", bytes "25"], IsDigitRun s) ∧
    tSQLGetToken (bytes "10" ++ (dotted [bytes "0", bytes "25"] ++ bytes " x")) =
      some ((bytes "10").length + (dotted [bytes "0", bytes "25"]).length,
        if [bytes "0", bytes "25"].length = 3 then TK_IPTOKEN else TK_FLOAT) :=
  have h1 : IsDigitRun (bytes "10") := ⟨by decide, by decide⟩
  have h2 : ∀ s ∈ [bytes "0", bytes "25"], IsDigitRun s := by
    intro s hs
    simp only [List.mem_cons, List.mem_singleton, List.not_mem_nil, or_false] at hs
    rcases hs with rfl | rfl <;> exact ⟨by decide, by decide⟩
  ⟨h1, h2, (tSQLGetToken_dotted _ _ (bytes " x") h1 h2 (by decide) (by decide) (by decide)
    (by decide)).1⟩

theorem isDurationLetter_cases {c : Nat} (h : isDurationLetter c = true) :
    isdigit c = false ∧ c ≠ 98 ∧ c ≠ 120 := by
  simp only [isDurationLetter, Bool.or_eq_true, beq_iff_eq] at h
  rw [isdigit_false_iff]
  omega

set_option maxRecDepth 8000 in
/-- C6: for a buffer that starts with a non-empty digit run of length `d` followed by one
duration letter (`a s m h d n y w`, either case) and then by an ASCII byte that is not an
identifier character (or by the terminator), `tSQLGetToken` returns `TK_VARIABLE` with
length `d + 1`; for a digit run followed by the terminator it returns `TK_INTEGER` with
length `d`.  `123s` gives `(4, TK_VARIABLE)`, `123` gives `(3, TK_INTEGER)`. -/
theorem tSQLGetToken_duration (digits : List Nat) (letter : Nat) (rest : List Nat)
    (hd : IsDigitRun digits) (hl : isDurationLetter letter = true)
    (hr : isIdChar[byteAt rest 0]? = some 0) :
    tSQLGetToken (digits ++ letter :: rest) = some (digits.length + 1, TK_VARIABLE) ∧
    tSQLGetToken digits = some (digits.length, TK_INTEGER) ∧
    tSQLGetToken (bytes "123s") = some (4, TK_VARIABLE) ∧
    tSQLGetToken (bytes "123") = some (3, TK_INTEGER) := by
  refine ⟨?_, ?_, rfl, rfl⟩
  · obtain ⟨hl0, hl1, hl2⟩ := isDurationLetter_cases hl
    rw [tSQLGetToken_digitRun digits (letter :: rest) hd hl1 hl2]
    have hi := firstDigits digits (letter :: rest) hd hl0
    have hz : byteAt (digits ++ letter :: rest) digits.length = letter := by
      rw [byteAt_append_length]; rfl
    have hz1 : byteAt (digits ++ letter :: rest) (digits.length + 1) = byteAt rest 0 := by
      rw [byteAt_append_right]; rfl
    simp only [scanNumber, hi, hz, hl, hz1, hr, if_true]
  · have hnil : digits = digits ++ [] := (List.append_nil digits).symm
    rw [hnil, tSQLGetToken_digitRun digits [] hd (by decide) (by decide)]
    have hi := firstDigits digits [] hd (by decide)
    have hw := window_append digits []
    have hz : byteAt (digits ++ []) digits.length = 0 := by
      rw [byteAt_append_length]; rfl
    have hseg := segLoop_dotted (digits ++ []) [] [] (by simp) (by decide) (by decide)
      (digits ++ []).length digits.length 1 TK_INTEGER (by simp) hw
    have hexp : isExponent (digits ++ []) (digits.length + (dotted []).length) = false := by
      rw [isExponent_window _ _ [] (window_shift _ _ _ _ hw)]
      decide
    have hdur : isDurationLetter 0 = false := by decide
    simp only [scanNumber, hi, hz, hdur, hseg, scanExponent, hexp]
    simp [dotted]

set_option maxRecDepth 8000 in
theorem tSQLGetToken_duration_witness :
    IsDigitRun (bytes "90") ∧ isDurationLetter 100 = true ∧
    isIdChar[byteAt (bytes " ago") 0]? = some 0 ∧
    tSQLGetToken (bytes "90" ++ 100 :: bytes " ago") =
      some ((bytes "90").length + 1, TK_VARIABLE) ∧
    tSQLGetToken (bytes "90") = some ((bytes "90").length, TK_INTEGER) :=
  have h1 : IsDigitRun (bytes "90") := ⟨by decide, by decide⟩
  have h := tSQLGetToken_duration (bytes "90") 100 (bytes " ago") h1 rfl rfl
  ⟨h1, rfl, rfl, h.1, h.2.1⟩

/-- C7: for a buffer that starts with a non-empty digit run, followed by `k` segments
`.`+digits with `k != 3`, followed by an exponent (`e` or `E`, an optional `+` or `-`, one
or more digits) and then by a byte that is not a digit, `tSQLGetToken` returns `TK_FLOAT`
with the length of the digits, the segments and the whole exponent.  `1.5e-3` gives
`(6, TK_FLOAT)`. -/
theorem tSQLGetToken_exponent (digits : List Nat) (segs : List (List Nat)) (e : Nat)
    (sign expd rest : List Nat) (hd : IsDigitRun digits) (hs : ∀ s ∈ segs, IsDigitRun s)
    (hk : segs.length ≠ 3) (he : e = 101 ∨ e = 69)
    (hsign : sign = [] ∨ sign = [43] ∨ sign = [45]) (hx : IsDigitRun expd)
    (hr : isdigit (byteAt rest 0) = false) :
    tSQLGetToken (digits ++ (dotted segs ++ e :: (sign ++ (expd ++ rest)))) =
        some (digits.length + (dotted segs).length + 1 + sign.length + expd.length, TK_FLOAT) ∧
    tSQLGetToken (bytes "1.5e-3") = some (6, TK_FLOAT) := by
  refine ⟨?_, by decide⟩
  have he0 : isdigit e = false ∧ e ≠ 46 ∧ e ≠ 98 ∧ e ≠ 120 ∧ isDurationLetter e = false := by
    rcases he with rfl | rfl <;> decide
  have hx0 : isdigit (byteAt (expd ++ rest) 0) = true := byteAt_digitRun_zero hx rest
  have hm : byteAt (dotted segs ++ e :: (sign ++ (expd ++ rest))) 0 = 46 ∨
      byteAt (dotted segs ++ e :: (sign ++ (expd ++ rest))) 0 = e := by
    cases segs with
    | nil => right; rfl
    | cons s ss => left; rfl
  have hm1 : byteAt (dotted segs ++ e :: (sign ++ (expd ++ rest))) 0 ≠ 98 ∧
      byteAt (dotted segs ++ e :: (sign ++ (expd ++ rest))) 0 ≠ 120 ∧
      isdigit (byteAt (dotted segs ++ e :: (sign ++ (expd ++ rest))) 0) = false ∧
      isDurationLetter (byteAt (dotted segs ++ e :: (sign ++ (expd ++ rest))) 0) = false := by
    rcases hm with h | h <;> rw [h]
    · decide
    · exact ⟨he0.2.2.1, he0.2.2.2.1, he0.1, he0.2.2.2.2⟩
  rw [tSQLGetToken_digitRun digits _ hd hm1.1 hm1.2.1]
  have hi := firstDigits digits _ hd hm1.2.2.1
  have hw := window_append digits (dotted segs ++ e :: (sign ++ (expd ++ rest)))
  have hz : byteAt (digits ++ (dotted segs ++ e :: (sign ++ (expd ++ rest)))) digits.length =
      byteAt (dotted segs ++ e :: (sign ++ (expd ++ rest))) 0 := byteAt_append_length _ _
  have hseg := segLoop_dotted (digits ++ (dotted segs ++ e :: (sign ++ (expd ++ rest)))) segs
    (e :: (sign ++ (expd ++ rest))) hs he0.1 (fun h => he0.2.1 h.1)
    (digits ++ (dotted segs ++ e :: (sign ++ (expd ++ rest)))).length digits.length 1
    TK_INTEGER (by have := length_le_dotted segs; simp; omega) hw
  have hw2 := window_shift _ _ _ _ hw
  have hw3 : ∀ k, byteAt (digits ++ (dotted segs ++ e :: (sign ++ (expd ++ rest))))
      (digits.length + (dotted segs).length + 1 + k) = byteAt (sign ++ (expd ++ rest)) k := by
    intro k
    rw [show digits.length + (dotted segs).length + 1 + k =
      digits.length + (dotted segs).length + (k + 1) by omega, hw2]
    rfl
  have hexp : isExponent (digits ++ (dotted segs ++ e :: (sign ++ (expd ++ rest))))
      (digits.length + (dotted segs).length) = true := by
    rw [isExponent_window _ _ _ hw2]
    rw [isdigit_iff] at hx0
    rcases he with rfl | rfl <;> rcases hsign with rfl | rfl | rfl <;>
      simp [isExponent, byteAt_cons_succ, byteAt_cons_zero, isdigit] <;> omega
  have hloop : forLoop
      (fun j => isdigit (byteAt (digits ++ (dotted segs ++ e :: (sign ++ (expd ++ rest)))) j))
      (digits ++ (dotted segs ++ e :: (sign ++ (expd ++ rest)))).length
      (digits.length + (dotted segs).length + 2) =
      digits.length + (dotted segs).length + 1 + sign.length + expd.length := by
    rcases hsign with rfl | rfl | rfl
    · have := digitLoop_run _ (digits.length + (dotted segs).length + 1) expd rest
        (by simpa using hw3) hx.2 hr 1 (digitRun_length_pos hx)
      simpa [Nat.add_assoc] using this
    · have := digitLoop_run _ (digits.length + (dotted segs).length + 1 + 1) expd rest
        (window_shift _ _ [43] _ hw3) hx.2 hr 0 (Nat.zero_le _)
      simpa [Nat.add_assoc] using this
    · have := digitLoop_run _ (digits.length + (dotted segs).length + 1 + 1) expd rest
        (window_shift _ _ [45] _ hw3) hx.2 hr 0 (Nat.zero_le _)
      simpa [Nat.add_assoc] using this
  have h4 : ¬ (1 + segs.length = 4) := by omega
  simp only [scanNumber, hi, hz, hm1.2.2.2, hseg, scanExponent, hexp, hloop, h4]
  simp

theorem tSQLGetToken_exponent_witness :
    IsDigitRun (bytes "6") ∧ (∀ s ∈ [bytes "02"], IsDigitRun s) ∧ IsDigitRun (bytes "23") ∧
    tSQLGetToken (bytes "6" ++ (dotted [bytes "02"] ++ 69 :: ([43] ++ (bytes "23" ++ bytes ")")))) =
      some ((bytes "6").length + (dotted [bytes "02"]).length + 1 + [43].length +
        (bytes "23").length, TK_FLOAT) :=
  have h1 : IsDigitRun (bytes "6") := ⟨by decide, by decide⟩
  have h2 : ∀ s ∈ [bytes "02"], IsDigitRun s := by
    intro s hs
    rw [List.mem_singleton] at hs
    subst hs
    exact ⟨by decide, by decide⟩
  have h3 : IsDigitRun (bytes "23") := ⟨by decide, by decide⟩
  ⟨h1, h2, h3, (tSQLGetToken_exponent _ _ 69 [43] _ (bytes ")") h1 h2 (by decide) (Or.inr rfl)
    (Or.inr (Or.inl rfl)) h3 (by decide)).1⟩

/-! ## Binary and hex prefixes -/

/-- C8 (as stated, refuted): `0b2` is not scanned as the integer `0`; the scanner returns
the illegal token. -/
theorem tSQLGetToken_radix_break_counterexample :
    ¬ (∀ z : List Nat, byteAt z 0 = 48 →
        ((byteAt z 1 = 98 ∧ byteAt z 2 ≠ 48 ∧ byteAt z 2 ≠ 49) ∨
          (byteAt z 1 = 120 ∧ isHexDigit (byteAt z 2) = false)) →
        tSQLGetToken z = some (1, TK_INTEGER)) := by
  intro h
  have h1 := h (bytes "0b2") rfl (Or.inl ⟨rfl, by decide, by decide⟩)
  revert h1
  decide

/-- C8 (amended): for a buffer that starts with `0b` whose third byte is not `0` or `1`,
or with `0x` whose third byte is not a hexadecimal digit, `tSQLGetToken` leaves the
`switch` by `break`: it returns kind `TK_ILLEGAL` with length `0`. -/
theorem tSQLGetToken_radix_break (z : List Nat) (h0 : byteAt z 0 = 48)
    (h : (byteAt z 1 = 98 ∧ byteAt z 2 ≠ 48 ∧ byteAt z 2 ≠ 49) ∨
      (byteAt z 1 = 120 ∧ isHexDigit (byteAt z 2) = false)) :
    tSQLGetToken z = some (0, TK_ILLEGAL) := by
  rw [tSQLGetToken_zero z h0]
  rcases h with ⟨h1, h2, h3⟩ | ⟨h1, h2⟩
  · have hl : forLoop (fun j => byteAt z j == 48 || byteAt z j == 49) z.length 2 = 2 :=
      forLoop_eq _ 2 (by simp [h2, h3]) _ 2 (Nat.le_refl _) (by omega) (fun j a b => by omega)
    simp [scanZero, h1, hl]
  · have hl : forLoop (fun j => isHexDigit (byteAt z j)) z.length 2 = 2 :=
      forLoop_eq _ 2 h2 _ 2 (Nat.le_refl _) (by omega) (fun j a b => by omega)
    simp [scanZero, h1, hl]

theorem tSQLGetToken_radix_break_witness :
    byteAt (bytes "0xg1") 0 = 48 ∧
    ((byteAt (bytes "0xg1") 1 = 98 ∧ byteAt (bytes "0xg1") 2 ≠ 48 ∧ byteAt (bytes "0xg1") 2 ≠ 49) ∨
      (byteAt (bytes "0xg1") 1 = 120 ∧ isHexDigit (byteAt (bytes "0xg1") 2) = false)) ∧
    tSQLGetToken (bytes "0xg1") = some (0, TK_ILLEGAL) :=
  ⟨rfl, Or.inr ⟨rfl, rfl⟩, tSQLGetToken_radix_break (bytes "0xg1") rfl (Or.inr ⟨rfl, rfl⟩)⟩

/-! ## Comments -/

theorem byteAt_cons_cons (a b : Nat) (l : List Nat) (k : Nat) :
    byteAt (a :: b :: l) (2 + k) = byteAt l k := by
  rw [Nat.add_comm]; rfl

theorem tSQLGetToken_dashes (z : List Nat) (h0 : byteAt z 0 = 45) (h1 : byteAt z 1 = 45) :
    tSQLGetToken z =
      some (forLoop (fun i => byteAt z i != 0 && byteAt z i != 10) z.length 2, TK_COMMENT) := by
  simp [tSQLGetToken, h0, h1]

/-- C9 (as stated, refuted): on `-- comment`, newline, `SELECT` the scanner returns length
`10`, the index of the newline, and not `11`. -/
theorem tSQLGetToken_line_comment_counterexample :
    tSQLGetToken (45 :: 45 :: (bytes " comment" ++ 10 :: bytes "SELECT")) =
      some (10, TK_COMMENT) ∧
    ¬ (∀ body rest : List Nat, (∀ c ∈ body, c ≠ 0 ∧ c ≠ 10) →
        tSQLGetToken (45 :: 45 :: (body ++ 10 :: rest)) =
          some ((2 + body.length) + 1, TK_COMMENT)) := by
  refine ⟨by decide, ?_⟩
  intro h
  have h1 := h (bytes " comment") (bytes "SELECT") (by decide)
  revert h1
  decide

/-- C9 (amended): for a buffer that starts with `--` and holds a newline, `tSQLGetToken`
returns kind `TK_COMMENT` with a length that runs up to the first newline and does not
include it: the length is the index of that newline. -/
theorem tSQLGetToken_line_comment (body rest : List Nat) (hb : ∀ c ∈ body, c ≠ 0 ∧ c ≠ 10) :
    tSQLGetToken (45 :: 45 :: (body ++ 10 :: rest)) = some (2 + body.length, TK_COMMENT) := by
  have hl := forLoop_run (fun c => c != 0 && c != 10) (45 :: 45 :: (body ++ 10 :: rest)) 2 body
    (10 :: rest) (byteAt_cons_cons 45 45 _) (fun c hc => by simp [hb c hc]) rfl
    (45 :: 45 :: (body ++ 10 :: rest)).length 0 (Nat.zero_le _) (by simp; omega)
  simp only [Nat.add_zero] at hl
  rw [tSQLGetToken_dashes (45 :: 45 :: (body ++ 10 :: rest)) rfl rfl, hl]

theorem tSQLGetToken_line_comment_witness :
    (∀ c ∈ bytes " comment", c ≠ 0 ∧ c ≠ 10) ∧
    tSQLGetToken (45 :: 45 :: (bytes " comment" ++ 10 :: bytes "SELECT")) =
      some (2 + (bytes " comment").length, TK_COMMENT) :=
  ⟨by decide, tSQLGetToken_line_comment (bytes " comment") (bytes "SELECT") (by decide)⟩

theorem tSQLGetToken_slash_star (z : List Nat) (h0 : byteAt z 0 = 47) (h1 : byteAt z 1 = 42)
    (h2 : byteAt z 2 ≠ 0) :
    tSQLGetToken z =
      some (if byteAt z (forLoop (fun i => byteAt z i != 0 &&
              (byteAt z i != 47 || byteAt z (i - 1) != 42)) z.length 3) != 0
            then forLoop (fun i => byteAt z i != 0 &&
              (byteAt z i != 47 || byteAt z (i - 1) != 42)) z.length 3 + 1
            else forLoop (fun i => byteAt z i != 0 &&
              (byteAt z i != 47 || byteAt z (i - 1) != 42)) z.length 3, TK_COMMENT) := by
  simp [tSQLGetToken, h0, h1, h2]

theorem byteAt_of_mem_ne_zero (l : List Nat) (h : ∀ c ∈ l, c ≠ 0) (j : Nat) (hj : j < l.length) :
    byteAt l j ≠ 0 := by
  rw [byteAt_lt l j hj]
  exact h _ (List.getElem_mem _)

/-- C10 (as stated, refuted): the buffer `/*` followed by the terminator is scanned as the
one-byte token `TK_SLASH`, not as a comment. -/
theorem tSQLGetToken_block_comment_counterexample :
    tSQLGetToken [47, 42] = some (1, TK_SLASH) ∧
    ¬ (∀ z : List Nat, byteAt z 0 = 47 → byteAt z 1 = 42 →
        ∃ n, tSQLGetToken z = some (n, TK_COMMENT)) := by
  refine ⟨by decide, ?_⟩
  intro h
  obtain ⟨n, hn⟩ := h [47, 42] rfl rfl
  have h1 : tSQLGetToken [47, 42] = some (1, TK_SLASH) := by decide
  rw [h1] at hn
  have h2 : TK_SLASH = TK_COMMENT := congrArg Prod.snd (Option.some.inj hn)
  revert h2
  decide

/-- C10 (amended): for a buffer that starts with `/*` and has a byte other than the
terminator at index 2, `tSQLGetToken` returns kind `TK_COMMENT`, with a length that runs
through the first closing `*/` behind the opener, or that is the whole remaining input when
there is no closing `*/`; for `/*` followed at once by the terminator it returns the
one-byte token `TK_SLASH`.  `/* a */` gives `(7, TK_COMMENT)`, `/* unterminated` gives
`(15, TK_COMMENT)`. -/
theorem tSQLGetToken_block_comment :
    (∀ pre rest : List Nat, (∀ c ∈ pre, c ≠ 0) → NoClose (pre ++ [42]) →
        tSQLGetToken (47 :: 42 :: (pre ++ 42 :: 47 :: rest)) =
          some (2 + pre.length + 2, TK_COMMENT)) ∧
    (∀ body : List Nat, body ≠ [] → (∀ c ∈ body, c ≠ 0) → NoClose body →
        tSQLGetToken (47 :: 42 :: body) = some (2 + body.length, TK_COMMENT)) ∧
    (∀ tail : List Nat, byteAt tail 0 = 0 → tSQLGetToken (47 :: 42 :: tail) = some (1, TK_SLASH)) ∧
    tSQLGetToken (47 :: 42 :: (bytes " a " ++ [42, 47])) = some (7, TK_COMMENT) ∧
    tSQLGetToken (47 :: 42 :: bytes " unterminated") = some (15, TK_COMMENT) := by
  refine ⟨?_, ?_, ?_, by decide, by decide⟩
  · intro pre rest hpre hclose
    have hbody : ∀ j, j ≤ pre.length →
        byteAt (pre ++ 42 :: 47 :: rest) j = byteAt (pre ++ [42]) j := by
      intro j hj
      by_cases hlt : j < pre.length
      · rw [byteAt_append_left _ _ _ hlt, byteAt_append_left _ _ _ hlt]
      · have : j = pre.length := by omega
        subst this
        rw [byteAt_append_length, byteAt_append_length]; rfl
    have hnz : ∀ j, j ≤ pre.length → byteAt (pre ++ [42]) j ≠ 0 := by
      intro j hj
      apply byteAt_of_mem_ne_zero
      · intro c hc
        rcases List.mem_append.mp hc with hc | hc
        · exact hpre c hc
        · simp at hc; omega
      · simp; omega
    have h2 : byteAt (47 :: 42 :: (pre ++ 42 :: 47 :: rest)) 2 ≠ 0 := by
      rw [byteAt_cons_cons 47 42 _ 0, hbody 0 (Nat.zero_le _)]
      exact hnz 0 (Nat.zero_le _)
    have hend : byteAt (47 :: 42 :: (pre ++ 42 :: 47 :: rest)) (2 + pre.length + 1) = 47 := by
      rw [Nat.add_assoc, byteAt_cons_cons, byteAt_append_right]; rfl
    have hprev : byteAt (47 :: 42 :: (pre ++ 42 :: 47 :: rest)) (2 + pre.length + 1 - 1) = 42 := by
      rw [Nat.add_sub_cancel, byteAt_cons_cons, byteAt_append_length]; rfl
    have hl : forLoop (fun i => byteAt (47 :: 42 :: (pre ++ 42 :: 47 :: rest)) i != 0 &&
        (byteAt (47 :: 42 :: (pre ++ 42 :: 47 :: rest)) i != 47 ||
          byteAt (47 :: 42 :: (pre ++ 42 :: 47 :: rest)) (i - 1) != 42))
        (47 :: 42 :: (pre ++ 42 :: 47 :: rest)).length 3 = 2 + pre.length + 1 := by
      apply forLoop_eq
      · simp only [hend, hprev]; decide
      · omega
      · simp; omega
      · intro j hj1 hj2
        obtain ⟨m, rfl⟩ : ∃ m, j = 2 + (m + 1) := ⟨j - 3, by omega⟩
        have e1 : byteAt (47 :: 42 :: (pre ++ 42 :: 47 :: rest)) (2 + (m + 1)) =
            byteAt (pre ++ [42]) (m + 1) := by
          rw [byteAt_cons_cons, hbody _ (by omega)]
        have e2 : byteAt (47 :: 42 :: (pre ++ 42 :: 47 :: rest)) (2 + (m + 1) - 1) =
            byteAt (pre ++ [42]) m := by
          rw [show 2 + (m + 1) - 1 = 2 + m by omega, byteAt_cons_cons, hbody _ (by omega)]
        have hc := hclose m
        have hn := hnz (m + 1) (by omega)
        simp only [e1, e2, bne_iff_ne, ne_eq, Bool.and_eq_true, Bool.or_eq_true,
          decide_eq_true_eq]
        refine ⟨hn, ?_⟩
        by_cases h47 : byteAt (pre ++ [42]) (m + 1) = 47
        · right; intro h42; exact hc ⟨h42, h47⟩
        · left; exact h47
    rw [tSQLGetToken_slash_star (47 :: 42 :: (pre ++ 42 :: 47 :: rest)) rfl rfl h2, hl, hend]
    rfl
  · intro body hne hbody hclose
    have hpos : 1 ≤ body.length := by
      cases body with
      | nil => exact absurd rfl hne
      | cons c cs => simp
    have h2 : byteAt (47 :: 42 :: body) 2 ≠ 0 := by
      rw [byteAt_cons_cons 47 42 _ 0]
      exact byteAt_of_mem_ne_zero body hbody 0 (by omega)
    have hend : byteAt (47 :: 42 :: body) (2 + body.length) = 0 := by
      rw [byteAt_cons_cons]; exact byteAt_ge _ _ (Nat.le_refl _)
    have hl : forLoop (fun i => byteAt (47 :: 42 :: body) i != 0 &&
        (byteAt (47 :: 42 :: body) i != 47 || byteAt (47 :: 42 :: body) (i - 1) != 42))
        (47 :: 42 :: body).length 3 = 2 + body.length := by
      apply forLoop_eq
      · simp only [hend]; rfl
      · omega
      · simp; omega
      · intro j hj1 hj2
        obtain ⟨m, rfl⟩ : ∃ m, j = 2 + (m + 1) := ⟨j - 3, by omega⟩
        have e2 : byteAt (47 :: 42 :: body) (2 + (m + 1) - 1) = byteAt body m := by
          rw [show 2 + (m + 1) - 1 = 2 + m by omega, byteAt_cons_cons]
        have hc := hclose m
        have hn := byteAt_of_mem_ne_zero body hbody (m + 1) (by omega)
        simp only [byteAt_cons_cons, e2, bne_iff_ne, ne_eq, Bool.and_eq_true, Bool.or_eq_true,
          decide_eq_true_eq]
        refine ⟨hn, ?_⟩
        by_cases h47 : byteAt body (m + 1) = 47
        · right; intro h42; exact hc ⟨h42, h47⟩
        · left; exact h47
    rw [tSQLGetToken_slash_star (47 :: 42 :: body) rfl rfl h2, hl, hend]
    rfl
  · intro tail ht
    have h2 : byteAt (47 :: 42 :: tail) 2 = 0 := by
      rw [byteAt_cons_cons 47 42 _ 0]; exact ht
    simp [tSQLGetToken, byteAt_cons_zero, byteAt_cons_succ, h2]

theorem tSQLGetToken_block_comment_witness :
    NoClose ([120] ++ [42]) ∧
    tSQLGetToken (47 :: 42 :: ([120] ++ 42 :: 47 :: [49])) = some (2 + [120].length + 2, TK_COMMENT) ∧
    tSQLGetToken (47 :: 42 :: [42]) = some (2 + [42].length, TK_COMMENT) ∧
    tSQLGetToken (47 :: 42 :: []) = some (1, TK_SLASH) :=
  have hc : NoClose ([120] ++ [42]) := by
    intro j
    match j with
    | 0 => decide
    | 1 => decide
    | j + 2 =>
      intro h
      have h0 : byteAt ([120] ++ [42]) (j + 2) = 0 := byteAt_ge _ _ (by simp)
      rw [h0] at h
      exact absurd h.1 (by decide)
  have hc2 : NoClose [42] := by
    intro j
    match j with
    | 0 => decide
    | j + 1 =>
      intro h
      have h0 : byteAt [42] (j + 1) = 0 := byteAt_ge _ _ (by simp)
      rw [h0] at h
      exact absurd h.1 (by decide)
  ⟨hc, tSQLGetToken_block_comment.1 [120] [49] (by decide) hc,
    tSQLGetToken_block_comment.2.1 [42] (by decide) (by decide) hc2,
    tSQLGetToken_block_comment.2.2.1 [] rfl⟩

/-! ## Length zero and kind illegal -/

theorem plain_pos {n k : Nat} (hn : 1 ≤ n) (hk : k ≠ TK_ILLEGAL) : PlainResult (some (n, k)) := by
  intro n2 k2 h
  simp only [Option.some.injEq, Prod.mk.injEq] at h
  obtain ⟨rfl, rfl⟩ := h
  exact Or.inl ⟨hn, hk⟩

theorem plain_illegal : PlainResult (some (0, TK_ILLEGAL)) := by
  intro n2 k2 h
  simp only [Option.some.injEq, Prod.mk.injEq] at h
  obtain ⟨rfl, rfl⟩ := h
  exact Or.inr ⟨rfl, rfl⟩

theorem plain_none : PlainResult none := by
  intro n k h; cases h

theorem illegalRule_of_plain {z : List Nat} {r : Option (Nat × Nat)} (h : PlainResult r) :
    IllegalRule z r := by
  intro n k hr
  rcases h n k hr with ⟨h1, h2⟩ | ⟨h1, h2⟩
  · exact ⟨fun h0 => by omega, fun hk => absurd hk h2⟩
  · exact ⟨fun _ => h2, fun _ => Or.inl h1⟩

theorem strLoop_ge (z : List Nat) (d : Nat) :
    ∀ (fuel i : Nat), i ≤ (strLoop z d fuel i).1 := by
  intro fuel
  induction fuel with
  | zero => intro i; simp [strLoop]
  | succ f ih =>
    intro i
    simp only [strLoop]
    split_ifs
    all_goals first
      | exact Nat.le_refl _
      | exact Nat.le_trans (by omega) (ih (i + 2))
      | exact Nat.le_trans (by omega) (ih (i + 1))

theorem segLoop_ge (z : List Nat) :
    ∀ (fuel i seg type : Nat), i ≤ (segLoop z fuel i seg type).1 := by
  intro fuel
  induction fuel with
  | zero => intro i seg type; simp [segLoop]
  | succ f ih =>
    intro i seg type
    simp only [segLoop]
    split_ifs
    · exact Nat.le_trans (Nat.le_trans (by omega) (forLoop_ge _ _ (i + 2))) (ih _ _ _)
    · exact Nat.le_refl _

theorem segLoop_type (z : List Nat) :
    ∀ (fuel i seg type : Nat), (segLoop z fuel i seg type).2.2 = type ∨
      (segLoop z fuel i seg type).2.2 = TK_FLOAT := by
  intro fuel
  induction fuel with
  | zero => intro i seg type; simp [segLoop]
  | succ f ih =>
    intro i seg type
    simp only [segLoop]
    split_ifs
    · rcases ih (forLoop (fun j => isdigit (byteAt z j)) z.length (i + 2)) (seg + 1) TK_FLOAT
        with h | h <;> exact Or.inr h
    · exact Or.inl rfl

theorem scanExponent_ge (z : List Nat) (i type : Nat) : i ≤ (scanExponent z i type).1 := by
  unfold scanExponent
  split_ifs
  · exact Nat.le_trans (by omega) (forLoop_ge _ _ (i + 2))
  · exact Nat.le_refl _

theorem scanExponent_type (z : List Nat) (i type : Nat) :
    (scanExponent z i type).2 = type ∨ (scanExponent z i type).2 = TK_FLOAT := by
  unfold scanExponent
  split_ifs
  · exact Or.inr rfl
  · exact Or.inl rfl

theorem plain_scanString (z : List Nat) : PlainResult (some (scanString z)) := by
  unfold scanString
  have h := strLoop_ge z (byteAt z 0) z.length 1
  dsimp only
  split_ifs
  all_goals first
    | exact plain_illegal
    | exact plain_pos h (by decide)
    | exact plain_pos (by omega) (by decide)

theorem plain_scanDot (z : List Nat) : PlainResult (some (scanDot z)) := by
  unfold scanDot
  dsimp only
  split_ifs
  · have h1 := scanExponent_ge z (forLoop (fun j => isdigit (byteAt z j)) z.length 2) TK_FLOAT
    have h2 := forLoop_ge (fun j => isdigit (byteAt z j)) z.length 2
    exact plain_pos (by omega) (by decide)
  · exact plain_pos (Nat.le_refl _) (by decide)

theorem plain_numberTail (z : List Nat) (r : Nat × Nat × Nat) (hi : 1 ≤ r.1)
    (ht : r.2.2 = TK_INTEGER ∨ r.2.2 = TK_FLOAT) :
    PlainResult (some (if r.2.1 = 4 then (r.1, TK_IPTOKEN) else scanExponent z r.1 r.2.2)) := by
  obtain ⟨i, seg, ty⟩ := r
  dsimp only at hi ht ⊢
  by_cases h4 : seg = 4
  · rw [if_pos h4]
    exact plain_pos hi (by decide)
  · rw [if_neg h4]
    have h2 := scanExponent_ge z i ty
    have hk : (scanExponent z i ty).2 ≠ TK_ILLEGAL := by
      rcases scanExponent_type z i ty with h3 | h3
      · rw [h3]
        rcases ht with h | h <;> rw [h] <;> decide
      · rw [h3]; decide
    exact plain_pos (n := (scanExponent z i ty).1) (k := (scanExponent z i ty).2) (by omega) hk

theorem plain_scanNumber (z : List Nat) : PlainResult (scanNumber z) := by
  unfold scanNumber
  have hi := forLoop_ge (fun j => isdigit (byteAt z j)) z.length 1
  have ht := plain_numberTail z
    (segLoop z z.length (forLoop (fun j => isdigit (byteAt z j)) z.length 1) 1 TK_INTEGER)
    (Nat.le_trans hi (segLoop_ge z _ _ _ _))
    (segLoop_type z _ _ _ _)
  dsimp only
  by_cases hd : isDurationLetter (byteAt z (forLoop (fun j => isdigit (byteAt z j)) z.length 1))
      = true
  · rw [if_pos hd]
    cases isIdChar[byteAt z (forLoop (fun j => isdigit (byteAt z j)) z.length 1 + 1)]? with
    | none => exact plain_none
    | some v =>
      dsimp only
      by_cases hv : v = 0
      · rw [if_pos hv]
        exact plain_pos (by omega) (by decide)
      · rw [if_neg hv]
        exact ht
  · rw [if_neg hd]
    exact ht

theorem plain_scanZero (z : List Nat) : PlainResult (scanZero z) := by
  unfold scanZero
  dsimp only
  split_ifs with h1 h2 h3 h4
  · exact plain_illegal
  · exact plain_pos (Nat.le_trans (by omega) (forLoop_ge _ _ 2)) (by decide)
  · exact plain_illegal
  · exact plain_pos (Nat.le_trans (by omega) (forLoop_ge _ _ 2)) (by decide)
  · exact plain_scanNumber z

set_option maxRecDepth 1000000 in
theorem keywordTable_not_illegal :
    keywordTable.all (fun e => e.type != TK_ILLEGAL) = true := by decide

theorem tSQLKeywordCode_ne_illegal (z : List Nat) (n t : Nat)
    (h : tSQLKeywordCode z n = some t) : t ≠ TK_ILLEGAL := by
  unfold tSQLKeywordCode at h
  split_ifs at h
  dsimp only at h
  split at h
  · next e he =>
    have hm : e ∈ keywordTable := List.mem_of_find?_eq_some he
    have := List.all_eq_true.mp keywordTable_not_illegal e hm
    simp only [Option.some.injEq] at h
    subst h
    simpa using this
  · simp only [Option.some.injEq] at h
    subst h
    decide

theorem plain_scanIdentifier (z : List Nat) : PlainResult (scanIdentifier z) := by
  unfold scanIdentifier
  dsimp only
  split_ifs
  · exact plain_illegal
  · split
    · exact plain_none
    · next t ht =>
      exact plain_pos (forLoop_ge _ _ 1) (tSQLKeywordCode_ne_illegal _ _ _ ht)

theorem plain_scanBool (z : List Nat) : PlainResult (scanBool z) := by
  unfold scanBool
  dsimp only
  split_ifs
  · exact plain_pos (forLoop_ge _ _ 1) (by decide)
  · exact plain_scanIdentifier z

theorem ite_ind {α : Type} (P : α → Prop) (c : Prop) [Decidable c] (a b : α)
    (ha : c → P a) (hb : ¬ c → P b) : P (if c then a else b) := by
  by_cases h : c
  · rw [if_pos h]; exact ha h
  · rw [if_neg h]; exact hb h

theorem le_ite_succ (c : Prop) [Decidable c] (m i : Nat) (h : m ≤ i) :
    m ≤ if c then i + 1 else i := by
  split_ifs <;> omega

theorem illegalRule_bang (z : List Nat) (h0 : byteAt z 0 = 33) (h1 : byteAt z 1 ≠ 61) :
    IllegalRule z (some (2, TK_ILLEGAL)) := by
  intro n k h
  simp only [Option.some.injEq, Prod.mk.injEq] at h
  obtain ⟨rfl, rfl⟩ := h
  exact ⟨fun h => by omega, fun _ => Or.inr ⟨rfl, h0, h1⟩⟩

set_option maxRecDepth 100000 in
/-- Every defined result of the scanner obeys the rule on length `0` and kind illegal. -/
theorem illegalRule_tSQLGetToken (z : List Nat) : IllegalRule z (tSQLGetToken z) := by
  unfold tSQLGetToken
  dsimp only
  repeat' with_reducible refine ite_ind (IllegalRule z) _ _ _ (fun h => ?_) (fun h => ?_)
  all_goals first
    | exact illegalRule_of_plain (plain_pos (Nat.le_refl _) (by decide))
    | exact illegalRule_of_plain (plain_pos (by omega) (by decide))
    | exact illegalRule_of_plain (plain_pos (Nat.le_trans (by omega) (forLoop_ge _ _ _)) (by decide))
    | exact illegalRule_of_plain (plain_pos
        (le_ite_succ _ _ _ (Nat.le_trans (by omega) (forLoop_ge _ _ _))) (by decide))
    | exact illegalRule_of_plain (plain_pos (Nat.le_add_right 1 _) (by decide))
    | exact illegalRule_of_plain (plain_scanString z)
    | exact illegalRule_of_plain (plain_scanDot z)
    | exact illegalRule_of_plain (plain_scanZero z)
    | exact illegalRule_of_plain (plain_scanNumber z)
    | exact illegalRule_of_plain (plain_scanBool z)
    | exact illegalRule_of_plain (plain_scanIdentifier z)
    | exact illegalRule_bang z (by assumption) (by assumption)

/-! ## Where the scanner has a defined result -/

theorem byteAt_lt_128 (z : List Nat) (hb : ∀ c ∈ z, c < 128) (i : Nat) : byteAt z i < 128 := by
  by_cases h : i < z.length
  · rw [byteAt_lt z i h]
    exact hb _ (List.getElem_mem _)
  · rw [byteAt_ge z i (by omega)]
    decide

theorem isIdChar_length : isIdChar.length = 128 := rfl

theorem isIdChar_getD_zero : isIdChar.getD 0 0 = 0 := rfl

theorem idCharCond_lt (z : List Nat) (j : Nat) (h : idCharCond z j = true) : j < z.length := by
  apply byteAt_mem
  intro h0
  rw [idCharCond, h0] at h
  revert h
  decide

theorem defined_scanNumber (z : List Nat) (hb : ∀ c ∈ z, c < 128) :
    ∃ r, scanNumber z = some r := by
  unfold scanNumber
  dsimp only
  by_cases hd : isDurationLetter (byteAt z (forLoop (fun j => isdigit (byteAt z j)) z.length 1))
      = true
  · rw [if_pos hd]
    have hlt := byteAt_lt_128 z hb (forLoop (fun j => isdigit (byteAt z j)) z.length 1 + 1)
    rw [List.getElem?_eq_getElem (by rw [isIdChar_length]; exact hlt)]
    dsimp only
    by_cases hv : isIdChar[byteAt z (forLoop (fun j => isdigit (byteAt z j)) z.length 1 + 1)] = 0
    · rw [if_pos hv]; exact ⟨_, rfl⟩
    · rw [if_neg hv]; exact ⟨_, rfl⟩
  · rw [if_neg hd]; exact ⟨_, rfl⟩

theorem defined_scanZero (z : List Nat) (hb : ∀ c ∈ z, c < 128) :
    ∃ r, scanZero z = some r := by
  unfold scanZero
  dsimp only
  split_ifs
  all_goals first
    | exact ⟨_, rfl⟩
    | exact defined_scanNumber z hb

theorem defined_scanIdentifier (z : List Nat) (hl : z.length < 128) :
    ∃ r, scanIdentifier z = some r := by
  unfold scanIdentifier
  dsimp only
  split_ifs with h
  · exact ⟨_, rfl⟩
  · have h0 : byteAt z 0 ≠ 0 := by
      intro h0
      rw [h0] at h
      exact h (by decide)
    have h1 : 1 ≤ z.length := byteAt_mem h0
    have hi := forLoop_le (idCharCond z) z.length (idCharCond_lt z) z.length 1 h1
    have hk : ∃ t, tSQLKeywordCode z (forLoop (idCharCond z) z.length 1) = some t := by
      unfold tSQLKeywordCode
      rw [if_pos (by omega)]
      dsimp only
      split
      · exact ⟨_, rfl⟩
      · exact ⟨_, rfl⟩
    obtain ⟨t, ht⟩ := hk
    rw [ht]
    exact ⟨_, rfl⟩

theorem defined_scanBool (z : List Nat) (hl : z.length < 128) :
    ∃ r, scanBool z = some r := by
  unfold scanBool
  dsimp only
  split_ifs
  · exact ⟨_, rfl⟩
  · exact defined_scanIdentifier z hl

set_option maxRecDepth 100000 in
/-- On a buffer of fewer than 128 ASCII bytes the scanner has a defined result. -/
theorem defined_tSQLGetToken (z : List Nat) (hb : ∀ c ∈ z, c < 128) (hl : z.length < 128) :
    ∃ r, tSQLGetToken z = some r := by
  unfold tSQLGetToken
  dsimp only
  repeat' with_reducible
    refine ite_ind (fun x => ∃ r, x = some r) _ _ _ (fun h => ?_) (fun h => ?_)
  all_goals first
    | exact ⟨_, rfl⟩
    | exact defined_scanZero z hb
    | exact defined_scanNumber z hb
    | exact defined_scanBool z hl
    | exact defined_scanIdentifier z hl

theorem tSQLGetToken_bang (z : List Nat) (h0 : byteAt z 0 = 33) :
    (byteAt z 1 ≠ 61 → tSQLGetToken z = some (2, TK_ILLEGAL)) ∧
    (byteAt z 1 = 61 → tSQLGetToken z = some (2, TK_NE)) := by
  constructor <;> intro h1 <;> simp [tSQLGetToken, h0, h1]

/-- C4: for every buffer, `tSQLGetToken` returns length `0` only together with kind
`TK_ILLEGAL`, and kind `TK_ILLEGAL` only with length `0`, except that a first byte `!` that
is not followed by `=` gives kind `TK_ILLEGAL` with length `2` (and `!=` gives `TK_NE` with
length `2`); a buffer of fewer than 128 ASCII bytes always has such a result. -/
theorem tSQLGetToken_illegal_rule (z : List Nat) :
    (∀ n k, tSQLGetToken z = some (n, k) →
      (n = 0 → k = TK_ILLEGAL) ∧
      (k = TK_ILLEGAL → n = 0 ∨ (n = 2 ∧ byteAt z 0 = 33 ∧ byteAt z 1 ≠ 61))) ∧
    (byteAt z 0 = 33 → byteAt z 1 ≠ 61 → tSQLGetToken z = some (2, TK_ILLEGAL)) ∧
    (byteAt z 0 = 33 → byteAt z 1 = 61 → tSQLGetToken z = some (2, TK_NE)) ∧
    ((∀ c ∈ z, c < 128) → z.length < 128 → ∃ r, tSQLGetToken z = some r) :=
  ⟨illegalRule_tSQLGetToken z, fun h0 => (tSQLGetToken_bang z h0).1,
    fun h0 => (tSQLGetToken_bang z h0).2, defined_tSQLGetToken z⟩

theorem tSQLGetToken_illegal_rule_witness :
    tSQLGetToken (bytes "!x") = some (2, TK_ILLEGAL) ∧
    tSQLGetToken (bytes "!=") = some (2, TK_NE) ∧
    (∃ r, tSQLGetToken (bytes "a#") = some r) ∧
    (∀ n k, tSQLGetToken (bytes "#") = some (n, k) →
      (n = 0 → k = TK_ILLEGAL) ∧
      (k = TK_ILLEGAL → n = 0 ∨ (n = 2 ∧ byteAt (bytes "#") 0 = 33 ∧ byteAt (bytes "#") 1 ≠ 61))) :=
  ⟨(tSQLGetToken_illegal_rule (bytes "!x")).2.1 rfl (by decide),
    (tSQLGetToken_illegal_rule (bytes "!=")).2.2.1 rfl rfl,
    (tSQLGetToken_illegal_rule (bytes "a#")).2.2.2 (by decide) (by decide),
    (tSQLGetToken_illegal_rule (bytes "#")).1⟩

/-! ## The fuel of the loops is enough -/

/-- With the fuel of the source model the string loop ends as the C loop does: at a
closing delimiter (`strEnd`), or at the terminator. -/
theorem strLoop_stops (z : List Nat) (d : Nat) :
    ∀ (fuel i : Nat), z.length ≤ i + fuel →
      ((strLoop z d fuel i).2 = true →
        byteAt z (strLoop z d fuel i).1 = d ∧ byteAt z ((strLoop z d fuel i).1 + 1) ≠ d) ∧
      ((strLoop z d fuel i).2 = false → byteAt z (strLoop z d fuel i).1 = 0) := by
  intro fuel
  induction fuel with
  | zero =>
    intro i h
    have e : strLoop z d 0 i = (i, false) := rfl
    rw [e]
    exact ⟨fun h2 => Bool.noConfusion h2, fun _ => byteAt_ge z i (by omega)⟩
  | succ f ih =>
    intro i h
    by_cases h0 : byteAt z i = 0
    · have e : strLoop z d (f + 1) i = (i, false) := by simp [strLoop, h0]
      rw [e]
      exact ⟨fun h2 => Bool.noConfusion h2, fun _ => h0⟩
    · by_cases hd : byteAt z i = d
      · by_cases hd1 : byteAt z (i + 1) = d
        · have hdz : ¬ d = 0 := fun hz => h0 (hd.trans hz)
          have e : strLoop z d (f + 1) i = strLoop z d f (i + 2) := by
            simp [strLoop, hd, hd1, hdz]
          rw [e]
          exact ih (i + 2) (by omega)
        · have hdz : ¬ d = 0 := fun hz => h0 (hd.trans hz)
          have e : strLoop z d (f + 1) i = (i, true) := by
            simp [strLoop, hd, hd1, hdz]
          rw [e]
          exact ⟨fun _ => ⟨hd, hd1⟩, fun h2 => Bool.noConfusion h2⟩
      · have e : strLoop z d (f + 1) i = strLoop z d f (i + 1) := by
          simp [strLoop, h0, hd]
        rw [e]
        exact ih (i + 1) (by omega)

/-- With the fuel of the source model the segment loop ends because its condition
fails. -/
theorem segLoop_stops (z : List Nat) :
    ∀ (fuel i seg type : Nat), z.length ≤ i + fuel →
      (byteAt z (segLoop z fuel i seg type).1 == 46 &&
        isdigit (byteAt z ((segLoop z fuel i seg type).1 + 1))) = false := by
  intro fuel
  induction fuel with
  | zero =>
    intro i seg type h
    simp only [segLoop]
    rw [byteAt_ge z i (by omega)]
    rfl
  | succ f ih =>
    intro i seg type h
    simp only [segLoop]
    split
    · have := forLoop_ge (fun j => isdigit (byteAt z j)) z.length (i + 2)
      exact ih _ _ _ (by omega)
    · next hn => simpa using hn


/-! ## Whitespace runs and unrecognised bytes -/

theorem isBlank_iff (c : Nat) :
    isBlank c = true ↔ c = 32 ∨ c = 9 ∨ c = 10 ∨ c = 12 ∨ c = 13 := by
  simp only [isBlank, Bool.or_eq_true, beq_iff_eq]
  omega

theorem isBlank_isspace {c : Nat} (h : isBlank c = true) : isspace c = true := by
  rw [isBlank_iff] at h
  rcases h with rfl | rfl | rfl | rfl | rfl <;> rfl

theorem tSQLGetToken_blank (z : List Nat) (h : isBlank (byteAt z 0) = true) :
    tSQLGetToken z = some (forLoop (fun i => isspace (byteAt z i)) z.length 1, TK_SPACE) := by
  rw [isBlank_iff] at h
  simp [tSQLGetToken, h]

/-- C11 (the code at the failing input, and where the claim holds): a whitespace token
runs over every byte that `isspace` accepts, and `isspace` accepts the vertical tab `\v`,
which is not one of the five whitespace bytes.  On space, `\v`, `x` the token has length
`2` while the maximal prefix of the five bytes has length `1`.  When the byte behind the
maximal prefix of the five bytes is not `\v`, the length is the length of that prefix. -/
theorem tSQLGetToken_blank_run :
    tSQLGetToken [32, 11, 120] = some (2, TK_SPACE) ∧ blankPrefixLen [32, 11, 120] = 1 ∧
    (∀ ws rest : List Nat, ws ≠ [] → (∀ c ∈ ws, isBlank c = true) →
      isBlank (byteAt rest 0) = false → byteAt rest 0 ≠ 11 →
      tSQLGetToken (ws ++ rest) = some (ws.length, TK_SPACE)) := by
  refine ⟨by decide, by decide, ?_⟩
  intro ws rest hne hws hr hv
  have h0 : isBlank (byteAt (ws ++ rest) 0) = true := by
    cases ws with
    | nil => exact absurd rfl hne
    | cons c cs => exact hws c (List.mem_cons_self _ _)
  have hpos : 1 ≤ ws.length := by
    cases ws with
    | nil => exact absurd rfl hne
    | cons c cs => simp
  have hsp : isspace (byteAt rest 0) = false := by
    have h1 : ¬ (byteAt rest 0 = 32 ∨ byteAt rest 0 = 9 ∨ byteAt rest 0 = 10 ∨
        byteAt rest 0 = 12 ∨ byteAt rest 0 = 13) := by
      rw [← isBlank_iff]; simp [hr]
    simp only [isspace, Bool.or_eq_false_iff, Bool.and_eq_false_iff, beq_eq_false_iff_ne,
      decide_eq_false_iff_not]
    omega
  have hl := forLoop_run isspace (ws ++ rest) 0 ws rest (window_zero _)
    (fun c hc => isBlank_isspace (hws c hc)) hsp (ws ++ rest).length 1 hpos (by simp; omega)
  rw [tSQLGetToken_blank _ h0]
  simp only [Nat.zero_add] at hl
  rw [hl]

theorem isCaseLabel_false {c : Nat} (h : isCaseLabel c = false) :
    c ≠ 32 ∧ c ≠ 9 ∧ c ≠ 10 ∧ c ≠ 12 ∧ c ≠ 13 ∧ c ≠ 58 ∧ c ≠ 45 ∧ c ≠ 40 ∧ c ≠ 41 ∧ c ≠ 59 ∧
    c ≠ 43 ∧ c ≠ 42 ∧ c ≠ 47 ∧ c ≠ 37 ∧ c ≠ 61 ∧ c ≠ 60 ∧ c ≠ 62 ∧ c ≠ 33 ∧ c ≠ 124 ∧
    c ≠ 44 ∧ c ≠ 38 ∧ c ≠ 126 ∧ c ≠ 63 ∧ c ≠ 39 ∧ c ≠ 34 ∧ c ≠ 46 ∧ ¬ (48 ≤ c ∧ c ≤ 57) ∧
    c ≠ 91 := by
  simp only [isCaseLabel, isBlank, isdigit, Bool.or_eq_false_iff, Bool.and_eq_false_iff,
    beq_eq_false_iff_ne, decide_eq_false_iff_not, ne_eq] at h
  omega

set_option maxRecDepth 100000 in
/-- A first byte `T t F f` is scanned by the boolean lead-in case. -/
theorem tSQLGetToken_lead_in (z : List Nat)
    (ht : byteAt z 0 = 84 ∨ byteAt z 0 = 116 ∨ byteAt z 0 = 70 ∨ byteAt z 0 = 102) :
    tSQLGetToken z = scanBool z := by
  unfold tSQLGetToken
  dsimp only
  repeat' with_reducible refine ite_ind (fun r => r = scanBool z) _ _ _ (fun h => ?_) (fun h => ?_)
  all_goals first
    | rfl
    | (exfalso; omega)

set_option maxRecDepth 100000 in
/-- A first byte without a `case` label of its own is scanned by the `default` case. -/
theorem tSQLGetToken_default (z : List Nat) (hcl : isCaseLabel (byteAt z 0) = false)
    (ht : ¬ (byteAt z 0 = 84 ∨ byteAt z 0 = 116 ∨ byteAt z 0 = 70 ∨ byteAt z 0 = 102)) :
    tSQLGetToken z = scanIdentifier z := by
  have hc := isCaseLabel_false hcl
  unfold tSQLGetToken
  dsimp only
  repeat' with_reducible
    refine ite_ind (fun r => r = scanIdentifier z) _ _ _ (fun h => ?_) (fun h => ?_)
  all_goals first
    | rfl
    | (exfalso; omega)

theorem isIdChar_getD_eq (c : Nat) :
    (isIdChar.getD c 0 != 0) = (isIdentByte c) := by
  by_cases h : c < 128
  · interval_cases c <;> rfl
  · have h1 : isIdChar.getD c 0 = 0 := by
      rw [List.getD_eq_getElem?_getD, List.getElem?_eq_none (by rw [isIdChar_length]; omega)]
      rfl
    rw [h1]
    simp only [isIdentByte, isdigit]
    have : ¬ c ≤ 57 := by omega
    have : ¬ c ≤ 90 := by omega
    have : ¬ c ≤ 122 := by omega
    have : ¬ c = 95 := by omega
    simp [*]

theorem scanIdentifier_illegal (z : List Nat) (h : isIdentByte (byteAt z 0) = false) :
    scanIdentifier z = some (0, TK_ILLEGAL) := by
  have h1 := isIdChar_getD_eq (byteAt z 0)
  rw [h] at h1
  have h2 : isIdChar.getD (byteAt z 0) 0 = 0 := by simpa using h1
  have hc : ((byteAt z 0 &&& 0x80 != 0) || (isIdChar.getD (byteAt z 0) 0 == 0)) = true := by
    rw [h2]; simp
  unfold scanIdentifier
  rw [if_pos hc]

/-- C12 (as stated, refuted): the byte `*` is none of the listed first bytes, and the
scanner returns the one-byte token `TK_STAR` for it. -/
theorem tSQLGetToken_unlisted_counterexample :
    listedStart (byteAt [42] 0) = false ∧ tSQLGetToken [42] = some (1, TK_STAR) ∧
    ¬ (∀ z : List Nat, listedStart (byteAt z 0) = false →
        tSQLGetToken z = some (0, TK_ILLEGAL)) := by
  refine ⟨by decide, by decide, ?_⟩
  intro h
  have h1 := h [42] (by decide)
  revert h1
  decide

/-- C12 (amended): for every buffer whose first byte is none of the five whitespace bytes,
the operator and delimiter bytes `: ( ) ; + * % , & ~ ? - / = < > ! |` (the listed ones and
`*`), a quote, `.`, a digit, `[`, or an ASCII identifier character, `tSQLGetToken` returns
kind `TK_ILLEGAL` with length `0`; this includes the terminator and every byte with the
high bit set. -/
theorem tSQLGetToken_unlisted (z : List Nat) (h : listedStart (byteAt z 0) = false)
    (hstar : byteAt z 0 ≠ 42) : tSQLGetToken z = some (0, TK_ILLEGAL) := by
  have hid : isIdentByte (byteAt z 0) = false := by
    simp only [listedStart, Bool.or_eq_false_iff] at h
    exact h.2
  have hcl : isCaseLabel (byteAt z 0) = false := by
    simp only [listedStart, isCaseLabel, isBlank, isdigit, Bool.or_eq_false_iff,
      Bool.and_eq_false_iff, beq_eq_false_iff_ne, decide_eq_false_iff_not, ne_eq] at h ⊢
    omega
  have ht : ¬ (byteAt z 0 = 84 ∨ byteAt z 0 = 116 ∨ byteAt z 0 = 70 ∨ byteAt z 0 = 102) := by
    intro ht
    have : isIdentByte (byteAt z 0) = true := by
      rcases ht with h1 | h1 | h1 | h1 <;> rw [h1] <;> rfl
    rw [hid] at this
    cases this
  rw [tSQLGetToken_default z hcl ht, scanIdentifier_illegal z hid]

theorem tSQLGetToken_unlisted_witness :
    listedStart (byteAt [200, 97] 0) = false ∧ byteAt [200, 97] 0 ≠ 42 ∧
    tSQLGetToken [200, 97] = some (0, TK_ILLEGAL) ∧
    listedStart (byteAt [] 0) = false ∧ tSQLGetToken [] = some (0, TK_ILLEGAL) :=
  ⟨by decide, by decide, tSQLGetToken_unlisted [200, 97] (by decide) (by decide), by decide,
    by decide⟩

/-! ## The assembler: qualified names, dots and signs -/

/-- C13: when, after the skip of whitespace, commas and ignored tokens, the scanner yields
a token of kind `TK_ID` or `TK_STRING` of length `L1` at offset `s`, and the byte at
`s + L1` is `.`, `tStrGetToken` returns one token whose text starts at `s`, whose kind is
the kind of the first token and whose length is `L1 + 1 + L2`, `L2` being the length the
scanner returns at `s + L1 + 1`; the cursor ends at `s + L1 + 1 + L2`.  Over `db.tbl` it
returns one `TK_ID` token of length `6`. -/
theorem tStrGetToken_qualified (str : List Nat) (i : Nat) (isPrevOptr : Bool)
    (ignoreTokenTypes : List Nat) (s L1 K L2 K2 : Nat) (h0 : byteAt str i ≠ 0)
    (hscan : scanLoop str ignoreTokenTypes (str.length + 1) i 0 0 = some (false, s, L1, K))
    (hK : K = TK_ID ∨ K = TK_STRING) (hdot : byteAt str (s + L1) = 46)
    (h2 : tSQLGetToken (str.drop (s + L1 + 1)) = some (L2, K2)) :
    tStrGetToken str i isPrevOptr ignoreTokenTypes =
        some (⟨L1 + 1 + L2, K, some s⟩, s + L1 + 1 + L2) ∧
    tStrGetToken (bytes "db.tbl") 0 false [TK_SPACE, TK_COMMENT] =
        some (⟨6, TK_ID, some 0⟩, 6) := by
  refine ⟨?_, by decide⟩
  have hsemi : K ≠ TK_SEMI := by rcases hK with rfl | rfl <;> decide
  have hks : ¬ (K ≠ TK_STRING ∧ K ≠ TK_ID) := by
    rcases hK with rfl | rfl
    · exact fun h => h.2 rfl
    · exact fun h => h.1 rfl
  unfold tStrGetToken
  rw [if_neg h0, hscan]
  dsimp only
  rw [if_neg hsemi, if_pos hdot, h2]
  dsimp only
  rw [if_neg hks]
  congr 2
  · congr 1; omega
  · omega

theorem tStrGetToken_qualified_witness :
    byteAt (bytes " ,t1.c2 x") 0 ≠ 0 ∧
    scanLoop (bytes " ,t1.c2 x") [TK_SPACE, TK_COMMENT] ((bytes " ,t1.c2 x").length + 1) 0 0 0 =
      some (false, 2, 2, TK_ID) ∧
    byteAt (bytes " ,t1.c2 x") (2 + 2) = 46 ∧
    tSQLGetToken ((bytes " ,t1.c2 x").drop (2 + 2 + 1)) = some (2, TK_ID) ∧
    tStrGetToken (bytes " ,t1.c2 x") 0 true [TK_SPACE, TK_COMMENT] =
      some (⟨2 + 1 + 2, TK_ID, some 2⟩, 2 + 2 + 1 + 2) :=
  ⟨by decide, by decide, by decide, by decide,
    (tStrGetToken_qualified (bytes " ,t1.c2 x") 0 true [TK_SPACE, TK_COMMENT] 2 2 TK_ID 2 TK_ID
      (by decide) (by decide) (Or.inl rfl) (by decide) (by decide)).1⟩

/-- C14: when the first token that is not ignored has a kind that is neither `TK_ID` nor
`TK_STRING` (and is not `TK_SEMI`) and the byte right behind it is `.`, `tStrGetToken`
returns a token of kind `TK_ILLEGAL` with length `0`, whatever `isPrevOptr` is (the scan
behind the dot, whose result is dropped, having a defined result).  This covers `123.tbl`,
`select.x` and `-.5`. -/
theorem tStrGetToken_dot_illegal (str : List Nat) (i : Nat) (isPrevOptr : Bool)
    (ignoreTokenTypes : List Nat) (s n K : Nat) (r2 : Nat × Nat) (h0 : byteAt str i ≠ 0)
    (hscan : scanLoop str ignoreTokenTypes (str.length + 1) i 0 0 = some (false, s, n, K))
    (hK : K ≠ TK_ID ∧ K ≠ TK_STRING ∧ K ≠ TK_SEMI) (hdot : byteAt str (s + n) = 46)
    (h2 : tSQLGetToken (str.drop (s + n + 1)) = some r2) :
    tStrGetToken str i isPrevOptr ignoreTokenTypes = some (⟨0, TK_ILLEGAL, none⟩, s) ∧
    (∀ b : Bool,
      tStrGetToken (bytes "123.tbl") 0 b [TK_SPACE, TK_COMMENT] =
        some (⟨0, TK_ILLEGAL, none⟩, 0) ∧
      tStrGetToken (bytes "select.x") 0 b [TK_SPACE, TK_COMMENT] =
        some (⟨0, TK_ILLEGAL, none⟩, 0) ∧
      tStrGetToken (bytes "-.5") 0 b [TK_SPACE, TK_COMMENT] =
        some (⟨0, TK_ILLEGAL, none⟩, 0)) := by
  refine ⟨?_, by decide⟩
  have hks : K ≠ TK_STRING ∧ K ≠ TK_ID := ⟨hK.2.1, hK.1⟩
  unfold tStrGetToken
  rw [if_neg h0, hscan]
  dsimp only
  rw [if_neg hK.2.2, if_pos hdot, h2]
  dsimp only
  rw [if_pos hks]

theorem tStrGetToken_dot_illegal_witness :
    byteAt (bytes "  now.x") 0 ≠ 0 ∧
    scanLoop (bytes "  now.x") [TK_SPACE, TK_COMMENT] ((bytes "  now.x").length + 1) 0 0 0 =
      some (false, 2, 3, TK_NOW) ∧
    byteAt (bytes "  now.x") (2 + 3) = 46 ∧
    tStrGetToken (bytes "  now.x") 0 true [TK_SPACE, TK_COMMENT] =
      some (⟨0, TK_ILLEGAL, none⟩, 2) :=
  ⟨by decide, by decide, by decide,
    (tStrGetToken_dot_illegal (bytes "  now.x") 0 true [TK_SPACE, TK_COMMENT] 2 3 TK_NOW
      (1, TK_ID) (by decide) (by decide) (by decide) (by decide) (by decide)).1⟩

/-- C15: when the first token that is not ignored is a one-byte `+` or `-` token that is
not followed by `.`: with `isPrevOptr` false `tStrGetToken` returns the sign alone; with
`isPrevOptr` true, the scanner returning kind `K2` with length `L` right behind the sign,
it returns one token of kind `K2` and length `1 + L` starting at the sign, the cursor
ending `1 + L` behind the start of the sign, when `K2` is `TK_INTEGER` or `TK_FLOAT`, and
the sign alone for every other `K2`. -/
theorem tStrGetToken_sign (str : List Nat) (i : Nat) (ignoreTokenTypes : List Nat)
    (s K : Nat) (h0 : byteAt str i ≠ 0)
    (hscan : scanLoop str ignoreTokenTypes (str.length + 1) i 0 0 = some (false, s, 1, K))
    (hK : K = TK_PLUS ∨ K = TK_MINUS) (hdot : byteAt str (s + 1) ≠ 46) :
    tStrGetToken str i false ignoreTokenTypes = some (⟨1, K, some s⟩, s + 1) ∧
    (∀ L K2 : Nat, tSQLGetToken (str.drop (s + 1)) = some (L, K2) →
      ((K2 = TK_INTEGER ∨ K2 = TK_FLOAT) →
        tStrGetToken str i true ignoreTokenTypes = some (⟨1 + L, K2, some s⟩, s + (1 + L))) ∧
      (¬ (K2 = TK_INTEGER ∨ K2 = TK_FLOAT) →
        tStrGetToken str i true ignoreTokenTypes = some (⟨1, K, some s⟩, s + 1))) := by
  have hsemi : K ≠ TK_SEMI := by rcases hK with rfl | rfl <;> decide
  have hsign : K = TK_MINUS ∨ K = TK_PLUS := hK.symm
  refine ⟨?_, ?_⟩
  · unfold tStrGetToken
    rw [if_neg h0, hscan]
    dsimp only
    rw [if_neg hsemi, if_neg hdot, if_neg (by simp)]
  · intro L K2 h2
    constructor
    · intro hk2
      unfold tStrGetToken
      rw [if_neg h0, hscan]
      dsimp only
      rw [if_neg hsemi, if_neg hdot, if_pos ⟨rfl, hsign⟩, h2]
      dsimp only
      rw [if_pos hk2]
    · intro hk2
      unfold tStrGetToken
      rw [if_neg h0, hscan]
      dsimp only
      rw [if_neg hsemi, if_neg hdot, if_pos ⟨rfl, hsign⟩, h2]
      dsimp only
      rw [if_neg hk2]

theorem tStrGetToken_sign_witness :
    byteAt (bytes "= -12.5)") 1 ≠ 0 ∧
    scanLoop (bytes "= -12.5)") [TK_SPACE, TK_COMMENT] ((bytes "= -12.5)").length + 1) 1 0 0 =
      some (false, 2, 1, TK_MINUS) ∧
    tStrGetToken (bytes "= -12.5)") 1 false [TK_SPACE, TK_COMMENT] =
      some (⟨1, TK_MINUS, some 2⟩, 2 + 1) ∧
    tSQLGetToken ((bytes "= -12.5)").drop (2 + 1)) = some (4, TK_FLOAT) ∧
    tStrGetToken (bytes "= -12.5)") 1 true [TK_SPACE, TK_COMMENT] =
      some (⟨1 + 4, TK_FLOAT, some 2⟩, 2 + (1 + 4)) :=
  have h := tStrGetToken_sign (bytes "= -12.5)") 1 [TK_SPACE, TK_COMMENT] 2 TK_MINUS
    (by decide) (by decide) (Or.inr rfl) (by decide)
  ⟨by decide, by decide, h.1, by decide, ((h.2 4 TK_FLOAT (by decide)).1 (Or.inr rfl))⟩

/-! ## The assembler: the skip of whitespace and commas -/

theorem skipLoop_blank (str : List Nat) (fuel i : Nat) (hc : Bool)
    (h : isBlank (byteAt str i) = true) :
    skipLoop str (fuel + 1) i hc = skipLoop str fuel (i + 1) hc := by
  rw [isBlank_iff] at h
  have h44 : byteAt str i ≠ 44 := by omega
  have hcond : byteAt str i = 32 ∨ byteAt str i = 10 ∨ byteAt str i = 13 ∨ byteAt str i = 9 ∨
      byteAt str i = 12 ∨ byteAt str i = 44 := by omega
  rw [skipLoop, if_pos hcond, if_neg h44]

theorem skipLoop_first_comma (str : List Nat) (fuel i : Nat) (h : byteAt str i = 44) :
    skipLoop str (fuel + 1) i false = skipLoop str fuel (i + 1) true := by
  rw [skipLoop, if_pos (by omega), if_pos h, if_pos rfl]

theorem skipLoop_second_comma (str : List Nat) (fuel i : Nat) (h : byteAt str i = 44) :
    skipLoop str (fuel + 1) i true = (i, true) := by
  rw [skipLoop, if_pos (by omega), if_pos h, if_neg (by simp)]

theorem skipLoop_stop (str : List Nat) (fuel i : Nat) (hc : Bool)
    (hb : isBlank (byteAt str i) = false) (h44 : byteAt str i ≠ 44) :
    skipLoop str fuel i hc = (i, false) := by
  cases fuel with
  | zero => rfl
  | succ f =>
    have h1 : ¬ (byteAt str i = 32 ∨ byteAt str i = 9 ∨ byteAt str i = 10 ∨
        byteAt str i = 12 ∨ byteAt str i = 13) := by
      rw [← isBlank_iff]; simp [hb]
    rw [skipLoop, if_neg (by omega)]

/-- The inner loop over a run of whitespace bytes. -/
theorem skipLoop_run (str : List Nat) (run : List Nat) :
    ∀ (tail : List Nat) (i fuel : Nat) (hc : Bool),
      (∀ k, byteAt str (i + k) = byteAt (run ++ tail) k) → (∀ c ∈ run, isBlank c = true) →
      skipLoop str (fuel + run.length) i hc = skipLoop str fuel (i + run.length) hc := by
  induction run with
  | nil => intro tail i fuel hc _ _; rfl
  | cons c cs ih =>
    intro tail i fuel hc hw hr
    have e0 : byteAt str i = c := by simpa [byteAt_cons_zero] using hw 0
    have hstep := skipLoop_blank str (fuel + cs.length) i hc
      (by rw [e0]; exact hr c (List.mem_cons_self _ _))
    have hi := ih tail (i + 1) fuel hc
      (fun k => by rw [show i + 1 + k = i + (k + 1) by omega, hw]; rfl)
      (fun c2 h2 => hr c2 (List.mem_cons_of_mem _ h2))
    rw [List.length_cons, show fuel + (cs.length + 1) = fuel + cs.length + 1 by omega, hstep, hi,
      show i + 1 + cs.length = i + (cs.length + 1) by omega]

theorem isBlank_ne_zero {c : Nat} (h : isBlank c = true) : c ≠ 0 := by
  rw [isBlank_iff] at h; omega

/-- The inner loop over whitespace, a comma, whitespace and a second comma: the function
returns at the second comma. -/
theorem skipLoop_two_commas (str : List Nat) (i : Nat) (run1 run2 rest : List Nat)
    (hw : ∀ k, byteAt str (i + k) = byteAt (run1 ++ 44 :: (run2 ++ 44 :: rest)) k)
    (h1 : ∀ c ∈ run1, isBlank c = true) (h2 : ∀ c ∈ run2, isBlank c = true) :
    skipLoop str str.length i false = (i + run1.length + 1 + run2.length, true) := by
  have hw' : ∀ k, byteAt str (i + k) =
      byteAt ((run1 ++ 44 :: (run2 ++ [44])) ++ rest) k := by
    intro k; rw [hw]; simp
  have hlen := window_length str i (run1 ++ 44 :: (run2 ++ [44])) rest hw' (by
    intro c hc
    simp only [List.mem_append, List.mem_cons, List.mem_singleton, List.not_mem_nil,
      or_false] at hc
    rcases hc with hc | rfl | hc | rfl
    · exact isBlank_ne_zero (h1 c hc)
    · decide
    · exact isBlank_ne_zero (h2 c hc)
    · decide)
  simp only [List.length_append, List.length_cons, List.length_singleton, List.length_nil] at hlen
  obtain ⟨f, hf⟩ : ∃ f, str.length = f + 1 + run2.length + 1 + run1.length :=
    ⟨str.length - (run1.length + run2.length + 2), by omega⟩
  have hwa : ∀ k, byteAt str (i + run1.length + k) = byteAt (44 :: (run2 ++ 44 :: rest)) k :=
    window_shift str i run1 _ hw
  have hwb : ∀ k, byteAt str (i + run1.length + 1 + k) = byteAt (run2 ++ 44 :: rest) k := by
    intro k
    rw [show i + run1.length + 1 + k = i + run1.length + (k + 1) by omega, hwa]; rfl
  have hwc := window_shift str (i + run1.length + 1) run2 _ hwb
  have ea : byteAt str (i + run1.length) = 44 := by simpa [byteAt_cons_zero] using hwa 0
  have eb : byteAt str (i + run1.length + 1 + run2.length) = 44 := by
    simpa [byteAt_cons_zero] using hwc 0
  rw [hf, skipLoop_run str run1 _ i _ false hw h1, skipLoop_first_comma str _ _ ea,
    skipLoop_run str run2 _ _ _ true hwb h2, skipLoop_second_comma str _ _ eb]

/-- C16 (the code at the failing input): when the run of whitespace and commas that
`tStrGetToken` skips first holds a second comma, the function returns from the inner
loop with `t0.n = 0` and leaves `t0.type` as it is: the token has length `0` and the kind
`0` of the initial token `{0}`, not `TK_ILLEGAL`; the cursor stands at the second comma.
When the second comma comes after an ignored token the kind is the kind of that token:
behind a comment, `,,` gives length `0` with kind `TK_COMMENT`. -/
theorem tStrGetToken_two_commas :
    (∀ (str : List Nat) (i : Nat) (isPrevOptr : Bool) (ignoreTokenTypes run1 run2 rest : List Nat),
      (∀ k, byteAt str (i + k) = byteAt (run1 ++ 44 :: (run2 ++ 44 :: rest)) k) →
      (∀ c ∈ run1, isBlank c = true) → (∀ c ∈ run2, isBlank c = true) →
      tStrGetToken str i isPrevOptr ignoreTokenTypes =
        some (⟨0, 0, none⟩, i + run1.length + 1 + run2.length)) ∧
    (0 : Nat) ≠ TK_ILLEGAL ∧
    (∀ b : Bool, tStrGetToken [44, 44] 0 b [TK_SPACE, TK_COMMENT] = some (⟨0, 0, none⟩, 1)) ∧
    (∀ b : Bool, tStrGetToken (47 :: 42 :: 42 :: 47 :: bytes ",,x") 0 b [TK_SPACE, TK_COMMENT] =
      some (⟨0, TK_COMMENT, none⟩, 5)) ∧
    TK_COMMENT ≠ TK_ILLEGAL := by
  refine ⟨?_, by decide, by decide, by decide, by decide⟩
  intro str i b ign run1 run2 rest hw h1 h2
  have h0 : byteAt str i ≠ 0 := by
    have e := hw 0
    rw [Nat.add_zero] at e
    rw [e]
    cases run1 with
    | nil => simp [byteAt_cons_zero]
    | cons c cs => exact isBlank_ne_zero (h1 c (List.mem_cons_self _ _))
  have hs := skipLoop_two_commas str i run1 run2 rest hw h1 h2
  unfold tStrGetToken
  rw [if_neg h0]
  simp only [scanLoop, Nat.add_zero, hs, if_true]

/-! ## The numeric validator -/

theorem segLoop_seg_ge (z : List Nat) :
    ∀ (fuel i seg type : Nat), seg ≤ (segLoop z fuel i seg type).2.1 := by
  intro fuel
  induction fuel with
  | zero => intro i seg type; simp [segLoop]
  | succ f ih =>
    intro i seg type
    simp only [segLoop]
    split
    · exact Nat.le_trans (Nat.le_succ seg) (ih _ _ _)
    · exact Nat.le_refl _

/-- One pass of the segment loop over a segment `.`+digits that is followed by a byte
that is not a digit. -/
theorem segLoop_step (z : List Nat) (s tail : List Nat) (hs : IsDigitRun s)
    (ht : isdigit (byteAt tail 0) = false) (fuel i seg type : Nat)
    (hw : ∀ k, byteAt z (i + k) = byteAt (46 :: (s ++ tail)) k) :
    segLoop z (fuel + 1) i seg type = segLoop z fuel (i + 1 + s.length) (seg + 1) TK_FLOAT := by
  have hw1 : ∀ k, byteAt z (i + 1 + k) = byteAt (s ++ tail) k := by
    intro k
    rw [show i + 1 + k = i + (k + 1) by omega, hw]; rfl
  have e0 : byteAt z i = 46 := by simpa [byteAt_cons_zero] using hw 0
  have e1 : isdigit (byteAt z (i + 1)) = true := by
    have := hw1 0
    rw [Nat.add_zero] at this
    rw [this]
    exact byteAt_digitRun_zero hs _
  have hin : forLoop (fun j => isdigit (byteAt z j)) z.length (i + 2) = i + 1 + s.length :=
    digitLoop_run z (i + 1) s tail hw1 hs.2 ht 1 (digitRun_length_pos hs)
  simp only [segLoop, e0, e1, beq_self_eq_true, Bool.and_self, if_true, hin]

/-- Two segments `.`+digits in the buffer make the segment loop count at least two. -/
theorem segLoop_two (z : List Nat) (s1 s2 : List Nat) (ss : List (List Nat)) (rest : List Nat)
    (h1 : IsDigitRun s1) (h2 : IsDigitRun s2) (i seg type : Nat)
    (hw : ∀ k, byteAt z (i + k) = byteAt (dotted (s1 :: s2 :: ss) ++ rest) k) :
    seg + 2 ≤ (segLoop z z.length i seg type).2.1 := by
  have hd : dotted (s1 :: s2 :: ss) ++ rest = 46 :: (s1 ++ (46 :: (s2 ++ (dotted ss ++ rest)))) := by
    simp [dotted]
  rw [hd] at hw
  have hw' : ∀ k, byteAt z (i + k) = byteAt ((46 :: (s1 ++ [46])) ++ (s2 ++ (dotted ss ++ rest))) k := by
    intro k; rw [hw]; simp
  have hlen := window_length z i (46 :: (s1 ++ [46])) _ hw' (by
    intro c hc
    simp only [List.mem_cons, List.mem_append, List.mem_singleton, List.not_mem_nil,
      or_false] at hc
    rcases hc with rfl | hc | rfl
    · decide
    · exact isdigit_ne_zero (h1.2 c hc)
    · decide)
  simp only [List.length_cons, List.length_append, List.length_singleton, List.length_nil] at hlen
  obtain ⟨f, hf⟩ : ∃ f, z.length = f + 1 + 1 := ⟨z.length - 2, by omega⟩
  have hwb : ∀ k, byteAt z (i + 1 + s1.length + k) =
      byteAt (46 :: (s2 ++ (dotted ss ++ rest))) k := by
    intro k
    have := window_shift z i (46 :: s1) (46 :: (s2 ++ (dotted ss ++ rest)))
      (fun k => by rw [hw]; simp) k
    simp only [List.length_cons] at this
    rw [show i + 1 + s1.length + k = i + (s1.length + 1) + k by omega]
    exact this
  have hwc : ∀ k, byteAt z (i + 1 + s1.length + 1 + k) = byteAt (s2 ++ (dotted ss ++ rest)) k := by
    intro k
    rw [show i + 1 + s1.length + 1 + k = i + 1 + s1.length + (k + 1) by omega, hwb]; rfl
  have e0 : byteAt z (i + 1 + s1.length) = 46 := by simpa [byteAt_cons_zero] using hwb 0
  have e1 : isdigit (byteAt z (i + 1 + s1.length + 1)) = true := by
    have := hwc 0
    rw [Nat.add_zero] at this
    rw [this]
    exact byteAt_digitRun_zero h2 _
  rw [hf, segLoop_step z s1 _ h1 (by rfl) (f + 1) i seg type hw]
  simp only [segLoop, e0, e1, beq_self_eq_true, Bool.and_self, if_true]
  exact segLoop_seg_ge z f _ (seg + 1 + 1) TK_FLOAT

/-- The outer loop of the validator over leading sign bytes. -/
theorem validLoop_signs (z : List Nat) (n : Nat) (signs : List Nat) :
    ∀ (tail : List Nat) (i fuel : Nat),
      (∀ k, byteAt z (i + k) = byteAt (signs ++ tail) k) → (∀ c ∈ signs, c = 43 ∨ c = 45) →
      i + signs.length ≤ n →
      validLoop z n (fuel + signs.length) i = validLoop z n fuel (i + signs.length) := by
  induction signs with
  | nil => intro tail i fuel _ _ _; rfl
  | cons c cs ih =>
    intro tail i fuel hw hs hn
    have e0 : byteAt z i = c := by simpa [byteAt_cons_zero] using hw 0
    have hc : byteAt z i = 43 ∨ byteAt z i = 45 := by
      rw [e0]; exact hs c (List.mem_cons_self _ _)
    simp only [List.length_cons] at hn ⊢
    have hi := ih tail (i + 1) fuel
      (fun k => by rw [show i + 1 + k = i + (k + 1) by omega, hw]; rfl)
      (fun c2 h2 => hs c2 (List.mem_cons_of_mem _ h2)) (by omega)
    rw [show fuel + (cs.length + 1) = fuel + cs.length + 1 by omega, validLoop,
      if_pos (by omega), if_pos hc, hi, show i + 1 + cs.length = i + (cs.length + 1) by omega]

/-- The validator at a digit that is not the lead of a `0b` or `0x` prefix. -/
theorem validLoop_digit (z : List Nat) (n fuel i : Nat) (hi : i < n)
    (hd : isdigit (byteAt z i) = true) (h1 : byteAt z (i + 1) ≠ 98)
    (h2 : byteAt z (i + 1) ≠ 120) :
    validLoop z n (fuel + 1) i =
      (validDecimal z i).elim TK_ILLEGAL (fun r => validEnd n r.1 r.2) := by
  rw [isdigit_iff] at hd
  rw [validLoop, if_pos hi, if_neg (by omega), if_neg (by omega), if_neg (fun h => h1 h.2),
    if_neg (fun h => h2 h.2), if_pos hd]
  cases validDecimal z i <;> rfl

/-- The scanner on a digit run followed by `k >= 1` segments `.`+digits. -/
theorem scanNumber_dotted (digits : List Nat) (segs : List (List Nat)) (rest : List Nat)
    (hd : IsDigitRun digits) (hs : ∀ s ∈ segs, IsDigitRun s) (hk : 1 ≤ segs.length)
    (hr0 : isdigit (byteAt rest 0) = false)
    (hr1 : ¬ (byteAt rest 0 = 46 ∧ isdigit (byteAt rest 1) = true))
    (hr2 : isExponent rest 0 = false) :
    tSQLGetToken (digits ++ (dotted segs ++ rest)) =
        some (digits.length + (dotted segs).length,
          if segs.length = 3 then TK_IPTOKEN else TK_FLOAT) := by
  obtain ⟨s, ss, rfl⟩ : ∃ s ss, segs = s :: ss := by
    cases segs with
    | nil => simp at hk
    | cons s ss => exact ⟨s, ss, rfl⟩
  have h46 : byteAt (dotted (s :: ss) ++ rest) 0 = 46 := rfl
  rw [tSQLGetToken_digitRun digits _ hd (by rw [h46]; decide) (by rw [h46]; decide)]
  have hi := firstDigits digits (dotted (s :: ss) ++ rest) hd (by rw [h46]; rfl)
  have hw := window_append digits (dotted (s :: ss) ++ rest)
  have hz : byteAt (digits ++ (dotted (s :: ss) ++ rest)) digits.length = 46 := by
    rw [byteAt_append_length]; rfl
  have hseg := segLoop_dotted (digits ++ (dotted (s :: ss) ++ rest)) (s :: ss) rest hs hr0 hr1
    (digits ++ (dotted (s :: ss) ++ rest)).length digits.length 1 TK_INTEGER
    (by have := length_le_dotted (s :: ss); simp at this ⊢; omega) hw
  have hexp : isExponent (digits ++ (dotted (s :: ss) ++ rest))
      (digits.length + (dotted (s :: ss)).length) = false := by
    rw [isExponent_window _ _ rest (window_shift _ _ _ _ hw)]
    exact hr2
  simp only [scanNumber, hi, hz, isDurationLetter_dot, hseg, scanExponent, hexp]
  by_cases h3 : ss.length = 2
  · simp [h3]
  · have h4 : ¬ (1 + (ss.length + 1) = 4) := by omega
    simp [h3, h4]

/-- C18: for every token whose text is a digit run followed by two or more segments
`.`+digits, optionally preceded by sign bytes, `isValidNumber` returns `TK_ILLEGAL`,
whatever follows the token in the buffer, while `tSQLGetToken` on the digits and segments
returns `TK_FLOAT` or `TK_IPTOKEN` over their whole length.  `12.3.4` is illegal. -/
theorem isValidNumber_two_dots (signs digits : List Nat) (segs : List (List Nat))
    (rest : List Nat) (hsign : ∀ c ∈ signs, c = 43 ∨ c = 45) (hd : IsDigitRun digits)
    (hs : ∀ s ∈ segs, IsDigitRun s) (hk : 2 ≤ segs.length) :
    isValidNumber (signs ++ (digits ++ (dotted segs ++ rest)))
        (signs.length + digits.length + (dotted segs).length) = TK_ILLEGAL ∧
    (∃ K, tSQLGetToken (digits ++ (dotted segs ++ [])) =
        some (digits.length + (dotted segs).length, K) ∧ (K = TK_FLOAT ∨ K = TK_IPTOKEN)) ∧
    isValidNumber (bytes "12.3.4") 6 = TK_ILLEGAL := by
  refine ⟨?_, ?_, by decide⟩
  · obtain ⟨s1, s2, ss, rfl⟩ : ∃ s1 s2 ss, segs = s1 :: s2 :: ss := by
      match segs, hk with
      | s1 :: s2 :: ss, _ => exact ⟨s1, s2, ss, rfl⟩
    have hdl := digitRun_length_pos hd
    have hw := window_zero (signs ++ (digits ++ (dotted (s1 :: s2 :: ss) ++ rest)))
    have hw1 := window_shift _ 0 signs _ hw
    have hw2 := window_shift _ (0 + signs.length) digits _ hw1
    simp only [Nat.zero_add] at hw1 hw2
    have h46 : byteAt (dotted (s1 :: s2 :: ss) ++ rest) 0 = 46 := rfl
    have e0 : isdigit (byteAt (signs ++ (digits ++ (dotted (s1 :: s2 :: ss) ++ rest)))
        signs.length) = true := by
      have := hw1 0
      rw [Nat.add_zero] at this
      rw [this]
      exact byteAt_digitRun_zero hd _
    have e1 : byteAt (signs ++ (digits ++ (dotted (s1 :: s2 :: ss) ++ rest)))
        (signs.length + 1) ≠ 98 ∧
        byteAt (signs ++ (digits ++ (dotted (s1 :: s2 :: ss) ++ rest)))
        (signs.length + 1) ≠ 120 := by
      rw [hw1 1]
      obtain ⟨hne, hall⟩ := hd
      match digits, hne, hall with
      | [c], _, _ =>
        have e : byteAt ([c] ++ (dotted (s1 :: s2 :: ss) ++ rest)) 1 = 46 := rfl
        rw [e]
        exact ⟨by decide, by decide⟩
      | c :: c2 :: cs, _, hall =>
        have := (isdigit_iff c2).mp (hall c2 (by simp))
        simp only [List.cons_append, byteAt_cons_succ, byteAt_cons_zero]
        omega
    have hi1 : forLoop (fun j => isdigit (byteAt (signs ++ (digits ++
        (dotted (s1 :: s2 :: ss) ++ rest))) j))
        (signs ++ (digits ++ (dotted (s1 :: s2 :: ss) ++ rest))).length signs.length =
        signs.length + digits.length := by
      have := digitLoop_run _ signs.length digits (dotted (s1 :: s2 :: ss) ++ rest) hw1 hd.2
        (by rw [h46]; rfl) 0 (Nat.zero_le _)
      simpa using this
    have hseg := segLoop_two _ s1 s2 ss rest (hs s1 (by simp)) (hs s2 (by simp))
      (signs.length + digits.length) 0 TK_INTEGER hw2
    have hdec : validDecimal (signs ++ (digits ++ (dotted (s1 :: s2 :: ss) ++ rest)))
        signs.length = none := by
      simp only [validDecimal, hi1]
      rw [if_pos (by omega)]
    obtain ⟨f, hf⟩ : ∃ f, signs.length + digits.length + (dotted (s1 :: s2 :: ss)).length =
        f + 1 + signs.length := ⟨digits.length + (dotted (s1 :: s2 :: ss)).length - 1, by omega⟩
    unfold isValidNumber
    conv_lhs => rw [hf]
    rw [validLoop_signs _ _ signs _ 0 (f + 1) hw hsign (by omega), Nat.zero_add,
      validLoop_digit _ _ f _ (by omega) e0 e1.1 e1.2, hdec]
    rfl
  · refine ⟨_, scanNumber_dotted digits segs [] hd hs (by omega) (by decide) (by decide)
      (by decide), ?_⟩
    by_cases h3 : segs.length = 3
    · rw [if_pos h3]; exact Or.inr rfl
    · rw [if_neg h3]; exact Or.inl rfl

theorem isValidNumber_two_dots_witness :
    (∀ c ∈ [45], c = 43 ∨ c = 45) ∧ IsDigitRun (bytes "10") ∧
    (∀ s ∈ [bytes "0", bytes "0", bytes "1"], IsDigitRun s) ∧
    isValidNumber ([45] ++ (bytes "10" ++ (dotted [bytes "0", bytes "0", bytes "1"] ++ bytes ":80")))
      (([45] : List Nat).length + (bytes "10").length +
        (dotted [bytes "0", bytes "0", bytes "1"]).length) = TK_ILLEGAL :=
  have h0 : ∀ c ∈ [45], c = 43 ∨ c = 45 := by
    intro c hc
    rw [List.mem_singleton] at hc
    exact Or.inr hc
  have h1 : IsDigitRun (bytes "10") := ⟨by decide, by decide⟩
  have h2 : ∀ s ∈ [bytes "0", bytes "0", bytes "1"], IsDigitRun s := by
    intro s hs
    simp only [List.mem_cons, List.mem_singleton, List.not_mem_nil, or_false] at hs
    rcases hs with rfl | rfl | rfl <;> exact ⟨by decide, by decide⟩
  ⟨h0, h1, h2, (isValidNumber_two_dots [45] (bytes "10") _ (bytes ":80") h0 h1 h2
    (by decide)).1⟩

/-- C19 (the code at the failing input): `isValidNumber` does not stop at the end of the
token: the digit, segment and exponent loops read the buffer behind it.  The token `1` of
length `1` is `TK_INTEGER` when the terminator follows and `TK_ILLEGAL` when the buffer
goes on with `.5.6`, although the first byte of both buffers is the same. -/
theorem isValidNumber_reads_behind_token :
    (bytes "1").take 1 = (bytes "1.5.6").take 1 ∧
    isValidNumber (bytes "1") 1 = TK_INTEGER ∧
    isValidNumber (bytes "1.5.6") 1 = TK_ILLEGAL ∧
    isValidNumber (bytes "1") 1 ≠ isValidNumber (bytes "1.5.6") 1 := by
  decide

/-- C20 (the code at the failing input): `isValidNumber` has no test for an empty digit
run behind the prefixes `0b` and `0x`: the tokens `0b` and `0x` are judged `TK_BIN` and
`TK_HEX`, while `tSQLGetToken` on the same text returns the illegal token of length `0`. -/
theorem isValidNumber_bare_radix :
    isValidNumber (bytes "0b") 2 = TK_BIN ∧ tSQLGetToken (bytes "0b") = some (0, TK_ILLEGAL) ∧
    isValidNumber (bytes "0x") 2 = TK_HEX ∧ tSQLGetToken (bytes "0x") = some (0, TK_ILLEGAL) ∧
    TK_BIN ≠ TK_ILLEGAL ∧ TK_HEX ≠ TK_ILLEGAL := by
  decide

/-! ## Identifiers -/

theorem isIdentByte_facts {c : Nat} (h : isIdentByte c = true) :
    c ≠ 0 ∧ c &&& 0x80 = 0 ∧ isBlank c = false ∧ c ≠ 44 ∧ c ≠ 46 := by
  have hle : c ≤ 122 := by
    simp only [isIdentByte, isdigit, Bool.or_eq_true, Bool.and_eq_true, decide_eq_true_eq,
      beq_iff_eq] at h
    omega
  interval_cases c <;> first | exact ⟨by decide, by decide, by decide, by decide, by decide⟩ | (exfalso; revert h; decide)

theorem idCharCond_eq (z : List Nat) (j : Nat) : idCharCond z j = isIdentByte (byteAt z j) := by
  unfold idCharCond
  rw [isIdChar_getD_eq]
  cases h : isIdentByte (byteAt z j)
  · simp
  · simp [(isIdentByte_facts h).2.1]

theorem isIdentifier_facts {name : List Nat} (h : IsIdentifier name) (rest : List Nat) :
    1 ≤ name.length ∧ isIdentByte (byteAt (name ++ rest) 0) = true ∧
    isdigit (byteAt (name ++ rest) 0) = false ∧ (∀ c ∈ name, c ≠ 0) := by
  obtain ⟨hne, hall, hfirst⟩ := h
  cases name with
  | nil => exact absurd rfl hne
  | cons c cs =>
    refine ⟨by simp, hall c (List.mem_cons_self _ _), hfirst, ?_⟩
    intro d hd
    exact (isIdentByte_facts (hall d hd)).1

/-- The identifier loop of the scanner over an identifier. -/
theorem identLoop (name rest : List Nat) (h : IsIdentifier name)
    (hr : isIdentByte (byteAt rest 0) = false) :
    forLoop (idCharCond (name ++ rest)) (name ++ rest).length 1 = name.length := by
  have hf : idCharCond (name ++ rest) = fun j => isIdentByte (byteAt (name ++ rest) j) := by
    funext j; exact idCharCond_eq _ j
  rw [hf]
  have := forLoop_run isIdentByte (name ++ rest) 0 name rest (window_zero _) h.2.1 hr
    (name ++ rest).length 1 (isIdentifier_facts h rest).1 (by simp; omega)
  simpa using this

theorem tSQLKeywordCode_append (name rest : List Nat) :
    tSQLKeywordCode (name ++ rest) name.length = tSQLKeywordCode name name.length := by
  unfold tSQLKeywordCode
  have : (List.range name.length).map (fun j => keyByte (byteAt (name ++ rest) j)) =
      (List.range name.length).map (fun j => keyByte (byteAt name j)) := by
    apply List.map_congr_left
    intro j hj
    rw [byteAt_append_left _ _ _ (by simpa using hj)]
  rw [this]

set_option maxRecDepth 1000000 in
theorem keywordTable_kinds :
    keywordTable.all (fun e => e.type != TK_SPACE && e.type != TK_COMMENT &&
      (e.type != TK_SEMI || e.name == bytes "SEMI")) = true := by decide

/-- The kind that the keyword index gives to a text is not `TK_SPACE` and not
`TK_COMMENT`, and it is `TK_SEMI` only for the keyword `SEMI`. -/
theorem tSQLKeywordCode_kind (name : List Nat) (hlen : name.length < 128)
    (h0 : ∀ c ∈ name, c ≠ 0) :
    ∃ K, tSQLKeywordCode name name.length = some K ∧ K ≠ TK_SPACE ∧ K ≠ TK_COMMENT ∧
      (name.map keyByte ≠ bytes "SEMI" → K ≠ TK_SEMI) := by
  rw [tSQLKeywordCode_full name hlen h0]
  cases hf : taosGetStrHashData keywordTable (name.map keyByte) with
  | none => exact ⟨TK_ID, rfl, by decide, by decide, fun _ => by decide⟩
  | some e =>
    have hm : e ∈ keywordTable := List.mem_of_find?_eq_some hf
    have hn : e.name = name.map keyByte := by
      have := List.find?_some hf
      simpa using this
    have hk := List.all_eq_true.mp keywordTable_kinds e hm
    simp only [Bool.and_eq_true, bne_iff_ne, ne_eq, Bool.or_eq_true, beq_iff_eq] at hk
    refine ⟨e.type, rfl, hk.1.1, hk.1.2, ?_⟩
    intro hs hsemi
    rcases hk.2 with h | h
    · exact h hsemi
    · exact hs (hn ▸ h)

theorem isIdentByte_not_label {c : Nat} (h : isIdentByte c = true) (hd : isdigit c = false) :
    isCaseLabel c = false := by
  have hle : c ≤ 122 := by
    simp only [isIdentByte, isdigit, Bool.or_eq_true, Bool.and_eq_true, decide_eq_true_eq,
      beq_iff_eq] at h
    omega
  interval_cases c <;> first | rfl | (exfalso; revert h; decide) | (exfalso; revert hd; decide)

theorem scanIdentifier_identifier (name rest : List Nat) (h : IsIdentifier name)
    (hlen : name.length < 128) (hr : isIdentByte (byteAt rest 0) = false) :
    ∃ K, scanIdentifier (name ++ rest) = some (name.length, K) ∧ K ≠ TK_SPACE ∧
      K ≠ TK_COMMENT ∧ (name.map keyByte ≠ bytes "SEMI" → K ≠ TK_SEMI) := by
  obtain ⟨_, hfirst, _, h0⟩ := isIdentifier_facts h rest
  obtain ⟨K, hK, hrest⟩ := tSQLKeywordCode_kind name hlen h0
  refine ⟨K, ?_, hrest⟩
  have hc : ¬ (((byteAt (name ++ rest) 0 &&& 0x80 != 0) ||
      (isIdChar.getD (byteAt (name ++ rest) 0) 0 == 0)) = true) := by
    have h1 := isIdChar_getD_eq (byteAt (name ++ rest) 0)
    rw [hfirst] at h1
    have h2 := (isIdentByte_facts hfirst).2.1
    simp only [bne_iff_ne, ne_eq] at h1
    intro hcontra
    simp only [Bool.or_eq_true, bne_iff_ne, ne_eq, beq_iff_eq] at hcontra
    rcases hcontra with a | b
    · exact a h2
    · exact h1 b
  unfold scanIdentifier
  rw [if_neg hc]
  dsimp only
  rw [identLoop name rest h hr, tSQLKeywordCode_append, hK]

/-- The scanner on an identifier of fewer than 128 bytes: the token is the identifier, its
kind is neither `TK_SPACE` nor `TK_COMMENT`, and it is `TK_SEMI` only for the keyword
`SEMI`. -/
theorem tSQLGetToken_identifier (name rest : List Nat) (h : IsIdentifier name)
    (hlen : name.length < 128) (hr : isIdentByte (byteAt rest 0) = false) :
    ∃ K, tSQLGetToken (name ++ rest) = some (name.length, K) ∧ K ≠ TK_SPACE ∧
      K ≠ TK_COMMENT ∧ (name.map keyByte ≠ bytes "SEMI" → K ≠ TK_SEMI) := by
  obtain ⟨_, hfirst, hnd, _⟩ := isIdentifier_facts h rest
  have hcl := isIdentByte_not_label hfirst hnd
  by_cases ht : byteAt (name ++ rest) 0 = 84 ∨ byteAt (name ++ rest) 0 = 116 ∨
      byteAt (name ++ rest) 0 = 70 ∨ byteAt (name ++ rest) 0 = 102
  · rw [tSQLGetToken_lead_in _ ht]
    unfold scanBool
    dsimp only
    rw [identLoop name rest h hr]
    split_ifs
    · exact ⟨TK_BOOL, rfl, by decide, by decide, fun _ => by decide⟩
    · exact scanIdentifier_identifier name rest h hlen hr
  · rw [tSQLGetToken_default _ hcl ht]
    exact scanIdentifier_identifier name rest h hlen hr


/-! ## The assembler over two identifiers -/

/-- The scanner on a closed block comment (shared helper). -/
theorem tSQLGetToken_closed_comment (pre rest : List Nat) (hpre : ∀ c ∈ pre, c ≠ 0)
    (hclose : NoClose (pre ++ [42])) :
    tSQLGetToken (47 :: 42 :: (pre ++ 42 :: 47 :: rest)) =
      some (2 + pre.length + 2, TK_COMMENT) := by
  have hbody : ∀ j, j ≤ pre.length →
      byteAt (pre ++ 42 :: 47 :: rest) j = byteAt (pre ++ [42]) j := by
    intro j hj
    by_cases hlt : j < pre.length
    · rw [byteAt_append_left _ _ _ hlt, byteAt_append_left _ _ _ hlt]
    · have : j = pre.length := by omega
      subst this
      rw [byteAt_append_length, byteAt_append_length]; rfl
  have hnz : ∀ j, j ≤ pre.length → byteAt (pre ++ [42]) j ≠ 0 := by
    intro j hj
    apply byteAt_of_mem_ne_zero
    · intro c hc
      rcases List.mem_append.mp hc with hc | hc
      · exact hpre c hc
      · simp at hc; omega
    · simp; omega
  have h2 : byteAt (47 :: 42 :: (pre ++ 42 :: 47 :: rest)) 2 ≠ 0 := by
    rw [byteAt_cons_cons 47 42 _ 0, hbody 0 (Nat.zero_le _)]
    exact hnz 0 (Nat.zero_le _)
  have hend : byteAt (47 :: 42 :: (pre ++ 42 :: 47 :: rest)) (2 + pre.length + 1) = 47 := by
    rw [Nat.add_assoc, byteAt_cons_cons, byteAt_append_right]; rfl
  have hprev : byteAt (47 :: 42 :: (pre ++ 42 :: 47 :: rest)) (2 + pre.length + 1 - 1) = 42 := by
    rw [Nat.add_sub_cancel, byteAt_cons_cons, byteAt_append_length]; rfl
  have hl : forLoop (fun i => byteAt (47 :: 42 :: (pre ++ 42 :: 47 :: rest)) i != 0 &&
      (byteAt (47 :: 42 :: (pre ++ 42 :: 47 :: rest)) i != 47 ||
        byteAt (47 :: 42 :: (pre ++ 42 :: 47 :: rest)) (i - 1) != 42))
      (47 :: 42 :: (pre ++ 42 :: 47 :: rest)).length 3 = 2 + pre.length + 1 := by
    apply forLoop_eq
    · simp only [hend, hprev]; decide
    · omega
    · simp; omega
    · intro j hj1 hj2
      obtain ⟨m, rfl⟩ : ∃ m, j = 2 + (m + 1) := ⟨j - 3, by omega⟩
      have e1 : byteAt (47 :: 42 :: (pre ++ 42 :: 47 :: rest)) (2 + (m + 1)) =
          byteAt (pre ++ [42]) (m + 1) := by
        rw [byteAt_cons_cons, hbody _ (by omega)]
      have e2 : byteAt (47 :: 42 :: (pre ++ 42 :: 47 :: rest)) (2 + (m + 1) - 1) =
          byteAt (pre ++ [42]) m := by
        rw [show 2 + (m + 1) - 1 = 2 + m by omega, byteAt_cons_cons, hbody _ (by omega)]
      have hc := hclose m
      have hn := hnz (m + 1) (by omega)
      simp only [e1, e2, bne_iff_ne, ne_eq, Bool.and_eq_true, Bool.or_eq_true,
        decide_eq_true_eq]
      refine ⟨hn, ?_⟩
      by_cases h47 : byteAt (pre ++ [42]) (m + 1) = 47
      · right; intro h42; exact hc ⟨h42, h47⟩
      · left; exact h47
  rw [tSQLGetToken_slash_star (47 :: 42 :: (pre ++ 42 :: 47 :: rest)) rfl rfl h2, hl, hend]
  rfl

theorem tSQLGetToken_blockComment (cm rest : List Nat) (h : IsBlockComment cm) :
    tSQLGetToken (cm ++ rest) = some (cm.length, TK_COMMENT) ∧ byteAt (cm ++ rest) 0 = 47 := by
  obtain ⟨inside, rfl, h0, hc⟩ := h
  have e : 47 :: 42 :: (inside ++ [42, 47]) ++ rest = 47 :: 42 :: (inside ++ 42 :: 47 :: rest) := by
    simp
  rw [e, tSQLGetToken_closed_comment inside rest h0 hc]
  refine ⟨?_, rfl⟩
  simp only [List.length_cons, List.length_append, List.length_nil]
  congr 2
  omega

/-- One pass of the outer loop that ends it: the token met is not ignored. -/
theorem scanLoop_keep (str ign : List Nat) (fuel i n type s n2 K : Nat)
    (hs : skipLoop str str.length (i + n) false = (s, false))
    (ht : tSQLGetToken (str.drop s) = some (n2, K)) (hk : ign.contains K = false) :
    scanLoop str ign (fuel + 1) i n type = some (false, s, n2, K) := by
  simp only [scanLoop, hs, ht, hk]
  simp

/-- One pass of the outer loop over an ignored token. -/
theorem scanLoop_ignore (str ign : List Nat) (fuel i n type s n2 K : Nat)
    (hs : skipLoop str str.length (i + n) false = (s, false))
    (ht : tSQLGetToken (str.drop s) = some (n2, K)) (hk : ign.contains K = true) :
    scanLoop str ign (fuel + 1) i n type = scanLoop str ign fuel s n2 K := by
  simp only [scanLoop, hs, ht, hk]
  simp

/-- The inner loop over a run of whitespace that is followed by a byte that is neither
whitespace nor a comma. -/
theorem skipLoop_blanks (str : List Nat) (i : Nat) (sp tail : List Nat) (hc : Bool)
    (hw : ∀ k, byteAt str (i + k) = byteAt (sp ++ tail) k) (hsp : ∀ c ∈ sp, isBlank c = true)
    (ht : isBlank (byteAt tail 0) = false) (h44 : byteAt tail 0 ≠ 44) :
    skipLoop str str.length i hc = (i + sp.length, false) := by
  have hlen := window_length str i sp tail hw (fun c h => isBlank_ne_zero (hsp c h))
  obtain ⟨f, hf⟩ : ∃ f, str.length = f + sp.length := ⟨str.length - sp.length, by omega⟩
  have e := window_shift str i sp tail hw 0
  rw [Nat.add_zero] at e
  rw [hf, skipLoop_run str sp tail i f hc hw hsp]
  exact skipLoop_stop str f _ hc (by rw [e]; exact ht) (by rw [e]; exact h44)

/-- The assembler when the token met is returned as it is: it is not `TK_SEMI`, no `.`
follows it, and a scan behind a keyword of kind `TK_PLUS` or `TK_MINUS` does not find a
number. -/
theorem tStrGetToken_plain (str : List Nat) (i : Nat) (b : Bool) (ign : List Nat)
    (s n K : Nat) (h0 : byteAt str i ≠ 0)
    (hscan : scanLoop str ign (str.length + 1) i 0 0 = some (false, s, n, K))
    (hsemi : K ≠ TK_SEMI) (hdot : byteAt str (s + n) ≠ 46)
    (hnext : ∃ L K2, tSQLGetToken (str.drop (s + n)) = some (L, K2) ∧ K2 ≠ TK_INTEGER ∧
      K2 ≠ TK_FLOAT) :
    tStrGetToken str i b ign = some (⟨n, K, some s⟩, s + n) := by
  obtain ⟨L, K2, h2, hk1, hk2⟩ := hnext
  unfold tStrGetToken
  rw [if_neg h0, hscan]
  dsimp only
  rw [if_neg hsemi, if_neg hdot]
  by_cases hb : b = true ∧ (K = TK_MINUS ∨ K = TK_PLUS)
  · rw [if_pos hb, h2]
    dsimp only
    rw [if_neg (by intro h; rcases h with h | h; exact hk1 h; exact hk2 h)]
  · rw [if_neg hb]

theorem tSQLGetToken_nil : tSQLGetToken [] = some (0, TK_ILLEGAL) := by decide

theorem ignore_contains_false {K : Nat} (h1 : K ≠ TK_SPACE) (h2 : K ≠ TK_COMMENT) :
    [TK_SPACE, TK_COMMENT].contains K = false := by
  have e1 : (K == TK_SPACE) = false := beq_false_of_ne h1
  have e2 : (K == TK_COMMENT) = false := beq_false_of_ne h2
  simp [List.contains, List.elem, e1, e2]

theorem isBlank_space {sp : List Nat} (h : ∀ c ∈ sp, c = 32) : ∀ c ∈ sp, isBlank c = true := by
  intro c hc
  rw [h c hc]
  rfl

/-- One pass of the outer loop that skips whitespace and meets an identifier. -/
theorem scanLoop_identifier (A sp name rest : List Nat) (fuel i n type : Nat)
    (hA : A.length = i + n) (hsp : ∀ c ∈ sp, isBlank c = true) (hid : IsIdentifier name)
    (hlen : name.length < 128) (hr : isIdentByte (byteAt rest 0) = false) :
    ∃ K, scanLoop (A ++ (sp ++ (name ++ rest))) [TK_SPACE, TK_COMMENT] (fuel + 1) i n type =
        some (false, A.length + sp.length, name.length, K) ∧
      (name.map keyByte ≠ bytes "SEMI" → K ≠ TK_SEMI) := by
  obtain ⟨K, hK, hK1, hK2, hK3⟩ := tSQLGetToken_identifier name rest hid hlen hr
  obtain ⟨_, hfirst, _, _⟩ := isIdentifier_facts hid rest
  have hf := isIdentByte_facts hfirst
  have hskip : skipLoop (A ++ (sp ++ (name ++ rest))) (A ++ (sp ++ (name ++ rest))).length
      (i + n) false = (A.length + sp.length, false) := by
    rw [← hA]
    exact skipLoop_blanks _ A.length sp (name ++ rest) false (window_append A _) hsp hf.2.2.1
      hf.2.2.2.1
  have hdrop : (A ++ (sp ++ (name ++ rest))).drop (A.length + sp.length) = name ++ rest := by
    rw [List.drop_append, List.drop_left]
  refine ⟨K, ?_, hK3⟩
  exact scanLoop_keep _ _ fuel i n type _ _ K hskip (by rw [hdrop]; exact hK)
    (ignore_contains_false hK1 hK2)

/-- The assembler on whitespace followed by an identifier; `A` is the text in front of
the cursor.  What follows the identifier is not `.`, and scanning it does not give a
number. -/
theorem tStrGetToken_identifier (A sp name rest : List Nat) (b : Bool)
    (hsp : ∀ c ∈ sp, isBlank c = true) (hid : IsIdentifier name)
    (hlen : name.length < 128) (hsemi : name.map keyByte ≠ bytes "SEMI")
    (hr : isIdentByte (byteAt rest 0) = false) (hdot : byteAt rest 0 ≠ 46)
    (hnext : ∃ L K2, tSQLGetToken rest = some (L, K2) ∧ K2 ≠ TK_INTEGER ∧ K2 ≠ TK_FLOAT) :
    ∃ K, tStrGetToken (A ++ (sp ++ (name ++ rest))) A.length b [TK_SPACE, TK_COMMENT] =
      some (⟨name.length, K, some (A.length + sp.length)⟩, A.length + sp.length + name.length) := by
  obtain ⟨K, hscan, hK⟩ := scanLoop_identifier A sp name rest
    (A ++ (sp ++ (name ++ rest))).length A.length 0 0 rfl hsp hid hlen hr
  obtain ⟨_, hfirst, _, _⟩ := isIdentifier_facts hid rest
  have h0 : byteAt (A ++ (sp ++ (name ++ rest))) A.length ≠ 0 := by
    rw [byteAt_append_length]
    cases sp with
    | nil => exact (isIdentByte_facts hfirst).1
    | cons c cs => exact isBlank_ne_zero (hsp c (List.mem_cons_self _ _))
  have hd : byteAt (A ++ (sp ++ (name ++ rest))) (A.length + sp.length + name.length) =
      byteAt rest 0 := by
    rw [Nat.add_assoc, byteAt_append_right, byteAt_append_right, byteAt_append_length]
  have hdrop : (A ++ (sp ++ (name ++ rest))).drop (A.length + sp.length + name.length) = rest := by
    rw [Nat.add_assoc, List.drop_append, List.drop_append, List.drop_left]
  refine ⟨K, ?_⟩
  exact tStrGetToken_plain _ A.length b _ _ _ K h0 hscan (hK hsemi) (by rw [hd]; exact hdot)
    (by rw [hdrop]; exact hnext)

/-- The assembler on whitespace, one closed block comment, whitespace and an identifier
that ends the buffer. -/
theorem tStrGetToken_comment_identifier (A sp1 cm sp2 name : List Nat) (b : Bool)
    (hsp1 : ∀ c ∈ sp1, isBlank c = true) (hcm : IsBlockComment cm)
    (hsp2 : ∀ c ∈ sp2, isBlank c = true) (hid : IsIdentifier name) (hlen : name.length < 128)
    (hsemi : name.map keyByte ≠ bytes "SEMI") :
    ∃ K, tStrGetToken (A ++ (sp1 ++ (cm ++ (sp2 ++ (name ++ []))))) A.length b
        [TK_SPACE, TK_COMMENT] =
      some (⟨name.length, K, some (A.length + sp1.length + cm.length + sp2.length)⟩,
        A.length + sp1.length + cm.length + sp2.length + name.length) := by
  obtain ⟨hct, hc0⟩ := tSQLGetToken_blockComment cm (sp2 ++ (name ++ [])) hcm
  have hcl : 1 ≤ cm.length := by
    obtain ⟨inside, rfl, _, _⟩ := hcm
    simp
  -- first pass: the comment is met and ignored
  have hskip : skipLoop (A ++ (sp1 ++ (cm ++ (sp2 ++ (name ++ [])))))
      (A ++ (sp1 ++ (cm ++ (sp2 ++ (name ++ []))))).length (A.length + 0) false =
      (A.length + sp1.length, false) :=
    skipLoop_blanks _ A.length sp1 _ false (window_append A _) hsp1 (by rw [hc0]; rfl)
      (by rw [hc0]; decide)
  have hdrop : (A ++ (sp1 ++ (cm ++ (sp2 ++ (name ++ []))))).drop (A.length + sp1.length) =
      cm ++ (sp2 ++ (name ++ [])) := by
    rw [List.drop_append, List.drop_left]
  obtain ⟨f, hf⟩ : ∃ f, (A ++ (sp1 ++ (cm ++ (sp2 ++ (name ++ []))))).length = f + 1 :=
    ⟨(A ++ (sp1 ++ (cm ++ (sp2 ++ (name ++ []))))).length - 1, by simp; omega⟩
  have hre : A ++ (sp1 ++ (cm ++ (sp2 ++ (name ++ [])))) =
      (A ++ (sp1 ++ cm)) ++ (sp2 ++ (name ++ [])) := by simp
  obtain ⟨K, hscan2, hK⟩ := scanLoop_identifier (A ++ (sp1 ++ cm)) sp2 name [] f
    (A.length + sp1.length) cm.length TK_COMMENT (by simp; omega) hsp2 hid hlen (by decide)
  rw [← hre] at hscan2
  have hscan : scanLoop (A ++ (sp1 ++ (cm ++ (sp2 ++ (name ++ []))))) [TK_SPACE, TK_COMMENT]
      ((A ++ (sp1 ++ (cm ++ (sp2 ++ (name ++ []))))).length + 1) A.length 0 0 =
      some (false, (A ++ (sp1 ++ cm)).length + sp2.length, name.length, K) := by
    rw [scanLoop_ignore _ _ _ A.length 0 0 _ _ TK_COMMENT hskip (by rw [hdrop]; exact hct)
      (by decide)]
    conv_lhs => rw [hf]
    exact hscan2
  have hpos : (A ++ (sp1 ++ cm)).length + sp2.length =
      A.length + sp1.length + cm.length + sp2.length := by
    simp; omega
  rw [hpos] at hscan
  have h0 : byteAt (A ++ (sp1 ++ (cm ++ (sp2 ++ (name ++ []))))) A.length ≠ 0 := by
    rw [byteAt_append_length]
    cases sp1 with
    | nil => rw [List.nil_append, hc0]; decide
    | cons c cs => exact isBlank_ne_zero (hsp1 c (List.mem_cons_self _ _))
  have hend : A.length + sp1.length + cm.length + sp2.length + name.length =
      (A ++ (sp1 ++ (cm ++ (sp2 ++ (name ++ []))))).length := by
    simp; omega
  refine ⟨K, ?_⟩
  exact tStrGetToken_plain _ A.length b _ _ _ K h0 hscan (hK hsemi)
    (by rw [hend, byteAt_ge _ _ (Nat.le_refl _)]; decide)
    (by rw [hend, List.drop_length]; exact ⟨0, TK_ILLEGAL, tSQLGetToken_nil, by decide, by decide⟩)

/-- C17 (as stated, refuted): the identifier `semi` is the keyword `SEMI` of kind
`TK_SEMI`, which `tStrGetToken` answers with a zero-length token; over `semi x` the first
call returns length `0` and leaves the cursor at `0`. -/
theorem tStrGetToken_two_identifiers_counterexample :
    IsIdentifier (bytes "semi") ∧ IsIdentifier (bytes "x") ∧
    tStrGetToken (bytes "semi" ++ ([32] ++ ([] ++ ([] ++ bytes "x")))) 0 false
      [TK_SPACE, TK_COMMENT] = some (⟨0, TK_SEMI, none⟩, 0) := by
  refine ⟨⟨by decide, by decide, by decide⟩, ⟨by decide, by decide, by decide⟩, by decide⟩

/-- C17 (amended): for a buffer `id1 ++ gap ++ id2`, where `id1` and `id2` are identifiers
of fewer than 128 bytes that are not the keyword `SEMI` (in any case) and `gap` is a
non-empty sequence of spaces holding at most one closed block comment, three calls of
`tStrGetToken` from cursor `0` with the ignore set `{TK_SPACE, TK_COMMENT}` give the token
`id1` (cursor at its end), the token `id2` (cursor at the end of the buffer) and a
zero-length token (cursor unchanged), whatever `isPrevOptr` is in each call. -/
theorem tStrGetToken_two_identifiers (id1 sp1 cm sp2 id2 : List Nat) (b1 b2 b3 : Bool)
    (h1 : IsIdentifier id1) (h2 : IsIdentifier id2) (hl1 : id1.length < 128)
    (hl2 : id2.length < 128) (hs1 : id1.map keyByte ≠ bytes "SEMI")
    (hs2 : id2.map keyByte ≠ bytes "SEMI") (hsp1 : ∀ c ∈ sp1, c = 32) (hsp2 : ∀ c ∈ sp2, c = 32)
    (hcm : cm = [] ∨ IsBlockComment cm) (hgap : sp1 ++ (cm ++ sp2) ≠ []) :
    ∃ K1 K2,
      tStrGetToken (id1 ++ (sp1 ++ (cm ++ (sp2 ++ id2)))) 0 b1 [TK_SPACE, TK_COMMENT] =
        some (⟨id1.length, K1, some 0⟩, id1.length) ∧
      tStrGetToken (id1 ++ (sp1 ++ (cm ++ (sp2 ++ id2)))) id1.length b2 [TK_SPACE, TK_COMMENT] =
        some (⟨id2.length, K2, some (id1.length + (sp1 ++ (cm ++ sp2)).length)⟩,
          (id1 ++ (sp1 ++ (cm ++ (sp2 ++ id2)))).length) ∧
      tStrGetToken (id1 ++ (sp1 ++ (cm ++ (sp2 ++ id2))))
          (id1 ++ (sp1 ++ (cm ++ (sp2 ++ id2)))).length b3 [TK_SPACE, TK_COMMENT] =
        some (⟨0, 0, none⟩, (id1 ++ (sp1 ++ (cm ++ (sp2 ++ id2)))).length) ∧
      0 ≤ id1.length ∧ id1.length ≤ (id1 ++ (sp1 ++ (cm ++ (sp2 ++ id2)))).length := by
  have hb1 := isBlank_space hsp1
  have hb2 := isBlank_space hsp2
  obtain ⟨_, hf2, _, _⟩ := isIdentifier_facts h2 []
  rw [List.append_nil] at hf2
  have hi2 := isIdentByte_facts hf2
  -- what follows `id1`: a space or the comment
  have hrest : isIdentByte (byteAt (sp1 ++ (cm ++ (sp2 ++ id2))) 0) = false ∧
      byteAt (sp1 ++ (cm ++ (sp2 ++ id2))) 0 ≠ 46 ∧
      ∃ L K, tSQLGetToken (sp1 ++ (cm ++ (sp2 ++ id2))) = some (L, K) ∧ K ≠ TK_INTEGER ∧
        K ≠ TK_FLOAT := by
    cases sp1 with
    | cons c cs =>
      have hc : c = 32 := hsp1 c (List.mem_cons_self _ _)
      subst hc
      have e : byteAt (32 :: cs ++ (cm ++ (sp2 ++ id2))) 0 = 32 := rfl
      exact ⟨rfl, by rw [e]; decide, _, _, tSQLGetToken_blank _ rfl, by decide, by decide⟩
    | nil =>
      rcases hcm with rfl | hcm
      · cases sp2 with
        | nil => exact absurd rfl hgap
        | cons c cs =>
          have hc : c = 32 := hsp2 c (List.mem_cons_self _ _)
          subst hc
          have e : byteAt ([] ++ ([] ++ (32 :: cs ++ id2))) 0 = 32 := rfl
          exact ⟨rfl, by rw [e]; decide, _, _, tSQLGetToken_blank _ rfl, by decide, by decide⟩
      · obtain ⟨hct, hc0⟩ := tSQLGetToken_blockComment cm (sp2 ++ id2) hcm
        rw [List.nil_append, hc0]
        exact ⟨rfl, by decide, _, _, hct, by decide, by decide⟩
  obtain ⟨K1, hcall1⟩ := tStrGetToken_identifier [] [] id1 (sp1 ++ (cm ++ (sp2 ++ id2))) b1
    (by simp) h1 hl1 hs1 hrest.1 hrest.2.1 hrest.2.2
  have hcall2 : ∃ K2, tStrGetToken (id1 ++ (sp1 ++ (cm ++ (sp2 ++ id2)))) id1.length b2
      [TK_SPACE, TK_COMMENT] =
      some (⟨id2.length, K2, some (id1.length + (sp1 ++ (cm ++ sp2)).length)⟩,
        (id1 ++ (sp1 ++ (cm ++ (sp2 ++ id2)))).length) := by
    rcases hcm with rfl | hcm
    · obtain ⟨K2, h⟩ := tStrGetToken_identifier id1 (sp1 ++ sp2) id2 [] b2
        (by
          intro c hc
          rcases List.mem_append.mp hc with hc | hc
          · exact hb1 c hc
          · exact hb2 c hc)
        h2 hl2 hs2 (by decide) (by decide)
        ⟨0, TK_ILLEGAL, tSQLGetToken_nil, by decide, by decide⟩
      refine ⟨K2, ?_⟩
      simp only [List.append_nil, List.nil_append, List.append_assoc, List.length_append] at h ⊢
      rw [h]
      congr 2
      omega
    · obtain ⟨K2, h⟩ := tStrGetToken_comment_identifier id1 sp1 cm sp2 id2 b2 hb1 hcm hb2 h2 hl2
        hs2
      refine ⟨K2, ?_⟩
      simp only [List.append_nil, List.length_append] at h ⊢
      rw [h]
      congr 2
      · congr 2
        omega
      · omega
  obtain ⟨K2, hcall2⟩ := hcall2
  refine ⟨K1, K2, ?_, hcall2, ?_, Nat.zero_le _, by simp⟩
  · simpa using hcall1
  · unfold tStrGetToken
    rw [if_pos (byteAt_ge _ _ (Nat.le_refl _))]

theorem tStrGetToken_two_identifiers_witness :
    IsIdentifier (bytes "ab") ∧ IsIdentifier (bytes "cd") ∧
    IsBlockComment (47 :: 42 :: (bytes " c " ++ [42, 47])) ∧
    ∃ K1 K2,
      tStrGetToken (bytes "ab" ++ ([32] ++ ((47 :: 42 :: (bytes " c " ++ [42, 47])) ++
          ([32, 32] ++ bytes "cd")))) 0 true [TK_SPACE, TK_COMMENT] =
        some (⟨(bytes "ab").length, K1, some 0⟩, (bytes "ab").length) ∧
      tStrGetToken (bytes "ab" ++ ([32] ++ ((47 :: 42 :: (bytes " c " ++ [42, 47])) ++
          ([32, 32] ++ bytes "cd")))) (bytes "ab").length false [TK_SPACE, TK_COMMENT] =
        some (⟨(bytes "cd").length, K2, some ((bytes "ab").length +
          ([32] ++ ((47 :: 42 :: (bytes " c " ++ [42, 47])) ++ [32, 32])).length)⟩,
          (bytes "ab" ++ ([32] ++ ((47 :: 42 :: (bytes " c " ++ [42, 47])) ++
            ([32, 32] ++ bytes "cd")))).length) ∧
      tStrGetToken (bytes "ab" ++ ([32] ++ ((47 :: 42 :: (bytes " c " ++ [42, 47])) ++
          ([32, 32] ++ bytes "cd"))))
          (bytes "ab" ++ ([32] ++ ((47 :: 42 :: (bytes " c " ++ [42, 47])) ++
            ([32, 32] ++ bytes "cd")))).length true [TK_SPACE, TK_COMMENT] =
        some (⟨0, 0, none⟩, (bytes "ab" ++ ([32] ++ ((47 :: 42 :: (bytes " c " ++ [42, 47])) ++
          ([32, 32] ++ bytes "cd")))).length) ∧
      0 ≤ (bytes "ab").length ∧ (bytes "ab").length ≤
        (bytes "ab" ++ ([32] ++ ((47 :: 42 :: (bytes " c " ++ [42, 47])) ++
          ([32, 32] ++ bytes "cd")))).length :=
  have h1 : IsIdentifier (bytes "ab") := ⟨by decide, by decide, by decide⟩
  have h2 : IsIdentifier (bytes "cd") := ⟨by decide, by decide, by decide⟩
  have hc : IsBlockComment (47 :: 42 :: (bytes " c " ++ [42, 47])) :=
    ⟨bytes " c ", rfl, by decide, by
      intro j
      match j with
      | 0 => decide
      | 1 => decide
      | 2 => decide
      | 3 => decide
      | j + 4 =>
        intro h
        have h0 : byteAt (bytes " c " ++ [42]) (j + 4) = 0 := byteAt_ge _ _ (by simp [bytes])
        rw [h0] at h
        exact absurd h.1 (by decide)⟩
  ⟨h1, h2, hc, tStrGetToken_two_identifiers (bytes "ab") [32] _ [32, 32] (bytes "cd") true false
    true h1 h2 (by decide) (by decide) (by decide) (by decide) (by decide) (by decide)
    (Or.inr hc) (by decide)⟩

/-! ## The keyword table: names and reachability -/

set_option maxRecDepth 1000000 in
theorem keywordTable_names_nodup : (keywordTable.map SKeyword.name).Nodup := by decide

/-- C22: the keyword table holds no name twice: at every two distinct positions of
`keywordTable` the names differ. -/
theorem keywordTable_no_duplicate (i j : Nat) (hi : i < keywordTable.length)
    (hj : j < keywordTable.length) (hij : i ≠ j) :
    keywordTable[i].name ≠ keywordTable[j].name := by
  intro h
  have hn := keywordTable_names_nodup
  have hi2 : i < (keywordTable.map SKeyword.name).length := by simpa using hi
  have hj2 : j < (keywordTable.map SKeyword.name).length := by simpa using hj
  have e : (keywordTable.map SKeyword.name)[i] = (keywordTable.map SKeyword.name)[j] := by
    simpa using h
  exact hij ((List.Nodup.getElem_inj_iff hn).mp e)

set_option maxRecDepth 100000 in
theorem keywordTable_no_duplicate_witness :
    (4 : Nat) < keywordTable.length ∧ (5 : Nat) < keywordTable.length ∧
    (keywordTable.get ⟨4, by decide⟩).name ≠ (keywordTable.get ⟨5, by decide⟩).name :=
  ⟨by decide, by decide, keywordTable_no_duplicate 4 5 (by decide) (by decide) (by decide)⟩

set_option maxRecDepth 1000000 in
theorem keywordTable_reachable :
    keywordTable.all (fun e => e.name == bytes "REM " ||
      tSQLGetToken e.name == some (e.name.length, e.type)) = true := by decide

set_option maxRecDepth 100000 in
/-- C25 (the code at the failing input, and where the claim holds): the table entry for
`TK_REM` is written `"REM "`, with a space at its end.  The scanner on that name stops in
front of the space and looks up `REM`, which is no name of the table: it returns length
`3` and kind `TK_ID`.  Every other entry is reached: the scanner on its name returns the
length of the name and the kind of the entry. -/
theorem tSQLGetToken_keyword_names :
    kw "REM " TK_REM ∈ keywordTable ∧
    tSQLGetToken (bytes "REM ") = some (3, TK_ID) ∧
    (∀ e ∈ keywordTable, e.name ≠ bytes "REM " →
      tSQLGetToken e.name = some (e.name.length, e.type)) := by
  refine ⟨by decide, by decide, ?_⟩
  intro e he hne
  have h := List.all_eq_true.mp keywordTable_reachable e he
  simp only [Bool.or_eq_true, beq_iff_eq] at h
  rcases h with h | h
  · exact absurd h hne
  · exact h

/-! ## Reads of the character class table -/

theorem land_128_lt (c : Nat) (hc : c < 256) (h : c &&& 0x80 = 0) : c < 128 := by
  by_contra hn
  have h1 : 128 ≤ c := by omega
  interval_cases c <;> revert h <;> decide

set_option maxRecDepth 8000 in
/-- C23 (the code at the failing input): behind a digit run and a duration letter the
scanner reads `isIdChar[z[i + 1]]` without a test of the high bit.  On the bytes `1`, `s`,
`0x80` the index is `128`, outside the 128-entry table, and the scanner has no defined
result; so it is for every byte from `128` on in that place.  The reads in the identifier
loops are guarded by `(z[i] & 0x80) == 0`, which keeps a byte below `128`. -/
theorem tSQLGetToken_table_index :
    isIdChar.length = 128 ∧ byteAt [49, 115, 128] 2 = 128 ∧ isIdChar[128]? = none ∧
    tSQLGetToken [49, 115, 128] = none ∧
    (∀ (digits : List Nat) (letter c : Nat) (rest : List Nat), IsDigitRun digits →
      isDurationLetter letter = true → 128 ≤ c →
      tSQLGetToken (digits ++ letter :: c :: rest) = none) ∧
    (∀ c : Nat, c < 256 → c &&& 0x80 = 0 → c < 128) := by
  refine ⟨rfl, rfl, rfl, rfl, ?_, land_128_lt⟩
  intro digits letter c rest hd hl hc
  obtain ⟨hl0, hl1, hl2⟩ := isDurationLetter_cases hl
  rw [tSQLGetToken_digitRun digits (letter :: c :: rest) hd hl1 hl2]
  have hi := firstDigits digits (letter :: c :: rest) hd hl0
  have hz : byteAt (digits ++ letter :: c :: rest) digits.length = letter := by
    rw [byteAt_append_length]; rfl
  have hz1 : byteAt (digits ++ letter :: c :: rest) (digits.length + 1) = c := by
    rw [byteAt_append_right]; rfl
  have hnone : isIdChar[c]? = none := List.getElem?_eq_none (by rw [isIdChar_length]; exact hc)
  simp only [scanNumber, hi, hz, hl, hz1, hnone, if_true]

/-! ## The validator behind a leading sign -/

/-- The fuel of a loop does not matter once it is enough. -/
theorem forLoop_fuel (cond : Nat → Bool) (L : Nat) (hc : ∀ j, cond j = true → j < L) :
    ∀ (f1 f2 i : Nat), L ≤ i + f1 → L ≤ i + f2 → forLoop cond f1 i = forLoop cond f2 i := by
  intro f1
  induction f1 with
  | zero =>
    intro f2 i h1 _
    have hci : cond i = false := by
      by_contra hn
      have := hc i (by simpa using hn)
      omega
    cases f2 with
    | zero => rfl
    | succ f => simp [forLoop, hci]
  | succ f ih =>
    intro f2 i h1 h2
    by_cases hci : cond i = true
    · have hlt := hc i hci
      obtain ⟨g, rfl⟩ : ∃ g, f2 = g + 1 := ⟨f2 - 1, by omega⟩
      simp only [forLoop, hci, if_true]
      exact ih g (i + 1) (by omega) (by omega)
    · cases f2 with
      | zero => simp [forLoop, hci]
      | succ g => simp [forLoop, hci]

/-- A loop over a buffer with one more byte in front. -/
theorem forLoop_shift (c1 c2 : Nat → Bool) (h : ∀ j, c2 (j + 1) = c1 j) :
    ∀ (fuel i : Nat), forLoop c2 fuel (i + 1) = forLoop c1 fuel i + 1 := by
  intro fuel
  induction fuel with
  | zero => intro i; rfl
  | succ f ih =>
    intro i
    simp only [forLoop, h]
    split
    · exact ih (i + 1)
    · rfl

/-- A byte test loop of the source over a buffer with one more byte in front. -/
theorem byteLoop_cons (p : Nat → Bool) (hp : p 0 = false) (c : Nat) (z : List Nat) (i : Nat) :
    forLoop (fun j => p (byteAt (c :: z) j)) (c :: z).length (i + 1) =
      forLoop (fun j => p (byteAt z j)) z.length i + 1 := by
  rw [forLoop_shift (fun j => p (byteAt z j)) (fun j => p (byteAt (c :: z) j)) (fun j => rfl)]
  congr 1
  apply forLoop_fuel _ z.length
  · intro j hj
    apply byteAt_mem
    intro h0
    rw [h0, hp] at hj
    cases hj
  · simp only [List.length_cons]; omega
  · omega

theorem isdigit_zero : isdigit 0 = false := rfl

theorem segLoop_fuel (z : List Nat) :
    ∀ (f1 f2 i seg type : Nat), z.length ≤ i + f1 → z.length ≤ i + f2 →
      segLoop z f1 i seg type = segLoop z f2 i seg type := by
  intro f1
  induction f1 with
  | zero =>
    intro f2 i seg type h1 _
    have h0 : byteAt z i = 0 := byteAt_ge z i (by omega)
    cases f2 with
    | zero => rfl
    | succ f => simp [segLoop, h0]
  | succ f ih =>
    intro f2 i seg type h1 h2
    by_cases hc : (byteAt z i == 46 && isdigit (byteAt z (i + 1))) = true
    · have hlt : i < z.length := by
        apply byteAt_mem
        intro h0
        rw [h0] at hc
        simp at hc
      obtain ⟨g, rfl⟩ : ∃ g, f2 = g + 1 := ⟨f2 - 1, by omega⟩
      simp only [segLoop, hc, if_true]
      have := forLoop_ge (fun j => isdigit (byteAt z j)) z.length (i + 2)
      exact ih g _ _ _ (by omega) (by omega)
    · cases f2 with
      | zero => simp [segLoop, hc]
      | succ g => simp [segLoop, hc]

theorem segLoop_shift (c : Nat) (z : List Nat) :
    ∀ (fuel i seg type : Nat),
      segLoop (c :: z) fuel (i + 1) seg type =
        ((segLoop z fuel i seg type).1 + 1, (segLoop z fuel i seg type).2) := by
  intro fuel
  induction fuel with
  | zero => intro i seg type; rfl
  | succ f ih =>
    intro i seg type
    have hl := byteLoop_cons isdigit isdigit_zero c z (i + 2)
    simp only [segLoop, byteAt_cons_succ]
    split
    · rw [show i + 1 + 2 = i + 2 + 1 by omega, hl, ih]
    · rfl

theorem segLoop_cons (c : Nat) (z : List Nat) (i seg type : Nat) :
    segLoop (c :: z) (c :: z).length (i + 1) seg type =
      ((segLoop z z.length i seg type).1 + 1, (segLoop z z.length i seg type).2) := by
  rw [segLoop_shift, segLoop_fuel z (c :: z).length z.length i seg type (by simp; omega)
    (by omega)]

theorem scanExponent_cons (c : Nat) (z : List Nat) (i type : Nat) :
    scanExponent (c :: z) (i + 1) type =
      ((scanExponent z i type).1 + 1, (scanExponent z i type).2) := by
  have he : isExponent (c :: z) (i + 1) = isExponent z i := by
    simp only [isExponent, byteAt_cons_succ]
  have hl := byteLoop_cons isdigit isdigit_zero c z (i + 2)
  unfold scanExponent
  rw [he, show i + 1 + 2 = i + 2 + 1 by omega, hl]
  split <;> rfl

theorem validDot_cons (c : Nat) (z : List Nat) (i : Nat) :
    validDot (c :: z) (i + 1) = ((validDot z i).1 + 1, (validDot z i).2) := by
  have hl := byteLoop_cons isdigit isdigit_zero c z (i + 2)
  unfold validDot
  rw [show i + 1 + 2 = i + 2 + 1 by omega, hl, scanExponent_cons]

theorem validDecimal_cons (c : Nat) (z : List Nat) (i : Nat) :
    validDecimal (c :: z) (i + 1) = (validDecimal z i).map (fun r => (r.1 + 1, r.2)) := by
  have hl := byteLoop_cons isdigit isdigit_zero c z i
  unfold validDecimal
  dsimp only
  rw [hl, segLoop_cons]
  dsimp only
  split
  · rfl
  · rw [scanExponent_cons]; rfl

theorem validEnd_succ (n i type : Nat) : validEnd (n + 1) (i + 1) type = validEnd n i type := by
  unfold validEnd
  by_cases h : i < n
  · rw [if_pos h, if_pos (by omega)]
  · rw [if_neg h, if_neg (by omega)]

/-- The outer loop of the validator over a buffer with one more byte in front. -/
theorem validLoop_cons (c : Nat) (z : List Nat) (n : Nat) :
    ∀ (fuel i : Nat), validLoop (c :: z) (n + 1) fuel (i + 1) = validLoop z n fuel i := by
  intro fuel
  induction fuel with
  | zero => intro i; exact validEnd_succ n i TK_ILLEGAL
  | succ f ih =>
    intro i
    have hbin := byteLoop_cons (fun b => b == 48 || b == 49) rfl c z (i + 2)
    have hhex := byteLoop_cons isHexDigit rfl c z (i + 2)
    have e2 : i + 1 + 2 = i + 2 + 1 := by omega
    simp only [validLoop, byteAt_cons_succ, Nat.add_lt_add_iff_right, ih, validDot_cons,
      validDecimal_cons, validEnd_succ, e2, hbin, hhex]
    cases validDecimal z i with
    | none => rfl
    | some r => simp only [Option.map_some', validEnd_succ]

/-- C21: a leading sign is accepted and skipped by `isValidNumber`: the token made of a
sign byte `+` or `-` and the first `n` bytes of `z` gets the same result as the token made
of the first `n` bytes of `z` (the buffer behind both being the same); a token made only
of sign bytes is `TK_ILLEGAL`. -/
theorem isValidNumber_sign (z : List Nat) (n c : Nat) (hc : c = 43 ∨ c = 45) :
    isValidNumber (c :: z) (n + 1) = isValidNumber z n ∧
    (∀ signs rest : List Nat, (∀ s ∈ signs, s = 43 ∨ s = 45) →
      isValidNumber (signs ++ rest) signs.length = TK_ILLEGAL) := by
  constructor
  · unfold isValidNumber
    rw [validLoop, if_pos (Nat.succ_pos n), if_pos (by simpa [byteAt_cons_zero] using hc)]
    exact validLoop_cons c z n n 0
  · intro signs rest hs
    unfold isValidNumber
    have h := validLoop_signs (signs ++ rest) signs.length signs rest 0 0 (window_zero _) hs
      (by omega)
    rw [Nat.zero_add] at h
    rw [h]
    simp [validLoop, validEnd]

theorem isValidNumber_sign_witness :
    (45 = 43 ∨ 45 = 45) ∧
    isValidNumber (45 :: bytes "1.5e3 ") (5 + 1) = isValidNumber (bytes "1.5e3 ") 5 ∧
    isValidNumber (bytes "1.5e3 ") 5 = TK_FLOAT ∧
    isValidNumber ([43, 45] ++ bytes "x") ([43, 45] : List Nat).length = TK_ILLEGAL :=
  have h := isValidNumber_sign (bytes "1.5e3 ") 5 45 (Or.inr rfl)
  ⟨Or.inr rfl, h.1, by decide, h.2 [43, 45] (bytes "x") (by decide)⟩

/-! ## The token stays inside the buffer -/

theorem bound_le {z : List Nat} {n k : Nat} (h : n ≤ z.length) : BoundRule z (some (n, k)) := by
  intro n2 k2 h2
  simp only [Option.some.injEq, Prod.mk.injEq] at h2
  obtain ⟨rfl, rfl⟩ := h2
  exact Or.inl h

theorem bound_none (z : List Nat) : BoundRule z none := by
  intro n k h; cases h

theorem bound_fst {z : List Nat} {r : Nat × Nat} (h : r.1 ≤ z.length) :
    BoundRule z (some r) := by
  obtain ⟨n, k⟩ := r
  exact bound_le h

/-- A loop whose condition fails on the terminator stays inside the buffer. -/
theorem loop_le (z : List Nat) (cond : Nat → Bool)
    (h : ∀ j, cond j = true → byteAt z j ≠ 0) (fuel s : Nat) (hs : s ≤ z.length) :
    forLoop cond fuel s ≤ z.length :=
  forLoop_le cond z.length (fun j hj => byteAt_mem (h j hj)) fuel s hs

theorem byteLoop_le (p : Nat → Bool) (hp : p 0 = false) (z : List Nat) (fuel s : Nat)
    (hs : s ≤ z.length) : forLoop (fun j => p (byteAt z j)) fuel s ≤ z.length := by
  apply loop_le z _ _ fuel s hs
  intro j hj h0
  rw [h0, hp] at hj
  cases hj

theorem strLoop_le (z : List Nat) (d : Nat) (hd : d ≠ 0) :
    ∀ (fuel i : Nat), i ≤ z.length → (strLoop z d fuel i).1 ≤ z.length := by
  intro fuel
  induction fuel with
  | zero => intro i h; exact h
  | succ f ih =>
    intro i h
    simp only [strLoop]
    by_cases h0 : byteAt z i = 0
    · simp [h0, h]
    · have hi : i < z.length := byteAt_mem h0
      by_cases hq : byteAt z i = d
      · by_cases hq1 : byteAt z (i + 1) = d
        · have hi1 : i + 1 < z.length := byteAt_mem (by rw [hq1]; exact hd)
          have := ih (i + 2) (by omega)
          simpa [hq, hq1, hd] using this
        · simp [hq, hq1, hd, h]
      · have := ih (i + 1) (by omega)
        simpa [h0, hq] using this

theorem segLoop_le (z : List Nat) :
    ∀ (fuel i seg type : Nat), i ≤ z.length → (segLoop z fuel i seg type).1 ≤ z.length := by
  intro fuel
  induction fuel with
  | zero => intro i seg type h; exact h
  | succ f ih =>
    intro i seg type h
    simp only [segLoop]
    split
    · next hc =>
      simp only [Bool.and_eq_true, beq_iff_eq] at hc
      have h1 : i + 1 < z.length := byteAt_mem (isdigit_ne_zero hc.2)
      exact ih _ _ _ (byteLoop_le isdigit isdigit_zero z z.length (i + 2) (by omega))
    · exact h

theorem isExponent_lt (z : List Nat) (i : Nat) (h : isExponent z i = true) :
    i + 2 ≤ z.length := by
  simp only [isExponent, Bool.and_eq_true, Bool.or_eq_true, beq_iff_eq] at h
  rcases h.2 with hd | ⟨_, hd⟩
  · have := byteAt_mem (isdigit_ne_zero hd)
    omega
  · have := byteAt_mem (isdigit_ne_zero hd)
    omega

theorem scanExponent_le (z : List Nat) (i type : Nat) (h : i ≤ z.length) :
    (scanExponent z i type).1 ≤ z.length := by
  unfold scanExponent
  split
  · next he => exact byteLoop_le isdigit isdigit_zero z z.length (i + 2) (isExponent_lt z i he)
  · exact h

theorem bound_scanString (z : List Nat) (h0 : byteAt z 0 = 39 ∨ byteAt z 0 = 34) :
    BoundRule z (some (scanString z)) := by
  have hd : byteAt z 0 ≠ 0 := by omega
  have hl := strLoop_le z (byteAt z 0) hd z.length 1 (byteAt_mem hd)
  unfold scanString
  dsimp only
  split
  · split
    · next hnz =>
      have : byteAt z (strLoop z (byteAt z 0) z.length 1).1 ≠ 0 := by simpa using hnz
      have := byteAt_mem this
      exact bound_le (by omega)
    · exact bound_le hl
  · exact bound_le (Nat.zero_le _)

theorem bound_scanDot (z : List Nat) (h0 : byteAt z 0 = 46) : BoundRule z (some (scanDot z)) := by
  unfold scanDot
  split
  · next hd =>
    have h1 : 1 < z.length := byteAt_mem (isdigit_ne_zero hd)
    exact bound_le (scanExponent_le z _ TK_FLOAT
      (byteLoop_le isdigit isdigit_zero z z.length 2 (by omega)))
  · exact bound_le (byteAt_mem (by omega))

theorem isDurationLetter_ne_zero {c : Nat} (h : isDurationLetter c = true) : c ≠ 0 := by
  intro h0
  rw [h0] at h
  cases h

theorem bound_scanNumber (z : List Nat) (h0 : byteAt z 0 ≠ 0) : BoundRule z (scanNumber z) := by
  have h1 : 1 ≤ z.length := byteAt_mem h0
  have hi := byteLoop_le isdigit isdigit_zero z z.length 1 h1
  have hs := segLoop_le z z.length _ 1 TK_INTEGER hi
  have htail : BoundRule z (some
      (if (segLoop z z.length (forLoop (fun j => isdigit (byteAt z j)) z.length 1) 1
          TK_INTEGER).2.1 = 4
        then ((segLoop z z.length (forLoop (fun j => isdigit (byteAt z j)) z.length 1) 1
          TK_INTEGER).1, TK_IPTOKEN)
        else scanExponent z (segLoop z z.length (forLoop (fun j => isdigit (byteAt z j))
          z.length 1) 1 TK_INTEGER).1 (segLoop z z.length (forLoop (fun j => isdigit
          (byteAt z j)) z.length 1) 1 TK_INTEGER).2.2)) := by
    split
    · exact bound_le hs
    · exact bound_fst (scanExponent_le z _ _ hs)
  unfold scanNumber
  dsimp only
  by_cases hd : isDurationLetter (byteAt z (forLoop (fun j => isdigit (byteAt z j)) z.length 1))
      = true
  · rw [if_pos hd]
    have hlt := byteAt_mem (isDurationLetter_ne_zero hd)
    cases isIdChar[byteAt z (forLoop (fun j => isdigit (byteAt z j)) z.length 1 + 1)]? with
    | none => exact bound_none z
    | some v =>
      dsimp only
      by_cases hv : v = 0
      · rw [if_pos hv]; exact bound_le hlt
      · rw [if_neg hv]; exact htail
  · rw [if_neg hd]; exact htail

theorem bound_scanZero (z : List Nat) (h0 : byteAt z 0 = 48) : BoundRule z (scanZero z) := by
  unfold scanZero
  dsimp only
  by_cases hb : byteAt z 1 = 98
  · rw [if_pos hb]
    have h1 : 1 < z.length := byteAt_mem (by omega)
    split
    · exact bound_le (Nat.zero_le _)
    · exact bound_le (byteLoop_le (fun b => b == 48 || b == 49) rfl z z.length 2 h1)
  · rw [if_neg hb]
    by_cases hx : byteAt z 1 = 120
    · rw [if_pos hx]
      have h1 : 1 < z.length := byteAt_mem (by omega)
      split
      · exact bound_le (Nat.zero_le _)
      · exact bound_le (byteLoop_le isHexDigit rfl z z.length 2 h1)
    · rw [if_neg hx]
      exact bound_scanNumber z (by omega)

theorem identLoop_le (z : List Nat) (h0 : byteAt z 0 ≠ 0) :
    forLoop (idCharCond z) z.length 1 ≤ z.length :=
  forLoop_le (idCharCond z) z.length (idCharCond_lt z) z.length 1 (byteAt_mem h0)

theorem bound_scanIdentifier (z : List Nat) (h0 : byteAt z 0 ≠ 0) :
    BoundRule z (scanIdentifier z) := by
  unfold scanIdentifier
  dsimp only
  split
  · exact bound_le (Nat.zero_le _)
  · split
    · exact bound_none z
    · exact bound_le (identLoop_le z h0)

theorem bound_scanBool (z : List Nat) (h0 : byteAt z 0 ≠ 0) : BoundRule z (scanBool z) := by
  unfold scanBool
  dsimp only
  split
  · exact bound_le (identLoop_le z h0)
  · exact bound_scanIdentifier z h0

theorem bound_scanIdentifier_nul (z : List Nat) (h0 : byteAt z 0 = 0) :
    BoundRule z (scanIdentifier z) := by
  rw [scanIdentifier_illegal z (by rw [h0]; rfl)]
  exact bound_le (Nat.zero_le _)

theorem bound_block (z : List Nat) (h2 : byteAt z 2 ≠ 0) (k : Nat) :
    BoundRule z (some (if byteAt z (forLoop (fun i => byteAt z i != 0 &&
        (byteAt z i != 47 || byteAt z (i - 1) != 42)) z.length 3) != 0
      then forLoop (fun i => byteAt z i != 0 &&
        (byteAt z i != 47 || byteAt z (i - 1) != 42)) z.length 3 + 1
      else forLoop (fun i => byteAt z i != 0 &&
        (byteAt z i != 47 || byteAt z (i - 1) != 42)) z.length 3, k)) := by
  have h3 : 3 ≤ z.length := byteAt_mem h2
  have hl := loop_le z (fun i => byteAt z i != 0 && (byteAt z i != 47 || byteAt z (i - 1) != 42))
    (fun j hj => by
      simp only [Bool.and_eq_true, bne_iff_ne, ne_eq] at hj
      exact hj.1) z.length 3 h3
  split
  · next hnz =>
    have : byteAt z (forLoop (fun i => byteAt z i != 0 &&
        (byteAt z i != 47 || byteAt z (i - 1) != 42)) z.length 3) ≠ 0 := by simpa using hnz
    exact bound_le (byteAt_mem this)
  · exact bound_le hl

theorem bound_bang (z : List Nat) (h0 : byteAt z 0 = 33) (k : Nat)
    (hk : byteAt z 1 = 0 → k = TK_ILLEGAL) : BoundRule z (some (2, k)) := by
  intro n2 k2 h2
  simp only [Option.some.injEq, Prod.mk.injEq] at h2
  obtain ⟨rfl, rfl⟩ := h2
  match z, h0, hk with
  | [], h0, _ => exact absurd h0 (by decide)
  | [c], h0, hk =>
    right
    have hc : c = 33 := h0
    exact ⟨rfl, hk rfl, by rw [hc]⟩
  | c :: d :: t, _, _ =>
    left
    simp only [List.length_cons]
    omega

theorem bound_eq (z : List Nat) (h0 : byteAt z 0 = 61) (k : Nat) :
    BoundRule z (some (1 + (if byteAt z 1 = 61 then 1 else 0), k)) := by
  split
  · next h1 => exact bound_le (@byteAt_mem z 1 (by omega))
  · exact bound_le (@byteAt_mem z 0 (by omega))

theorem bound_line (z : List Nat) (h1 : byteAt z 1 ≠ 0) (k : Nat) :
    BoundRule z (some (forLoop (fun i => byteAt z i != 0 && byteAt z i != 10) z.length 2, k)) := by
  apply bound_le
  apply loop_le z _ _ z.length 2 (byteAt_mem h1)
  intro j hj
  simp only [Bool.and_eq_true, bne_iff_ne, ne_eq] at hj
  exact hj.1

theorem bound_bracket (z : List Nat) (h0 : byteAt z 0 ≠ 0) (k : Nat) :
    BoundRule z (some (forLoop (fun i => byteAt z i != 0 && byteAt z (i - 1) != 93)
      z.length 1, k)) := by
  apply bound_le
  apply loop_le z _ _ z.length 1 (byteAt_mem h0)
  intro j hj
  simp only [Bool.and_eq_true, bne_iff_ne, ne_eq] at hj
  exact hj.1

set_option maxRecDepth 100000 in
/-- Every defined result of the scanner stays inside the buffer, except on the buffer `!`. -/
theorem boundRule_tSQLGetToken (z : List Nat) : BoundRule z (tSQLGetToken z) := by
  unfold tSQLGetToken
  dsimp only
  repeat' with_reducible refine ite_ind (BoundRule z) _ _ _ (fun h => ?_) (fun h => ?_)
  all_goals first
    | exact bound_le (@byteAt_mem z 0 (by omega))
    | exact bound_le (@byteAt_mem z 1 (by omega))
    | exact bound_le (byteLoop_le isspace rfl z z.length 1 (@byteAt_mem z 0 (by omega)))
    | exact bound_line z (by omega) _
    | exact bound_block z (by omega) _
    | exact bound_eq z (by assumption) _
    | exact bound_bang z (by assumption) _ (fun _ => rfl)
    | exact bound_scanString z (by assumption)
    | exact bound_scanDot z (by assumption)
    | exact bound_scanZero z (by assumption)
    | exact bound_scanNumber z (by omega)
    | exact bound_bracket z (by omega) _
    | exact bound_scanBool z (by omega)
    | exact (Nat.eq_zero_or_pos (byteAt z 0)).elim (bound_scanIdentifier_nul z)
        (fun hp => bound_scanIdentifier z (by omega))

/-- C24 (the code at the failing input, and where the claim holds): on the buffer that
holds only `!`, one byte in front of the terminator, `tSQLGetToken` returns length `2`
with kind `TK_ILLEGAL`: the case `'!'` returns `2` without looking whether `z[1]` is the
terminator.  On every other buffer every defined result of `tSQLGetToken` has a length of
at most the number of bytes in front of the terminator. -/
theorem tSQLGetToken_past_end :
    ([33] : List Nat).length = 1 ∧ byteAt [33] 1 = 0 ∧
    tSQLGetToken [33] = some (2, TK_ILLEGAL) ∧
    (∀ (z : List Nat) (n k : Nat), tSQLGetToken z = some (n, k) →
      n ≤ z.length ∨ (n = 2 ∧ k = TK_ILLEGAL ∧ z = [33])) := by
  refine ⟨rfl, rfl, by decide, ?_⟩
  intro z n k h
  exact boundRule_tSQLGetToken z n k h

/-! ## Termination of the loop of `tStrGetToken` -/

theorem skipLoop_ge (str : List Nat) :
    ∀ (fuel s : Nat) (hc : Bool), s ≤ (skipLoop str fuel s hc).1 := by
  intro fuel
  induction fuel with
  | zero => intro s hc; exact Nat.le_refl s
  | succ f ih =>
    intro s hc
    simp only [skipLoop]
    split
    · split
      · split
        · exact Nat.le_trans (Nat.le_succ s) (ih (s + 1) true)
        · exact Nat.le_refl s
      · exact Nat.le_trans (Nat.le_succ s) (ih (s + 1) hc)
    · exact Nat.le_refl s

theorem skipLoop_le (str : List Nat) :
    ∀ (fuel s : Nat) (hc : Bool), s ≤ str.length → (skipLoop str fuel s hc).1 ≤ str.length := by
  intro fuel
  induction fuel with
  | zero => intro s hc h; exact h
  | succ f ih =>
    intro s hc h
    simp only [skipLoop]
    split
    · next hb =>
      have hs : s < str.length := byteAt_mem (by omega)
      split
      · split
        · exact ih (s + 1) true hs
        · exact h
      · exact ih (s + 1) hc hs
    · exact h

/-- With fuel for the bytes that are left, the inner loop ends at a byte that is neither
blank nor a comma, or at the second comma. -/
theorem skipLoop_done (str : List Nat) :
    ∀ (fuel s : Nat) (hc : Bool), s ≤ str.length → str.length - s ≤ fuel →
      (skipLoop str fuel s hc).2 = false →
      isBlank (byteAt str (skipLoop str fuel s hc).1) = false ∧
        byteAt str (skipLoop str fuel s hc).1 ≠ 44 := by
  intro fuel
  induction fuel with
  | zero =>
    intro s hc h hf _
    have hs : byteAt str s = 0 := byteAt_ge str s (by omega)
    simp only [skipLoop, hs]
    exact ⟨by decide, by decide⟩
  | succ f ih =>
    intro s hc h hf
    simp only [skipLoop]
    split
    · next hb =>
      have hs : s < str.length := byteAt_mem (by omega)
      split
      · split
        · exact ih (s + 1) true hs (by omega)
        · intro h2; cases h2
      · exact ih (s + 1) hc hs (by omega)
    · next hb =>
      intro _
      dsimp only
      refine ⟨?_, by omega⟩
      cases hbl : isBlank (byteAt str s) with
      | false => rfl
      | true =>
        rw [isBlank_iff] at hbl
        exact absurd hbl (by omega)

/-- A token whose kind is in an ignore set without the illegal kind has at least one byte
and ends inside the buffer. -/
theorem ignored_token_bounds (z : List Nat) (ign : List Nat) (hign : TK_ILLEGAL ∉ ign)
    (n2 k : Nat) (h : tSQLGetToken z = some (n2, k)) (hk : ign.contains k = true) :
    1 ≤ n2 ∧ n2 ≤ z.length := by
  have hmem : k ∈ ign := by simpa using hk
  have hne : k ≠ TK_ILLEGAL := fun e => hign (e ▸ hmem)
  have h1 := (illegalRule_tSQLGetToken z n2 k h).1
  have h2 := boundRule_tSQLGetToken z n2 k h
  constructor
  · rcases Nat.eq_zero_or_pos n2 with h0 | h0
    · exact absurd (h1 h0) hne
    · exact h0
  · rcases h2 with h2 | ⟨_, h2, _⟩
    · exact h2
    · exact absurd h2 hne

/-- One pass of the outer loop from cursor `s` that discards its token leaves the cursor
at least one byte further and not behind the terminator. -/
theorem pass_progress (str : List Nat) (ign : List Nat) (hign : TK_ILLEGAL ∉ ign)
    (s n2 k : Nat) (hs : s ≤ str.length)
    (h : tSQLGetToken (str.drop (skipLoop str str.length s false).1) = some (n2, k))
    (hk : ign.contains k = true) :
    s + 1 ≤ (skipLoop str str.length s false).1 + n2 ∧
      (skipLoop str str.length s false).1 + n2 ≤ str.length := by
  have hb := ignored_token_bounds _ ign hign n2 k h hk
  have hge := skipLoop_ge str str.length s false
  have hle := skipLoop_le str str.length s false hs
  rw [List.length_drop] at hb
  omega

/-- With fuel for the bytes that are left and one more pass, the outer loop has no result
only where the scanner has none. -/
theorem scanLoop_none (str : List Nat) (ign : List Nat) (hign : TK_ILLEGAL ∉ ign) :
    ∀ (fuel i n type : Nat), i + n ≤ str.length → str.length - (i + n) < fuel →
      scanLoop str ign fuel i n type = none → ∃ s, tSQLGetToken (str.drop s) = none := by
  intro fuel
  induction fuel with
  | zero => intro i n type _ hf; omega
  | succ f ih =>
    intro i n type hin hf
    simp only [scanLoop]
    split
    · intro h; cases h
    · cases hr : tSQLGetToken (str.drop (skipLoop str str.length (i + n) false).1) with
      | none => intro _; exact ⟨_, hr⟩
      | some r =>
        obtain ⟨n2, k⟩ := r
        dsimp only
        split
        · next hk =>
          have hp := pass_progress str ign hign (i + n) n2 k hin hr hk
          exact ih _ n2 k hp.2 (by omega)
        · intro h; cases h

/-- The result of the outer loop is the same for every fuel above the bytes that are left. -/
theorem scanLoop_fuel (str : List Nat) (ign : List Nat) (hign : TK_ILLEGAL ∉ ign) :
    ∀ (f1 f2 i n type : Nat), i + n ≤ str.length → str.length - (i + n) < f1 →
      str.length - (i + n) < f2 →
      scanLoop str ign f1 i n type = scanLoop str ign f2 i n type := by
  intro f1
  induction f1 with
  | zero => intro f2 i n type _ hf; omega
  | succ f ih =>
    intro f2 i n type hin hf1 hf2
    cases f2 with
    | zero => omega
    | succ g =>
      simp only [scanLoop]
      split
      · rfl
      · cases hr : tSQLGetToken (str.drop (skipLoop str str.length (i + n) false).1) with
        | none => rfl
        | some r =>
          obtain ⟨n2, k⟩ := r
          dsimp only
          split
          · next hk =>
            have hp := pass_progress str ign hign (i + n) n2 k hin hr hk
            exact ih g _ n2 k hp.2 (by omega) (by omega)
          · rfl

theorem tStrGetToken_none (str : List Nat) (ign : List Nat) (hign : TK_ILLEGAL ∉ ign)
    (i : Nat) (isPrevOptr : Bool) (hi : i ≤ str.length)
    (h : tStrGetToken str i isPrevOptr ign = none) :
    ∃ s, tSQLGetToken (str.drop s) = none := by
  unfold tStrGetToken at h
  split at h
  · cases h
  · split at h
    · next hs => exact scanLoop_none str ign hign _ i 0 0 hi (by omega) hs
    · cases h
    · split at h
      · cases h
      · split at h
        · split at h
          · next hn => exact ⟨_, hn⟩
          · split at h <;> cases h
        · split at h
          · split at h
            · next hn => exact ⟨_, hn⟩
            · split at h <;> cases h
          · cases h

/-- C26: `tStrGetToken` on a buffer `str`, a cursor `i` inside it and an ignore set
without `TK_ILLEGAL`.  The inner loop started inside the buffer ends inside the buffer,
at a byte that is neither blank nor a comma unless it returned at the second comma.  A
pass of the outer loop entered with `*i + t0.n = s` that discards its token leaves
`*i + t0.n` at least one byte further and not behind the terminator.  So the outer loop
makes at most as many discarding passes as there are bytes left: the result with room
for `str.length - i + 1` passes, the last one not discarding, is the result with room for
any number of passes above `str.length - i`.  The function has no result only where
`tSQLGetToken` has none at some position, and it has a result on every buffer of fewer
than 128 bytes below 128. -/
theorem tStrGetToken_terminates (str ign : List Nat) (i : Nat) (isPrevOptr : Bool)
    (hign : TK_ILLEGAL ∉ ign) (hi : i ≤ str.length) :
    (∀ s, s ≤ str.length →
      s ≤ (skipLoop str str.length s false).1 ∧
      (skipLoop str str.length s false).1 ≤ str.length ∧
      ((skipLoop str str.length s false).2 = false →
        isBlank (byteAt str (skipLoop str str.length s false).1) = false ∧
        byteAt str (skipLoop str str.length s false).1 ≠ 44)) ∧
    (∀ s n2 k, s ≤ str.length →
      tSQLGetToken (str.drop (skipLoop str str.length s false).1) = some (n2, k) →
      ign.contains k = true →
      s + 1 ≤ (skipLoop str str.length s false).1 + n2 ∧
      (skipLoop str str.length s false).1 + n2 ≤ str.length) ∧
    (∀ f, str.length - i < f →
      scanLoop str ign f i 0 0 = scanLoop str ign (str.length - i + 1) i 0 0) ∧
    (tStrGetToken str i isPrevOptr ign = none → ∃ s, tSQLGetToken (str.drop s) = none) ∧
    ((∀ c ∈ str, c < 128) → str.length < 128 →
      ∃ r, tStrGetToken str i isPrevOptr ign = some r) := by
  refine ⟨?_, ?_, ?_, ?_, ?_⟩
  · intro s hs
    exact ⟨skipLoop_ge str _ s false, skipLoop_le str _ s false hs,
      skipLoop_done str _ s false hs (by omega)⟩
  · intro s n2 k hs h hk
    exact pass_progress str ign hign s n2 k hs h hk
  · intro f hf
    exact scanLoop_fuel str ign hign f _ i 0 0 hi (by omega) (by omega)
  · exact tStrGetToken_none str ign hign i isPrevOptr hi
  · intro hb hl
    cases h : tStrGetToken str i isPrevOptr ign with
    | some r => exact ⟨r, rfl⟩
    | none =>
      obtain ⟨s, hs⟩ := tStrGetToken_none str ign hign i isPrevOptr hi h
      obtain ⟨r, hr⟩ := defined_tSQLGetToken (str.drop s)
        (fun c hc => hb c (List.mem_of_mem_drop hc))
        (by rw [List.length_drop]; omega)
      rw [hr] at hs
      cases hs

theorem tStrGetToken_terminates_witness :
    TK_ILLEGAL ∉ [TK_ID] ∧ 0 ≤ (bytes "a b c").length ∧
    (∃ r, tStrGetToken (bytes "a b c") 0 false [TK_ID] = some r) ∧
    tStrGetToken (bytes "a b c") 0 false [TK_ID] = some (⟨0, TK_ILLEGAL, some 5⟩, 5) ∧
    scanLoop (bytes "a b c") [TK_ID] 4 0 0 0 = some (false, 5, 0, TK_ILLEGAL) ∧
    scanLoop (bytes "a b c") [TK_ID] 3 0 0 0 = none :=
  ⟨by decide, by decide,
    (tStrGetToken_terminates (bytes "a b c") [TK_ID] 0 false (by decide) (by decide)).2.2.2.2
      (by decide) (by decide),
    by decide, by decide, by decide⟩

end TDengine
